import Mathlib

/-!
# Quantisation functions of the sinusoidal coder (`src/quantise.c`)

A shallow embedding of the quantisers of `quantise.c` and proofs about them.

Conventions of the embedding:

* C `float`/`double` values are rationals (`ℚ`). Where a property does not
  depend on rounding the arithmetic is exact. Where it does
  (`bw_expand_lsps_f32`, `decode_lsps_f32`, `locate_lsps_jnd_steps`) every
  operation is rounded to binary32 (`f32`) or binary64 (`f64`) as the target
  with `float` evaluation does (x86-64 with SSE arithmetic), to nearest with
  ties to even. Overflow to infinity, subnormal numbers and NaN are not
  modelled.
* C arrays are `List ℚ`; a read `a[i]` is `a.getD i 0`, a write `a[i] = v` is
  `a.set i v`, and a pointer `&a[i]` passed to a callee is `a.drop i`.
* C `int`/`long` values are `ℤ` or `ℕ` (unbounded); `1 << n` is `2 ^ n`, and
  `&`, `|`, `~` on `int` are the two's complement `Int.land`, `Int.lor`,
  `Int.lnot`.
* `floor` followed by the conversion to `int` is `Int.floor` where the value
  fits the 32-bit `int`; where the inputs of a property range over values that
  do not fit (`encode_Wo_dt`, `encode_Wo_int32`, `encode_energy_int32`) the
  store into the `int` is `double_to_int`.
* Loop bounds and sizes (`k`, `m`, `order`) and codebook indexes are `ℕ`.
* The literal `1E32` is the rational `10 ^ 32`.
* The constants of `defines.h` and the codebook tables of `codebook*.c` are
  not among the sources, so they are parameters (`Defines`, `lsp_codebook`).
* Routines of other files (`autocorrelate`, `levinson_durbin`, `lpc_to_lsp`,
  `fft`) and of the C library (`log10`, `sqrt`) are function parameters.
* Entries of a local array that the code has not assigned read as 0.
-/

/-! ## Definitions -/

/-- Constants taken from `defines.h`. -/
structure Defines where
  PI : ℚ
  TWO_PI : ℚ
  P_MIN : ℚ
  P_MAX : ℚ
  WO_LEVELS : ℤ
  WO_DT_BITS : ℕ
  E_LEVELS : ℤ
  E_MIN_DB : ℚ
  E_MAX_DB : ℚ
  LPC_ORD : ℕ

/-- One entry of the codebook tables (`struct lsp_codebook` of `defines.h`):
dimension `k`, index width `log2m`, size `m` and the flat table `cb`. -/
structure lsp_codebook where
  k : ℕ
  log2m : ℕ
  m : ℕ
  cb : List ℚ

/-- The literal `1E32` that `quantise` stores in `beste` before the search. -/
def beste_init : ℚ := 10 ^ 32

/-- Inner loop of `quantise` for codeword `j`:
`e = 0.0; for(i=0; i<k; i++) { diff = cb[j*k+i]-vec[i]; e += pow(diff*w[i],2.0); }`. -/
def quantise_e (cb vec w : List ℚ) (k j : ℕ) : ℚ :=
  (List.range k).foldl
    (fun e i => e + ((cb.getD (j * k + i) 0 - vec.getD i 0) * w.getD i 0) ^ 2) 0

/-- Outer loop of `quantise`: the pair `(besti, beste)` after `for(j=0; j<m; j++)`,
starting from `besti = 0`, `beste = 1E32`. -/
def quantise_search (cb vec w : List ℚ) (k m : ℕ) : ℕ × ℚ :=
  (List.range m).foldl
    (fun st j =>
      if quantise_e cb vec w k j < st.2 then (j, quantise_e cb vec w k j) else st)
    (0, beste_init)

/-- The function `quantise(cb, vec, w, k, m, se)`: returns `besti` together with
the new value of `*se`, which is `*se + beste`. -/
def quantise (cb vec w : List ℚ) (k m : ℕ) (se : ℚ) : ℕ × ℚ :=
  ((quantise_search cb vec w k m).1, se + (quantise_search cb vec w k m).2)

/-- The memory reachable from the pointer arguments of `quantise`. -/
structure quantise_mem where
  cb : List ℚ
  vec : List ℚ
  w : List ℚ
  se : ℚ

/-- A call of `quantise` as a transition on the memory it can reach: the only
assignment through a pointer in the body is `*se += beste`. -/
def quantise_call (μ : quantise_mem) (k m : ℕ) : ℕ × quantise_mem :=
  ((quantise μ.cb μ.vec μ.w k m μ.se).1,
    ⟨μ.cb, μ.vec, μ.w, (quantise μ.cb μ.vec μ.w k m μ.se).2⟩)

/-- Weighted squared error of codeword `j` as the contract writes it:
`Σ_i ((cb[j*k+i] - vec[i]) * w[i])^2`. -/
def weighted_sq_err (cb vec w : List ℚ) (k j : ℕ) : ℚ :=
  ∑ i in Finset.range k, ((cb.getD (j * k + i) 0 - vec.getD i 0) * w.getD i 0) ^ 2

/-- Local `Wo_min = TWO_PI/P_MAX` of the pitch quantisers. -/
def Wo_min (d : Defines) : ℚ := d.TWO_PI / d.P_MAX

/-- Local `Wo_max = TWO_PI/P_MIN` of the pitch quantisers. -/
def Wo_max (d : Defines) : ℚ := d.TWO_PI / d.P_MIN

/-- Local `step = (Wo_max - Wo_min)/WO_LEVELS` of the pitch decoders. -/
def Wo_step (d : Defines) : ℚ := (Wo_max d - Wo_min d) / (d.WO_LEVELS : ℚ)

/-- The two clamping statements shared by the scalar encoders:
`if (index < 0) index = 0; if (index > (levels-1)) index = levels-1;`. -/
def clamp_index (levels index : ℤ) : ℤ :=
  let index1 := if index < 0 then 0 else index
  if index1 > levels - 1 then levels - 1 else index1

/-- The function `encode_Wo(Wo)`. -/
def encode_Wo (d : Defines) (Wo : ℚ) : ℤ :=
  let norm := (Wo - Wo_min d) / (Wo_max d - Wo_min d)
  let index := ⌊(d.WO_LEVELS : ℚ) * norm + 1 / 2⌋
  clamp_index d.WO_LEVELS index

/-- The function `decode_Wo(index)`. -/
def decode_Wo (d : Defines) (index : ℤ) : ℚ :=
  Wo_min d + Wo_step d * (index : ℚ)

/-- The hard limit of `encode_Wo_dt`:
`max_index = (1 << (WO_DT_BITS-1)) - 1; min_index = -(max_index+1);`
`if (index > max_index) index = max_index; if (index < min_index) index = min_index;`. -/
def hard_limit (bits : ℕ) (index : ℤ) : ℤ :=
  let max_index : ℤ := 2 ^ (bits - 1) - 1
  let min_index : ℤ := -(max_index + 1)
  let index1 := if index > max_index then max_index else index
  if index1 < min_index then min_index else index1

/-- Store of a `double` holding the integer `z` into a 32-bit `int`: `z` itself
when it fits. For a value that does not fit, the C standard leaves the result
undefined and the conversion instruction of x86-64 yields `INT_MIN = -2^31`;
that is the value taken here. -/
def double_to_int (z : ℤ) : ℤ :=
  if -2 ^ 31 ≤ z ∧ z < 2 ^ 31 then z else -2 ^ 31

/-- The rounded difference index of `encode_Wo_dt` before the hard limit:
`norm = (Wo - prev_Wo)/(Wo_max - Wo_min); index = floor(WO_LEVELS * norm + 0.5);`,
the value of `floor` being stored in the `int index`. -/
def Wo_dt_raw (d : Defines) (Wo prev_Wo : ℚ) : ℤ :=
  double_to_int ⌊(d.WO_LEVELS : ℚ) * ((Wo - prev_Wo) / (Wo_max d - Wo_min d)) + 1 / 2⌋

/-- The function `encode_Wo_dt(Wo, prev_Wo)`: round, hard limit, then
`mask = ((1 << WO_DT_BITS) - 1); index &= mask;`. -/
def encode_Wo_dt (d : Defines) (Wo prev_Wo : ℚ) : ℤ :=
  Int.land (hard_limit d.WO_DT_BITS (Wo_dt_raw d Wo prev_Wo)) (2 ^ d.WO_DT_BITS - 1)

/-- Sign extension at the head of `decode_Wo_dt`:
`if (index & (1 << (WO_DT_BITS-1))) { mask = ~((1 << WO_DT_BITS) - 1); index |= mask; }`. -/
def sign_extend (bits : ℕ) (index : ℤ) : ℤ :=
  if Int.land index (2 ^ (bits - 1)) ≠ 0 then
    Int.lor index (Int.lnot (2 ^ bits - 1))
  else index

/-- The function `decode_Wo_dt(index, prev_Wo)`. -/
def decode_Wo_dt (d : Defines) (index : ℤ) (prev_Wo : ℚ) : ℚ :=
  prev_Wo + Wo_step d * (sign_extend d.WO_DT_BITS index : ℚ)

/-- The function `encode_energy(e)`; `log10` stands for the C library
function of that name. -/
def encode_energy (d : Defines) (log10 : ℚ → ℚ) (e : ℚ) : ℤ :=
  let e_min := d.E_MIN_DB
  let e_max := d.E_MAX_DB
  let e1 := 10 * log10 e
  let norm := (e1 - e_min) / (e_max - e_min)
  let index := ⌊(d.E_LEVELS : ℚ) * norm + 1 / 2⌋
  clamp_index d.E_LEVELS index

/-- The function `encode_Wo(Wo)` with the store of `floor(...)` into the 32-bit
`int index` explicit. It agrees with `encode_Wo` whenever the rounded value
fits an `int`, as it does for every `Wo` of the pitch range; it is the model
for inputs of any magnitude. -/
def encode_Wo_int32 (d : Defines) (Wo : ℚ) : ℤ :=
  let norm := (Wo - Wo_min d) / (Wo_max d - Wo_min d)
  let index := double_to_int ⌊(d.WO_LEVELS : ℚ) * norm + 1 / 2⌋
  clamp_index d.WO_LEVELS index

/-- The function `encode_energy(e)` with the store of `floor(...)` into the
32-bit `int index` explicit; `log10` stands for the C library function of that
name. It agrees with `encode_energy` whenever the rounded value fits an `int`. -/
def encode_energy_int32 (d : Defines) (log10 : ℚ → ℚ) (e : ℚ) : ℤ :=
  let e_min := d.E_MIN_DB
  let e_max := d.E_MAX_DB
  let e1 := 10 * log10 e
  let norm := (e1 - e_min) / (e_max - e_min)
  let index := double_to_int ⌊(d.E_LEVELS : ℚ) * norm + 1 / 2⌋
  clamp_index d.E_LEVELS index

/-- Rounding of a rational to the nearest integer, a tie going to the even
neighbour. -/
def round_half_even (q : ℚ) : ℤ :=
  if q - ⌊q⌋ < 1 / 2 then ⌊q⌋
  else if 1 / 2 < q - ⌊q⌋ then ⌊q⌋ + 1
  else if ⌊q⌋ % 2 = 0 then ⌊q⌋ else ⌊q⌋ + 1

/-- Rounding of a real to the binary floating-point format with `p` significant
bits, to nearest with ties to even (the IEEE 754 default): `x` is scaled by the
power of two that brings it into `[2^(p-1), 2^p)`, rounded to an integer and
scaled back. The exponent is unbounded: overflow and subnormal numbers are not
modelled. -/
def fl (p : ℕ) (x : ℚ) : ℚ :=
  if x = 0 then 0
  else (round_half_even (x / 2 ^ (Int.log 2 |x| - ((p : ℤ) - 1))) : ℚ) *
    2 ^ (Int.log 2 |x| - ((p : ℤ) - 1))

/-- Rounding to a C `float` (binary32: 24 significant bits). -/
def f32 (x : ℚ) : ℚ := fl 24 x

/-- Rounding to a C `double` (binary64: 53 significant bits). -/
def f64 (x : ℚ) : ℚ := fl 53 x

/-- Body of both loops of `bw_expand_lsps` at index `i`:
`if ((lsp[i] - lsp[i-1]) < thr) lsp[i] = lsp[i-1] + bump;`. -/
def bw_expand_step (thr bump : ℚ) (lsp : List ℚ) (i : ℕ) : List ℚ :=
  if lsp.getD i 0 - lsp.getD (i - 1) 0 < thr then
    lsp.set i (lsp.getD (i - 1) 0 + bump)
  else lsp

/-- The function `bw_expand_lsps(lsp, order)`: the loop `for(i=1; i<4; i++)`
with threshold `25*(PI/4000.0)` and increment `50.0*(PI/4000.0)`, then the loop
`for(i=4; i<order; i++)` with threshold `PI*(50.0/4000.0)` and increment
`PI*(100.0/4000.0)`. -/
def bw_expand_lsps (PI : ℚ) (lsp : List ℚ) (order : ℕ) : List ℚ :=
  (List.range' 4 (order - 4)).foldl
    (bw_expand_step (PI * (50 / 4000)) (PI * (100 / 4000)))
    ((List.range' 1 3).foldl
      (bw_expand_step (25 * (PI / 4000)) (50 * (PI / 4000))) lsp)

/-- Body of both loops of `bw_expand_lsps` at index `i` in the arithmetic of
the target: `lsp[i] - lsp[i-1]` is a `float` subtraction whose result is
compared with the `double` threshold `thr`; `lsp[i-1] + bump` is a `double`
addition whose result is stored in the `float lsp[i]`. -/
def bw_expand_step_f32 (thr bump : ℚ) (lsp : List ℚ) (i : ℕ) : List ℚ :=
  if f32 (lsp.getD i 0 - lsp.getD (i - 1) 0) < thr then
    lsp.set i (f32 (f64 (lsp.getD (i - 1) 0 + bump)))
  else lsp

/-- The function `bw_expand_lsps(lsp, order)` in the arithmetic of the target.
`PI` is the value of the `double` constant of that name; the thresholds and
increments `25*(PI/4000.0)`, `50.0*(PI/4000.0)`, `PI*(50.0/4000.0)` and
`PI*(100.0/4000.0)` are `double` expressions, rounded after each operation. -/
def bw_expand_lsps_f32 (PI : ℚ) (lsp : List ℚ) (order : ℕ) : List ℚ :=
  (List.range' 4 (order - 4)).foldl
    (bw_expand_step_f32 (f64 (PI * f64 (50 / 4000))) (f64 (PI * f64 (100 / 4000))))
    ((List.range' 1 3).foldl
      (bw_expand_step_f32 (f64 (25 * f64 (PI / 4000))) (f64 (50 * f64 (PI / 4000)))) lsp)

/-- The function `encode_lsps(indexes, lsp, order)`: the list of indexes
written. Position `i` is searched in codebook `lsp_cb[i]` with target
`&lsp_hz[i]` and the one-element weight vector `wt = {1.0}`. The argument `se`
is the value held by the local `float se`, which the function passes to
`quantise` without assigning it first. -/
def encode_lsps (d : Defines) (lsp_cb : ℕ → lsp_codebook) (lsp : List ℚ)
    (order : ℕ) (se : ℚ) : List ℕ :=
  let lsp_hz := (List.range order).map (fun i => (4000 / d.PI) * lsp.getD i 0)
  (List.range order).map
    (fun i => (quantise (lsp_cb i).cb (lsp_hz.drop i) [1] (lsp_cb i).k (lsp_cb i).m se).1)

/-- The function `decode_lsps(lsp, indexes, order)`: the `order` values written
to `lsp`, `lsp[i] = (PI/4000.0) * cb[indexes[i]*k]`. -/
def decode_lsps (d : Defines) (lsp_cb : ℕ → lsp_codebook) (indexes : List ℕ)
    (order : ℕ) : List ℚ :=
  (List.range order).map
    (fun i => (d.PI / 4000) * (lsp_cb i).cb.getD (indexes.getD i 0 * (lsp_cb i).k) 0)

/-- The function `decode_lsps(lsp, indexes, order)` in the arithmetic of the
target: `lsp[i] = (PI/4000.0)*lsp_hz[i]` is a `double` product of the `double`
constant `PI/4000.0` with the `float` codeword, stored in the `float lsp[i]`. -/
def decode_lsps_f32 (d : Defines) (lsp_cb : ℕ → lsp_codebook) (indexes : List ℕ)
    (order : ℕ) : List ℚ :=
  (List.range order).map
    (fun i => f32 (f64 (f64 (d.PI / 4000) *
      (lsp_cb i).cb.getD (indexes.getD i 0 * (lsp_cb i).k) 0)))

/-- The array `lsps` after `decode_amplitudes`, in the arithmetic of the
target: it is written by `decode_lsps(lsps, lsp_indexes, LPC_ORD)` and
`bw_expand_lsps(lsps, LPC_ORD)` and only read afterwards. -/
def decode_amplitudes_lsps (d : Defines) (lsp_cb : ℕ → lsp_codebook)
    (lsp_indexes : List ℕ) : List ℚ :=
  bw_expand_lsps_f32 d.PI (decode_lsps_f32 d lsp_cb lsp_indexes d.LPC_ORD) d.LPC_ORD

/-- Band threshold of `bw_expand_lsps` at index `i`, as the `double` the target
computes. -/
def bw_thr_f32 (PI : ℚ) (i : ℕ) : ℚ :=
  if i < 4 then f64 (25 * f64 (PI / 4000)) else f64 (PI * f64 (50 / 4000))

/-- Band increment of `bw_expand_lsps` at index `i`, as the `double` the target
computes. -/
def bw_bump_f32 (PI : ℚ) (i : ℕ) : ℚ :=
  if i < 4 then f64 (50 * f64 (PI / 4000)) else f64 (PI * f64 (100 / 4000))

/-- Band threshold of `bw_expand_lsps` at index `i`. -/
def bw_thr (PI : ℚ) (i : ℕ) : ℚ :=
  if i < 4 then 25 * (PI / 4000) else PI * (50 / 4000)

/-- Band increment of `bw_expand_lsps` at index `i`. -/
def bw_bump (PI : ℚ) (i : ℕ) : ℚ :=
  if i < 4 then 50 * (PI / 4000) else PI * (100 / 4000)

/-- One left-to-right pass of `bw_expand_step` over the indexes
`lo, lo+1, ..., lo+n-1` with index-dependent threshold and increment. -/
def lsp_pass (thr bump : ℕ → ℚ) (lsp : List ℚ) (lo n : ℕ) : List ℚ :=
  (List.range' lo n).foldl (fun l i => bw_expand_step (thr i) (bump i) l i) lsp

/-- The minimum-separation invariant of the specification for a vector of
`order` LSPs, scaled by the factor `r`: adjacent pairs are at least
`r*25*PI/4000` apart for `i = 1..3` and at least `r*50*PI/4000` apart for
`i = 4..order-1`. With `r = 1` it is the invariant as the specification writes
it. -/
def lsp_separated_within (r PI : ℚ) (lsp : List ℚ) (order : ℕ) : Prop :=
  (∀ i, 1 ≤ i → i < 4 → r * (25 * PI / 4000) ≤ lsp.getD i 0 - lsp.getD (i - 1) 0) ∧
  (∀ i, 4 ≤ i → i < order → r * (50 * PI / 4000) ≤ lsp.getD i 0 - lsp.getD (i - 1) 0)

/-- Strict ordering of a vector of `order` LSPs: `lsp[i-1] < lsp[i]` for
`i = 1..order-1`. -/
def lsp_increasing (lsp : List ℚ) (order : ℕ) : Prop :=
  ∀ i, 1 ≤ i → i < order → lsp.getD (i - 1) 0 < lsp.getD i 0

/-- The function `lspdt_quantise(lsps, lsps_, lsps__prev, mode)`: the array
`lsps_` afterwards. `lsp_cbdt` is the table of that name and `LSPDT_LOW`,
`LSPDT_HIGH` are the mode constants of `quantise.h`. The first loop sets
`lsps_dt[i] = (4000/PI)*(lsps[i] - lsps__prev[i])` and `lsps_[i] = lsps__prev[i]`
for `i < LPC_ORD`; unless `mode == LSPDT_HIGH` the codeword found for `lsps_dt`
in `lsp_cbdt[0]` is added to entries 0..3; unless `mode == LSPDT_LOW` the
codeword found for `&lsps_dt[4]` in `lsp_cbdt[1]` is added to entries 4..9. -/
def lspdt_quantise (d : Defines) (lsp_cbdt : ℕ → lsp_codebook) (LSPDT_LOW LSPDT_HIGH : ℤ)
    (lsps lsps_ lsps__prev : List ℚ) (mode : ℤ) : List ℚ :=
  let wt := List.replicate d.LPC_ORD (1 : ℚ)
  let lsps_dt := (List.range d.LPC_ORD).map
    (fun i => (4000 / d.PI) * (lsps.getD i 0 - lsps__prev.getD i 0))
  let lsps_0 := (List.range d.LPC_ORD).foldl (fun l i => l.set i (lsps__prev.getD i 0)) lsps_
  let q0 := quantise (lsp_cbdt 0).cb lsps_dt wt (lsp_cbdt 0).k (lsp_cbdt 0).m 0
  let lsps_1 :=
    if mode ≠ LSPDT_HIGH then
      (List.range' 0 4).foldl
        (fun l i => l.set i
          (l.getD i 0 + (d.PI / 4000) * (lsp_cbdt 0).cb.getD (q0.1 * (lsp_cbdt 0).k + i) 0))
        lsps_0
    else lsps_0
  let se1 := if mode ≠ LSPDT_HIGH then q0.2 else 0
  let q1 := quantise (lsp_cbdt 1).cb (lsps_dt.drop 4) wt (lsp_cbdt 1).k (lsp_cbdt 1).m se1
  if mode ≠ LSPDT_LOW then
    (List.range' 4 6).foldl
      (fun l i => l.set i
        (l.getD i 0 + (d.PI / 4000) * (lsp_cbdt 1).cb.getD (q1.1 * (lsp_cbdt 1).k + i - 4) 0))
      lsps_1
  else lsps_1

/-- Loop body of `check_lsp_order` at index `i`:
`if (lsp[i] < lsp[i-1]) { tmp = lsp[i-1]; lsp[i-1] = lsp[i]-0.05; lsp[i] = tmp+0.05; }`. -/
def check_lsp_order_step (lsp : List ℚ) (i : ℕ) : List ℚ :=
  if lsp.getD i 0 < lsp.getD (i - 1) 0 then
    (lsp.set (i - 1) (lsp.getD i 0 - 5 / 100)).set i (lsp.getD (i - 1) 0 + 5 / 100)
  else lsp

/-- The function `check_lsp_order(lsp, lpc_order)`: `for(i=1; i<lpc_order; i++)`
over the loop body. -/
def check_lsp_order (lsp : List ℚ) (lpc_order : ℕ) : List ℚ :=
  (List.range' 1 (lpc_order - 1)).foldl check_lsp_order_step lsp

/-- Loop body of `force_min_lsp_dist` at index `i`:
`if ((lsp[i]-lsp[i-1]) < 0.01) { lsp[i] += 0.01; }`. -/
def force_min_lsp_dist_step (lsp : List ℚ) (i : ℕ) : List ℚ :=
  if lsp.getD i 0 - lsp.getD (i - 1) 0 < 1 / 100 then
    lsp.set i (lsp.getD i 0 + 1 / 100)
  else lsp

/-- The function `force_min_lsp_dist(lsp, lpc_order)`: `for(i=1; i<lpc_order; i++)`
over the loop body. -/
def force_min_lsp_dist (lsp : List ℚ) (lpc_order : ℕ) : List ℚ :=
  (List.range' 1 (lpc_order - 1)).foldl force_min_lsp_dist_step lsp

/-- The function `speech_to_uq_lsps(lsp, ak, Sn, w, order)`: the triple of the
returned `E`, the array `lsp` and the array `ak` afterwards. `M` is the frame
size of `defines.h`; `autocorrelate`, `levinson_durbin` and `lpc_to_lsp` are the
external routines of `lpc.c` and `lsp.c`, the last one giving the array it
leaves in `lsp` and the root count it returns. -/
def speech_to_uq_lsps (d : Defines) (M : ℕ)
    (autocorrelate : List ℚ → ℕ → List ℚ)
    (levinson_durbin : List ℚ → ℕ → List ℚ)
    (lpc_to_lsp : List ℚ → ℕ → List ℚ × ℤ)
    (Sn w : List ℚ) (order : ℕ) : ℚ × List ℚ × List ℚ :=
  let Wn := (List.range M).map (fun i => Sn.getD i 0 * w.getD i 0)
  let R := autocorrelate Wn order
  let ak := levinson_durbin R order
  let E := (List.range (order + 1)).foldl (fun E i => E + ak.getD i 0 * R.getD i 0) 0
  let found := lpc_to_lsp ak order
  let lsp :=
    if found.2 ≠ (order : ℤ) then
      (List.range order).foldl (fun l i => l.set i ((d.PI / (order : ℚ)) * (i : ℚ))) found.1
    else found.1
  (E, lsp, ak)

/-- The value that the first three statements of the loop body of
`locate_lsps_jnd_steps` store in `lsps[i]`, from the old entry `x` and the step
size, in the arithmetic of the target:
`lsp_hz = lsps[i]*4000.0/PI; lsp_hz = floor(lsp_hz/step + 0.5)*step;`
`lsps[i] = lsp_hz*PI/4000.0;`.
`lsps`, `lsp_hz` and `step` are `float`, `PI` and the literals are `double`: the
quotient `lsp_hz/step` is a `float` division, every other operation is a
`double` operation, and each assignment rounds to `float`. -/
def jnd_round (PI step x : ℚ) : ℚ :=
  let lsp_hz := f32 (f64 (f64 (x * 4000) / PI))
  let lsp_hz1 := f32 (f64 (((⌊f64 (f32 (lsp_hz / step) + 1 / 2)⌋ : ℤ) : ℚ) * step))
  f32 (f64 (f64 (lsp_hz1 * PI) / 4000))

/-- Loop body shared by the three loops of `locate_lsps_jnd_steps`, at index
`i` with step size `step`, in the arithmetic of the target: the rounding of
`lsps[i]` (`jnd_round`), then
`if (i) { if (lsps[i] == lsps[i-1]) lsps[i] += step*PI/4000.0; }`.
The comparison `==` is between the two stored `float` values; the increment
`step*PI/4000.0` and the sum are `double` operations, and the sum is stored in
the `float lsps[i]`. -/
def jnd_step (PI step : ℚ) (lsps : List ℚ) (i : ℕ) : List ℚ :=
  let lsps1 := lsps.set i (jnd_round PI step (lsps.getD i 0))
  if i ≠ 0 then
    if lsps1.getD i 0 = lsps1.getD (i - 1) 0 then
      lsps1.set i (f32 (f64 (lsps1.getD i 0 + f64 (f64 (step * PI) / 4000))))
    else lsps1
  else lsps1

/-- The function `locate_lsps_jnd_steps(lsps, order)`: `none` when
`assert(order == 10)` fails, otherwise the array `lsps` after the loops
`for(i=0; i<2; i++)` with `step = 25`, `for(i=2; i<4; i++)` with `step = 50` and
`for(i=4; i<10; i++)` with `step = 100`. `PI` is the value of the `double`
constant of that name. -/
def locate_lsps_jnd_steps (PI : ℚ) (lsps : List ℚ) (order : ℕ) : Option (List ℚ) :=
  if order ≠ 10 then none
  else
    some ((List.range' 4 6).foldl (jnd_step PI 100)
      ((List.range' 2 2).foldl (jnd_step PI 50)
        ((List.range' 0 2).foldl (jnd_step PI 25) lsps)))

/-- The arrays and the accumulator that the first loop of `lspd_quantise`
updates: `dlsp`, `lsp__hz`, the output `lsp_` and `se`. -/
structure lspd_state where
  dlsp : List ℚ
  lsp__hz : List ℚ
  lsp_ : List ℚ
  se : ℚ

/-- Body of the loop `for(i=0; i<4; i++)` of `lspd_quantise`:
`if (i) dlsp[i] = lsp_hz[i] - lsp__hz[i-1]; else dlsp[0] = lsp_hz[0];`
`indexes[i] = quantise(cb, &dlsp[i], wt, k, m, &se); dlsp_[i] = cb[indexes[i]*k];`
`if (i) lsp__hz[i] = lsp__hz[i-1] + dlsp_[i]; else lsp__hz[0] = dlsp_[0];`
`lsp_[i] = (PI/4000.0)*lsp_hz[i];`. -/
def lspd_step (d : Defines) (lsp_cbd : ℕ → lsp_codebook) (wt lsp_hz : List ℚ)
    (st : lspd_state) (i : ℕ) : lspd_state :=
  let dlsp := st.dlsp.set i
    (if i ≠ 0 then lsp_hz.getD i 0 - st.lsp__hz.getD (i - 1) 0 else lsp_hz.getD 0 0)
  let q := quantise (lsp_cbd i).cb (dlsp.drop i) wt (lsp_cbd i).k (lsp_cbd i).m st.se
  let dlsp_i := (lsp_cbd i).cb.getD (q.1 * (lsp_cbd i).k) 0
  let lsp__hz := st.lsp__hz.set i
    (if i ≠ 0 then st.lsp__hz.getD (i - 1) 0 + dlsp_i else dlsp_i)
  ⟨dlsp, lsp__hz, st.lsp_.set i ((d.PI / 4000) * lsp_hz.getD i 0), q.2⟩

/-- The function `lspd_quantise(lsp, lsp_, order)` as compiled (`PREV_VQ` is
not defined): the array `lsp_` afterwards. `LPC_MAX` is the size of the local
arrays, whose unassigned entries read as 0; `lsp_cbd` and `lsp_cbjnd` are the
tables of those names; `se` is the value held by the unassigned local `se`. -/
def lspd_quantise (d : Defines) (LPC_MAX : ℕ) (lsp_cbd lsp_cbjnd : ℕ → lsp_codebook)
    (lsp lsp_ : List ℚ) (order : ℕ) (se : ℚ) : List ℚ :=
  let wt := (List.range LPC_MAX).map (fun i => if i < d.LPC_ORD then (1 : ℚ) else 0)
  let lsp_hz := (List.range LPC_MAX).map
    (fun i => if i < order then (4000 / d.PI) * lsp.getD i 0 else 0)
  let dlsp := (List.range LPC_MAX).map
    (fun i => if i = 0 then lsp_hz.getD 0 0
      else if i < order then lsp_hz.getD i 0 - lsp_hz.getD (i - 1) 0 else 0)
  let st := (List.range' 0 4).foldl (lspd_step d lsp_cbd wt lsp_hz)
    ⟨dlsp, List.replicate LPC_MAX 0, lsp_, se⟩
  let q := quantise (lsp_cbjnd 4).cb (lsp_hz.drop 4) (wt.drop 4)
    (lsp_cbjnd 4).k (lsp_cbjnd 4).m st.se
  (List.range' 4 (d.LPC_ORD - 4)).foldl
    (fun l i => l.set i
      ((lsp_cbjnd 4).cb.getD (q.1 * (lsp_cbjnd 4).k + i - 4) 0 * (d.PI / 4000)))
    st.lsp_

/-- Body of the loop `for(i=0; i<4; i++)` of `lspvq_quantise` on the pair of the
output array `lsp_` and the accumulator `se`:
`lsp_hz[i] = 4000.0*lsp[i]/PI; index = quantise(cb, &lsp_hz[i], wt, k, m, &se);`
`lsp_[i] = cb[index*k]*PI/4000.0;`. The local array `lsp_hz` holds the entries
assigned so far and 0 elsewhere; the weights are still all `1.0`. -/
def lspvq_step (d : Defines) (lsp_cb : ℕ → lsp_codebook) (lsp : List ℚ)
    (st : List ℚ × ℚ) (i : ℕ) : List ℚ × ℚ :=
  let lsp_hz := (List.range d.LPC_ORD).map
    (fun j => if j ≤ i then 4000 * lsp.getD j 0 / d.PI else 0)
  let q := quantise (lsp_cb i).cb (lsp_hz.drop i) (List.replicate d.LPC_ORD 1)
    (lsp_cb i).k (lsp_cb i).m st.2
  (st.1.set i ((lsp_cb i).cb.getD (q.1 * (lsp_cb i).k) 0 * d.PI / 4000), q.2)

/-- The weight array of `lspvq_quantise` when the search for LSPs 5..10 starts:
`wt[i] = 1.0` from the first loop, then
`for(i=4; i<9; i++) wt[i] = 1.0/(lsp[i]-lsp[i-1]) + 1.0/(lsp[i+1]-lsp[i]);` and,
with `i = 9` left by that loop, `wt[9] = 1.0/(lsp[i]-lsp[i-1]);`. -/
def lspvq_wt (d : Defines) (lsp : List ℚ) : List ℚ :=
  (List.range d.LPC_ORD).map
    (fun i =>
      if 4 ≤ i ∧ i < 9 then
        1 / (lsp.getD i 0 - lsp.getD (i - 1) 0) + 1 / (lsp.getD (i + 1) 0 - lsp.getD i 0)
      else if i = 9 then 1 / (lsp.getD 9 0 - lsp.getD 8 0)
      else 1)

/-- The function `lspvq_quantise(lsp, lsp_, order)`: the array `lsp_`
afterwards. `lsp_cb` and `lsp_cbvq` are the tables of those names; `se` is the
value held by the unassigned local `se`. The six assignments
`lsp_[nlsp+t] = cb[index*k+t]`, `t = 0..5`, with `nlsp = 4`, are the last loop. -/
def lspvq_quantise (d : Defines) (lsp_cb lsp_cbvq : ℕ → lsp_codebook)
    (lsp lsp_ : List ℚ) (order : ℕ) (se : ℚ) : List ℚ :=
  let st := (List.range' 0 4).foldl (lspvq_step d lsp_cb lsp) (lsp_, se)
  let wt := lspvq_wt d lsp
  let q := quantise (lsp_cbvq 4).cb (lsp.drop 4) (wt.drop 4)
    (lsp_cbvq 4).k (lsp_cbvq 4).m st.2
  (List.range' 0 6).foldl
    (fun l t => l.set (4 + t) ((lsp_cbvq 4).cb.getD (q.1 * (lsp_cbvq 4).k + t) 0))
    st.1

/-- The weight of LSP `i` as the specification writes it:
`1/(lsp[i]-lsp[i-1]) + 1/(lsp[i+1]-lsp[i])` for `i = 4..8` and
`1/(lsp[9]-lsp[8])` at the last index. -/
def lsp_spacing_weight (lsp : List ℚ) (i : ℕ) : ℚ :=
  if i = 9 then 1 / (lsp.getD 9 0 - lsp.getD 8 0)
  else 1 / (lsp.getD i 0 - lsp.getD (i - 1) 0) + 1 / (lsp.getD (i + 1) 0 - lsp.getD i 0)

/-- The error that the specification has `lspvq_quantise` minimise over the
codewords `c = cb[j*6 .. j*6+5]`:
`sum_{i=4..9} ((c[i-4] - lsp[i]) * wt[i])^2`. -/
def lspvq_err (cb lsp : List ℚ) (j : ℕ) : ℚ :=
  ∑ i in Finset.Icc 4 9,
    ((cb.getD (j * 6 + (i - 4)) 0 - lsp.getD i 0) * lsp_spacing_weight lsp i) ^ 2

/-- The fields of `MODEL` (`defines.h`) that `aks_to_M2` uses: the fundamental
`Wo`, the number of harmonics `L` and the amplitudes `A[1..L]` (entry 0 of the
array is not used). -/
structure MODEL where
  Wo : ℚ
  L : ℕ
  A : List ℚ

/-- The accumulators and the amplitude array that the harmonic loop of
`aks_to_M2` updates. -/
structure aks_state where
  A : List ℚ
  signal : ℚ
  noise : ℚ

/-- The array `Pw` of `aks_to_M2` when the harmonic loop starts: zeroed, loaded
with `ak[0..order]` in the real parts, transformed by `fft` (the external
transform of `fft.c`), and then, for the bins `i < FFT_DEC/2` only, the real
part replaced by `E/(real^2 + imag^2)`. -/
def aks_Pw (FFT_DEC : ℕ) (fft : List (ℚ × ℚ) → List (ℚ × ℚ)) (ak : List ℚ) (order : ℕ)
    (E : ℚ) : List (ℚ × ℚ) :=
  let Pw0 := (List.range FFT_DEC).map
    (fun i => if i ≤ order then (ak.getD i 0, (0 : ℚ)) else (0, 0))
  let Pw1 := fft Pw0
  (List.range FFT_DEC).map
    (fun i =>
      if i < FFT_DEC / 2 then
        (E / ((Pw1.getD i (0, 0)).1 * (Pw1.getD i (0, 0)).1 +
          (Pw1.getD i (0, 0)).2 * (Pw1.getD i (0, 0)).2), (Pw1.getD i (0, 0)).2)
      else Pw1.getD i (0, 0))

/-- Lower band limit of harmonic `m` in `aks_to_M2`:
`am = floor((m - 0.5)*model->Wo/r + 0.5)`. -/
def aks_am (r Wo : ℚ) (m : ℕ) : ℤ := ⌊((m : ℚ) - 1 / 2) * Wo / r + 1 / 2⌋

/-- Upper band limit of harmonic `m` in `aks_to_M2`:
`bm = floor((m + 0.5)*model->Wo/r + 0.5)`. -/
def aks_bm (r Wo : ℚ) (m : ℕ) : ℤ := ⌊((m : ℚ) + 1 / 2) * Wo / r + 1 / 2⌋

/-- Band energy of `aks_to_M2`: `Em = 0.0; for(i=am; i<bm; i++) Em += Pw[i].real;`. -/
def aks_Em (Pw : List (ℚ × ℚ)) (am bm : ℤ) : ℚ :=
  (List.range (bm - am).toNat).foldl
    (fun Em t => Em + (Pw.getD (am + (t : ℤ)).toNat (0, 0)).1) 0

/-- Body of the harmonic loop of `aks_to_M2` for harmonic `m`; `sqrt` is the C
library function of that name:
`Am = sqrt(Em); signal += pow(model->A[m],2.0);`
`noise += pow(model->A[m] - Am,2.0); model->A[m] = Am;`. -/
def aks_step (sqrt : ℚ → ℚ) (Pw : List (ℚ × ℚ)) (r Wo : ℚ) (st : aks_state) (m : ℕ) :
    aks_state :=
  let Am := sqrt (aks_Em Pw (aks_am r Wo m) (aks_bm r Wo m))
  ⟨st.A.set m Am, st.signal + st.A.getD m 0 ^ 2, st.noise + (st.A.getD m 0 - Am) ^ 2⟩

/-- The function `aks_to_M2(ak, order, model, E, snr, dump)` without the dump:
the `model` afterwards and the value stored in `*snr`. `FFT_DEC` is the
transform size of `defines.h`; `fft`, `sqrt` and `log10` are the external
transform and the C library functions. -/
def aks_to_M2 (d : Defines) (FFT_DEC : ℕ) (fft : List (ℚ × ℚ) → List (ℚ × ℚ))
    (sqrt log10 : ℚ → ℚ) (ak : List ℚ) (order : ℕ) (model : MODEL) (E : ℚ) : MODEL × ℚ :=
  let r := d.TWO_PI / (FFT_DEC : ℚ)
  let Pw := aks_Pw FFT_DEC fft ak order E
  let st := (List.range' 1 model.L).foldl (aks_step sqrt Pw r model.Wo)
    ⟨model.A, 0, 0⟩
  (⟨model.Wo, model.L, st.A⟩, 10 * log10 (st.signal / st.noise))

/-- The unweighted squared error that the specification has `lspdt_quantise`
minimise for a group of `k` LSPs starting at index `off`: the distance of the
codeword `cb[j*k .. j*k+k-1]` to the Hz differences
`(4000/PI)*(lsps[i] - lsps__prev[i])`, `i = off..off+k-1`. -/
def lspdt_err (PI : ℚ) (cb lsps lsps__prev : List ℚ) (k off j : ℕ) : ℚ :=
  ∑ i in Finset.range k,
    (cb.getD (j * k + i) 0 -
      (4000 / PI) * (lsps.getD (off + i) 0 - lsps__prev.getD (off + i) 0)) ^ 2

/-! ## Theorems -/

/-! ### The nearest-neighbour search `quantise` -/

theorem foldl_add_eq_sum (f : ℕ → ℚ) (k : ℕ) :
    (List.range k).foldl (fun e i => e + f i) 0 = ∑ i in Finset.range k, f i := by
  induction k with
  | zero => simp
  | succ n ih =>
    rw [List.range_succ, List.foldl_append, ih, Finset.sum_range_succ]
    rfl

theorem quantise_search_zero (cb vec w : List ℚ) (k : ℕ) :
    quantise_search cb vec w k 0 = (0, beste_init) := by
  simp [quantise_search]

/-- C1 (code at the failing input): with the codebook `[2^55, 2^54]` of two
one-dimensional codewords, target `[0]` and weight `[1]`, both errors exceed the
initial `beste = 1E32`, so the search accepts no codeword: `quantise` returns
index 0, and codeword 1 has a strictly smaller weighted squared error than the
returned codeword, which is therefore not the nearest vector of the codebook. -/
theorem quantise_not_minimal_example :
    (quantise [2 ^ 55, 2 ^ 54] [0] [1] 1 2 0).1 = 0 ∧
    ¬ (∀ i, i < 2 →
        weighted_sq_err [2 ^ 55, 2 ^ 54] [0] [1] 1
            (quantise [2 ^ 55, 2 ^ 54] [0] [1] 1 2 0).1 ≤
          weighted_sq_err [2 ^ 55, 2 ^ 54] [0] [1] 1 i) := by
  have h0 : (quantise [2 ^ 55, 2 ^ 54] [0] [1] 1 2 0).1 = 0 := by
    norm_num [quantise, quantise_search, quantise_e, beste_init, List.range_succ]
  refine ⟨h0, ?_⟩
  intro h
  have h1 := h 1 (by norm_num)
  rw [h0] at h1
  norm_num [weighted_sq_err, Finset.sum_range_succ] at h1

/-- C2 (code at the failing input): in the codebook `[2^56, 2^54, 2^54]`
the two identical codewords 1 and 2 are both nearest to the target `[0]`, so
the smallest index achieving the minimum is 1; every error exceeds the initial
`beste = 1E32`, and `quantise` returns 0, whose error is strictly larger. -/
theorem quantise_tie_example :
    weighted_sq_err [2 ^ 56, 2 ^ 54, 2 ^ 54] [0] [1] 1 1 =
      weighted_sq_err [2 ^ 56, 2 ^ 54, 2 ^ 54] [0] [1] 1 2 ∧
    (∀ i, i < 3 →
      weighted_sq_err [2 ^ 56, 2 ^ 54, 2 ^ 54] [0] [1] 1 1 ≤
        weighted_sq_err [2 ^ 56, 2 ^ 54, 2 ^ 54] [0] [1] 1 i) ∧
    (quantise [2 ^ 56, 2 ^ 54, 2 ^ 54] [0] [1] 1 3 0).1 = 0 ∧
    weighted_sq_err [2 ^ 56, 2 ^ 54, 2 ^ 54] [0] [1] 1 1 <
      weighted_sq_err [2 ^ 56, 2 ^ 54, 2 ^ 54] [0] [1] 1
        (quantise [2 ^ 56, 2 ^ 54, 2 ^ 54] [0] [1] 1 3 0).1 := by
  have h0 : (quantise [2 ^ 56, 2 ^ 54, 2 ^ 54] [0] [1] 1 3 0).1 = 0 := by
    norm_num [quantise, quantise_search, quantise_e, beste_init, List.range_succ]
  rw [h0]
  refine ⟨?_, ?_, rfl, ?_⟩
  · norm_num [weighted_sq_err, Finset.sum_range_succ]
  · intro i hi
    interval_cases i <;> norm_num [weighted_sq_err, Finset.sum_range_succ]
  · norm_num [weighted_sq_err, Finset.sum_range_succ]

/-- C3 (code at the failing input): with the one-codeword codebook
`[2^55]`, target `[0]`, weight `[1]` and accumulator 0, the only weighted
squared error is `2^110`, above the initial `beste = 1E32`; the accumulator
after `quantise` is `1E32`, which is not the accumulator plus the error of any
codeword. -/
theorem quantise_accumulator_example :
    (quantise_call ⟨[2 ^ 55], [0], [1], 0⟩ 1 1).2.se = 10 ^ 32 ∧
    ∀ j, j < 1 →
      (quantise_call ⟨[2 ^ 55], [0], [1], 0⟩ 1 1).2.se ≠
        0 + weighted_sq_err [2 ^ 55] [0] [1] 1 j := by
  have h0 : (quantise_call ⟨[2 ^ 55], [0], [1], 0⟩ 1 1).2.se = 10 ^ 32 := by
    norm_num [quantise_call, quantise, quantise_search, quantise_e, beste_init,
      List.range_succ]
  refine ⟨h0, ?_⟩
  intro j hj
  rw [h0]
  interval_cases j
  norm_num [weighted_sq_err, Finset.sum_range_succ]

/-- C4 (as stated, refuted): called with an empty codebook (`m = 0`) and
accumulator 7, `quantise` returns index 0, the same index it returns for the
one-codeword codebook `[5]`, and the accumulator becomes `7 + 1E32`. -/
theorem quantise_empty_codebook_example :
    (quantise [] [0] [1] 1 0 7).1 = 0 ∧
    (quantise [] [0] [1] 1 0 7).1 = (quantise [5] [0] [1] 1 1 7).1 ∧
    (quantise [] [0] [1] 1 0 7).2 = 7 + 10 ^ 32 := by
  refine ⟨?_, ?_, ?_⟩ <;>
    norm_num [quantise, quantise_search, quantise_e, beste_init, List.range_succ]

/-- C4 (amended): called with an empty codebook (`m = 0`), `quantise` signals
no error: it returns index 0 and adds the initial best error `1E32` to the
accumulator, whatever the other arguments are. -/
theorem quantise_empty_codebook (cb vec w : List ℚ) (k : ℕ) (se : ℚ) :
    quantise cb vec w k 0 se = (0, se + beste_init) := by
  simp [quantise, quantise_search_zero]

/-! ### Delta pitch quantiser: masking and sign extension -/

theorem ldiff_mask (B n : ℕ) (h : n < 2 ^ B) : Nat.ldiff (2 ^ B - 1) n = 2 ^ B - 1 - n := by
  apply Nat.eq_of_testBit_eq
  intro i
  rw [Nat.testBit_ldiff, Nat.testBit_two_pow_sub_one]
  have : 2 ^ B - 1 - n = 2 ^ B - (n + 1) := by omega
  rw [this, Nat.testBit_two_pow_sub_succ h]

theorem int_mask_cast (B : ℕ) : ((2 : ℤ) ^ B - 1) = Int.ofNat (2 ^ B - 1) := by
  have : 1 ≤ 2 ^ B := Nat.one_le_two_pow
  simp [Nat.cast_sub this]

theorem int_pow_cast (B : ℕ) : ((2 : ℤ) ^ B) = Int.ofNat (2 ^ B) := by
  simp

theorem sign_extend_land_nonneg (B n : ℕ) (h : n < 2 ^ (B - 1)) :
    sign_extend B (Int.land (Int.ofNat n) (2 ^ B - 1)) = Int.ofNat n := by
  have hlt : n < 2 ^ B := lt_of_lt_of_le h (Nat.pow_le_pow_right (by norm_num) (Nat.sub_le B 1))
  have h1 : Int.land (Int.ofNat n) (2 ^ B - 1) = Int.ofNat n := by
    rw [int_mask_cast]
    show Int.ofNat (n &&& (2 ^ B - 1)) = Int.ofNat n
    rw [Nat.and_pow_two_sub_one_eq_mod, Nat.mod_eq_of_lt hlt]
  rw [h1, sign_extend, int_pow_cast]
  have h2 : Int.land (Int.ofNat n) (Int.ofNat (2 ^ (B - 1))) = 0 := by
    show Int.ofNat (n &&& 2 ^ (B - 1)) = 0
    rw [Nat.and_two_pow, Nat.testBit_lt_two_pow h]
    simp
  rw [h2]
  simp

theorem sign_extend_land_neg (B n : ℕ) (hB : 1 ≤ B) (h : n < 2 ^ (B - 1)) :
    sign_extend B (Int.land (Int.negSucc n) (2 ^ B - 1)) = Int.negSucc n := by
  have hpow : 2 ^ B = 2 * 2 ^ (B - 1) := by
    rw [← pow_succ']
    congr 1
    omega
  have hlt : n < 2 ^ B := by omega
  have h1 : Int.land (Int.negSucc n) (2 ^ B - 1) = Int.ofNat (2 ^ B - 1 - n) := by
    rw [int_mask_cast]
    show Int.ofNat (Nat.ldiff (2 ^ B - 1) n) = _
    rw [ldiff_mask B n hlt]
  rw [h1, sign_extend, int_pow_cast]
  have hbit : (2 ^ B - 1 - n).testBit (B - 1) = true := by
    have : 2 ^ B - 1 - n = 2 ^ B - (n + 1) := by omega
    rw [this, Nat.testBit_two_pow_sub_succ hlt, Nat.testBit_lt_two_pow h]
    simp
    omega
  have h2 : Int.land (Int.ofNat (2 ^ B - 1 - n)) (Int.ofNat (2 ^ (B - 1))) =
      Int.ofNat (2 ^ (B - 1)) := by
    show Int.ofNat ((2 ^ B - 1 - n) &&& 2 ^ (B - 1)) = _
    rw [Nat.and_two_pow, hbit]
    simp
  rw [h2]
  have h3 : Int.ofNat (2 ^ (B - 1)) ≠ 0 := by
    have hp : 0 < 2 ^ (B - 1) := Nat.two_pow_pos _
    intro hc
    have h0 : 2 ^ (B - 1) = 0 := Int.ofNat.inj hc
    rw [h0] at hp
    exact lt_irrefl 0 hp
  rw [if_pos h3, int_mask_cast]
  show Int.negSucc (Nat.ldiff (2 ^ B - 1) (2 ^ B - 1 - n)) = _
  rw [ldiff_mask B _ (by omega)]
  congr 1
  omega

theorem sign_extend_land (B : ℕ) (x : ℤ) (hB : 1 ≤ B) (hlo : -(2 : ℤ) ^ (B - 1) ≤ x)
    (hhi : x ≤ 2 ^ (B - 1) - 1) :
    sign_extend B (Int.land x (2 ^ B - 1)) = x := by
  cases x with
  | ofNat n =>
    apply sign_extend_land_nonneg B n
    have : (n : ℤ) < 2 ^ (B - 1) := by
      have : Int.ofNat n = (n : ℤ) := rfl
      omega
    exact_mod_cast this
  | negSucc n =>
    apply sign_extend_land_neg B n hB
    have : (n : ℤ) < 2 ^ (B - 1) := by
      rw [Int.negSucc_eq] at hlo
      omega
    exact_mod_cast this

/-- The hard limit of `encode_Wo_dt` is the clamp to the signed range. -/
theorem hard_limit_eq (B : ℕ) (x : ℤ) :
    hard_limit B x = max (-(2 : ℤ) ^ (B - 1)) (min (2 ^ (B - 1) - 1) x) := by
  have hp : (0 : ℤ) < 2 ^ (B - 1) := by positivity
  unfold hard_limit
  generalize (2 : ℤ) ^ (B - 1) = p at hp ⊢
  simp only [max_def, min_def]
  split_ifs <;> omega

theorem hard_limit_range (B : ℕ) (x : ℤ) :
    -(2 : ℤ) ^ (B - 1) ≤ hard_limit B x ∧ hard_limit B x ≤ 2 ^ (B - 1) - 1 := by
  have hp : (0 : ℤ) < 2 ^ (B - 1) := by positivity
  rw [hard_limit_eq]
  constructor
  · exact le_max_left _ _
  · exact max_le (by omega) (min_le_left _ _)

/-- A value that fits the 32-bit `int` is stored unchanged. -/
theorem double_to_int_of_fits (z : ℤ) (h1 : -2 ^ 31 ≤ z) (h2 : z < 2 ^ 31) :
    double_to_int z = z := by
  unfold double_to_int
  rw [if_pos ⟨h1, h2⟩]

/-- C5 (as stated, refuted): with `WO_LEVELS = 128`, `WO_DT_BITS = 3`,
`Wo_min = 3/80`, `Wo_max = 3/10`, `prev_Wo = 0` and `Wo = 10^7`, the rounded
difference `floor(128*10^7/(21/80) + 0.5)` exceeds `2^31 - 1`, its store in the
`int index` gives `INT_MIN`, the hard limit makes it `-4`, and the decoder
returns `prev_Wo - 4*step`, whereas the rounded difference hard-limited to
`[-4, 3]` is `3`. -/
theorem decode_encode_Wo_dt_overflow_example :
    decode_Wo_dt ⟨3, 6, 20, 160, 128, 3, 16, -10, 40, 10⟩
        (encode_Wo_dt ⟨3, 6, 20, 160, 128, 3, 16, -10, 40, 10⟩ (10 ^ 7) 0) 0 =
      0 + (Wo_max ⟨3, 6, 20, 160, 128, 3, 16, -10, 40, 10⟩ -
          Wo_min ⟨3, 6, 20, 160, 128, 3, 16, -10, 40, 10⟩) / ((128 : ℤ) : ℚ) * ((-4 : ℤ) : ℚ) ∧
    (max (-(2 : ℤ) ^ (3 - 1))
      (min (2 ^ (3 - 1) - 1)
        ⌊((128 : ℤ) : ℚ) * (10 ^ 7 - 0) /
          (Wo_max ⟨3, 6, 20, 160, 128, 3, 16, -10, 40, 10⟩ -
            Wo_min ⟨3, 6, 20, 160, 128, 3, 16, -10, 40, 10⟩) + 1 / 2⌋) : ℤ) = 3 ∧
    decode_Wo_dt ⟨3, 6, 20, 160, 128, 3, 16, -10, 40, 10⟩
        (encode_Wo_dt ⟨3, 6, 20, 160, 128, 3, 16, -10, 40, 10⟩ (10 ^ 7) 0) 0 ≠
      0 + (Wo_max ⟨3, 6, 20, 160, 128, 3, 16, -10, 40, 10⟩ -
          Wo_min ⟨3, 6, 20, 160, 128, 3, 16, -10, 40, 10⟩) / ((128 : ℤ) : ℚ) *
        ((max (-(2 : ℤ) ^ (3 - 1))
          (min (2 ^ (3 - 1) - 1)
            ⌊((128 : ℤ) : ℚ) * (10 ^ 7 - 0) /
              (Wo_max ⟨3, 6, 20, 160, 128, 3, 16, -10, 40, 10⟩ -
                Wo_min ⟨3, 6, 20, 160, 128, 3, 16, -10, 40, 10⟩) + 1 / 2⌋) : ℤ) : ℚ) := by
  have hfloor : ⌊((128 : ℤ) : ℚ) * (10 ^ 7 - 0) /
      (Wo_max ⟨3, 6, 20, 160, 128, 3, 16, -10, 40, 10⟩ -
        Wo_min ⟨3, 6, 20, 160, 128, 3, 16, -10, 40, 10⟩) + 1 / 2⌋ = 4876190476 := by
    norm_num [Wo_max, Wo_min, Int.floor_eq_iff]
  have hraw : Wo_dt_raw ⟨3, 6, 20, 160, 128, 3, 16, -10, 40, 10⟩ (10 ^ 7) 0 = -2 ^ 31 := by
    have hf : ⌊((128 : ℤ) : ℚ) * (((10 : ℚ) ^ 7 - 0) / (Wo_max ⟨3, 6, 20, 160, 128, 3, 16, -10, 40, 10⟩ -
        Wo_min ⟨3, 6, 20, 160, 128, 3, 16, -10, 40, 10⟩)) + 1 / 2⌋ = 4876190476 := by
      norm_num [Wo_max, Wo_min, Int.floor_eq_iff]
    show double_to_int ⌊((128 : ℤ) : ℚ) * (((10 : ℚ) ^ 7 - 0) / (Wo_max ⟨3, 6, 20, 160, 128, 3, 16, -10, 40, 10⟩ -
        Wo_min ⟨3, 6, 20, 160, 128, 3, 16, -10, 40, 10⟩)) + 1 / 2⌋ = -2 ^ 31
    rw [hf]
    decide
  have hdec : decode_Wo_dt ⟨3, 6, 20, 160, 128, 3, 16, -10, 40, 10⟩
        (encode_Wo_dt ⟨3, 6, 20, 160, 128, 3, 16, -10, 40, 10⟩ (10 ^ 7) 0) 0 =
      0 + (Wo_max ⟨3, 6, 20, 160, 128, 3, 16, -10, 40, 10⟩ -
          Wo_min ⟨3, 6, 20, 160, 128, 3, 16, -10, 40, 10⟩) / ((128 : ℤ) : ℚ) * ((-4 : ℤ) : ℚ) := by
    have hl : hard_limit 3 (-2 ^ 31) = -4 := by decide
    unfold decode_Wo_dt encode_Wo_dt
    rw [hraw]
    show (0 : ℚ) + _ * ((sign_extend 3 (Int.land (hard_limit 3 (-2 ^ 31)) (2 ^ 3 - 1)) : ℤ) : ℚ) = _
    rw [hl, sign_extend_land 3 (-4) (by decide) (by decide) (by decide)]
    rfl
  refine ⟨hdec, ?_, ?_⟩
  · rw [hfloor]; decide
  · rw [hdec, hfloor]
    norm_num [Wo_max, Wo_min]

/-- C5 (amended): for `Wo`, `prev_Wo` whose rounded difference
`floor(WO_LEVELS*(Wo - prev_Wo)/(Wo_max - Wo_min) + 0.5)` fits the 32-bit
`int index` (it lies in `[-2^31, 2^31 - 1]`),
`decode_Wo_dt(encode_Wo_dt(Wo, prev_Wo), prev_Wo) = prev_Wo + step*d` where `d`
is that rounded difference clamped to
`[-2^(WO_DT_BITS-1), 2^(WO_DT_BITS-1) - 1]`; and masking any `x` of that range to
`WO_DT_BITS` bits then sign-extending it as `decode_Wo_dt` does recovers `x`,
the two ends of the range included. The bound `WO_DT_BITS < 31` is the range in
which the shifts `1 << (WO_DT_BITS-1)` and `1 << WO_DT_BITS` stay within the
`int` and are the powers of two of the model. -/
theorem decode_encode_Wo_dt (d : Defines) (Wo prev_Wo : ℚ)
    (hW : Wo_min d < Wo_max d) (hL : 1 ≤ d.WO_LEVELS)
    (hB : 1 ≤ d.WO_DT_BITS) (hB31 : d.WO_DT_BITS < 31)
    (hfit : -2 ^ 31 ≤
        ⌊(d.WO_LEVELS : ℚ) * (Wo - prev_Wo) / (Wo_max d - Wo_min d) + 1 / 2⌋ ∧
      ⌊(d.WO_LEVELS : ℚ) * (Wo - prev_Wo) / (Wo_max d - Wo_min d) + 1 / 2⌋ < 2 ^ 31) :
    decode_Wo_dt d (encode_Wo_dt d Wo prev_Wo) prev_Wo =
      prev_Wo + (Wo_max d - Wo_min d) / (d.WO_LEVELS : ℚ) *
        ((max (-(2 : ℤ) ^ (d.WO_DT_BITS - 1))
          (min (2 ^ (d.WO_DT_BITS - 1) - 1)
            ⌊(d.WO_LEVELS : ℚ) * (Wo - prev_Wo) / (Wo_max d - Wo_min d) + 1 / 2⌋) : ℤ) : ℚ) ∧
    (∀ x : ℤ, -(2 : ℤ) ^ (d.WO_DT_BITS - 1) ≤ x → x ≤ 2 ^ (d.WO_DT_BITS - 1) - 1 →
      sign_extend d.WO_DT_BITS (Int.land x (2 ^ d.WO_DT_BITS - 1)) = x ∧
      decode_Wo_dt d (Int.land x (2 ^ d.WO_DT_BITS - 1)) prev_Wo =
        prev_Wo + (Wo_max d - Wo_min d) / (d.WO_LEVELS : ℚ) * (x : ℚ)) ∧
    sign_extend d.WO_DT_BITS
        (Int.land (-(2 : ℤ) ^ (d.WO_DT_BITS - 1)) (2 ^ d.WO_DT_BITS - 1)) =
      -(2 : ℤ) ^ (d.WO_DT_BITS - 1) ∧
    sign_extend d.WO_DT_BITS
        (Int.land (2 ^ (d.WO_DT_BITS - 1) - 1) (2 ^ d.WO_DT_BITS - 1)) =
      2 ^ (d.WO_DT_BITS - 1) - 1 := by
  have hp : (0 : ℤ) < 2 ^ (d.WO_DT_BITS - 1) := by positivity
  refine ⟨?_, ?_, ?_, ?_⟩
  · obtain ⟨hlo, hhi⟩ := hard_limit_range d.WO_DT_BITS (Wo_dt_raw d Wo prev_Wo)
    unfold decode_Wo_dt encode_Wo_dt
    rw [sign_extend_land d.WO_DT_BITS _ hB hlo hhi, hard_limit_eq]
    unfold Wo_dt_raw Wo_step
    rw [mul_div_assoc] at hfit
    rw [double_to_int_of_fits _ hfit.1 hfit.2, mul_div_assoc]
  · intro x hlo hhi
    have hx := sign_extend_land d.WO_DT_BITS x hB hlo hhi
    refine ⟨hx, ?_⟩
    unfold decode_Wo_dt
    rw [hx]
    rfl
  · exact sign_extend_land d.WO_DT_BITS _ hB (le_refl _) (by omega)
  · exact sign_extend_land d.WO_DT_BITS _ hB (by omega) (le_refl _)

theorem decode_encode_Wo_dt_witness :
    decode_Wo_dt ⟨3, 6, 20, 160, 128, 3, 16, -10, 40, 10⟩
        (encode_Wo_dt ⟨3, 6, 20, 160, 128, 3, 16, -10, 40, 10⟩ (1 / 5) (1 / 10)) (1 / 10) =
      1 / 10 + (Wo_max ⟨3, 6, 20, 160, 128, 3, 16, -10, 40, 10⟩ -
          Wo_min ⟨3, 6, 20, 160, 128, 3, 16, -10, 40, 10⟩) / ((128 : ℤ) : ℚ) *
        ((max (-(2 : ℤ) ^ (3 - 1))
          (min (2 ^ (3 - 1) - 1)
            ⌊((128 : ℤ) : ℚ) * (1 / 5 - 1 / 10) /
              (Wo_max ⟨3, 6, 20, 160, 128, 3, 16, -10, 40, 10⟩ -
                Wo_min ⟨3, 6, 20, 160, 128, 3, 16, -10, 40, 10⟩) + 1 / 2⌋) : ℤ) : ℚ) :=
  (decode_encode_Wo_dt ⟨3, 6, 20, 160, 128, 3, 16, -10, 40, 10⟩ (1 / 5) (1 / 10)
    (by norm_num [Wo_min, Wo_max]) (by decide) (by decide) (by decide)
    (by
      have hf : ⌊((128 : ℤ) : ℚ) * (1 / 5 - 1 / 10) /
          (Wo_max ⟨3, 6, 20, 160, 128, 3, 16, -10, 40, 10⟩ -
            Wo_min ⟨3, 6, 20, 160, 128, 3, 16, -10, 40, 10⟩) + 1 / 2⌋ = 49 := by
        norm_num [Wo_max, Wo_min, Int.floor_eq_iff]
      show -2 ^ 31 ≤ ⌊((128 : ℤ) : ℚ) * (1 / 5 - 1 / 10) /
          (Wo_max ⟨3, 6, 20, 160, 128, 3, 16, -10, 40, 10⟩ -
            Wo_min ⟨3, 6, 20, 160, 128, 3, 16, -10, 40, 10⟩) + 1 / 2⌋ ∧
        ⌊((128 : ℤ) : ℚ) * (1 / 5 - 1 / 10) /
          (Wo_max ⟨3, 6, 20, 160, 128, 3, 16, -10, 40, 10⟩ -
            Wo_min ⟨3, 6, 20, 160, 128, 3, 16, -10, 40, 10⟩) + 1 / 2⌋ < 2 ^ 31
      rw [hf]
      decide)).1

/-! ### Scalar quantisers for pitch and energy -/

theorem clamp_index_range (L x : ℤ) (hL : 1 ≤ L) :
    0 ≤ clamp_index L x ∧ clamp_index L x ≤ L - 1 := by
  unfold clamp_index
  simp only []
  split_ifs <;> omega

theorem clamp_index_of_nonpos (L x : ℤ) (hL : 1 ≤ L) (hx : x ≤ 0) :
    clamp_index L x = 0 := by
  unfold clamp_index
  simp only []
  split_ifs <;> omega

theorem clamp_index_of_ge (L x : ℤ) (hL : 1 ≤ L) (hx : L ≤ x) :
    clamp_index L x = L - 1 := by
  unfold clamp_index
  simp only []
  split_ifs <;> omega

/-- Rounding `x ∈ [0, L]` by `floor(x + 0.5)` and clamping to `[0, L-1]` gives
an integer of `[0, L-1]` nearest to `x`, at distance at most 1. -/
theorem clamp_round_nearest (L : ℤ) (x : ℚ) (hL : 1 ≤ L) (h0 : 0 ≤ x) (h1 : x ≤ (L : ℚ)) :
    (∀ j : ℤ, 0 ≤ j → j ≤ L - 1 →
      |((clamp_index L ⌊x + 1 / 2⌋ : ℤ) : ℚ) - x| ≤ |(j : ℚ) - x|) ∧
    |((clamp_index L ⌊x + 1 / 2⌋ : ℤ) : ℚ) - x| ≤ 1 := by
  have hf1 : ((⌊x + 1 / 2⌋ : ℤ) : ℚ) ≤ x + 1 / 2 := Int.floor_le _
  have hf2 : x + 1 / 2 < ((⌊x + 1 / 2⌋ : ℤ) : ℚ) + 1 := Int.lt_floor_add_one _
  have hf0 : 0 ≤ ⌊x + 1 / 2⌋ := Int.floor_nonneg.mpr (by linarith)
  by_cases hge : L ≤ ⌊x + 1 / 2⌋
  · rw [clamp_index_of_ge L _ hL hge]
    have hgeq : (L : ℚ) ≤ ((⌊x + 1 / 2⌋ : ℤ) : ℚ) := by exact_mod_cast hge
    have hx : (((L - 1 : ℤ)) : ℚ) ≤ x := by push_cast; linarith
    constructor
    · intro j _ hj
      have hjq : (j : ℚ) ≤ ((L - 1 : ℤ) : ℚ) := by exact_mod_cast hj
      rw [abs_of_nonpos (by linarith), abs_of_nonpos (by linarith)]
      linarith
    · rw [abs_of_nonpos (by linarith)]
      push_cast
      linarith
  · have hlt : ⌊x + 1 / 2⌋ ≤ L - 1 := by omega
    have hc : clamp_index L ⌊x + 1 / 2⌋ = ⌊x + 1 / 2⌋ := by
      unfold clamp_index
      simp only []
      split_ifs <;> omega
    rw [hc]
    have habs : |((⌊x + 1 / 2⌋ : ℤ) : ℚ) - x| ≤ 1 / 2 := by
      rw [abs_le]
      constructor <;> linarith
    constructor
    · intro j _ _
      rcases lt_trichotomy j ⌊x + 1 / 2⌋ with hj | hj | hj
      · have hjq : (j : ℚ) + 1 ≤ ((⌊x + 1 / 2⌋ : ℤ) : ℚ) := by exact_mod_cast hj
        refine le_trans habs ?_
        rw [abs_of_nonpos (by linarith)]
        linarith
      · rw [hj]
      · have hjq : ((⌊x + 1 / 2⌋ : ℤ) : ℚ) + 1 ≤ (j : ℚ) := by exact_mod_cast hj
        refine le_trans habs ?_
        rw [abs_of_nonneg (by linarith)]
        linarith
    · linarith

theorem Wo_step_pos (d : Defines) (hW : Wo_min d < Wo_max d) (hL : 1 ≤ d.WO_LEVELS) :
    0 < Wo_step d := by
  have hLq : (0 : ℚ) < (d.WO_LEVELS : ℚ) := by exact_mod_cast (by omega : 0 < d.WO_LEVELS)
  exact div_pos (by linarith) hLq

/-- The decoded level minus `Wo` is `step` times the index minus the scaled
position `WO_LEVELS * norm` of `Wo`. -/
theorem decode_Wo_sub (d : Defines) (Wo : ℚ) (j : ℤ)
    (hW : Wo_min d < Wo_max d) (hL : 1 ≤ d.WO_LEVELS) :
    decode_Wo d j - Wo =
      Wo_step d * ((j : ℚ) -
        (d.WO_LEVELS : ℚ) * ((Wo - Wo_min d) / (Wo_max d - Wo_min d))) := by
  have hLq : (d.WO_LEVELS : ℚ) ≠ 0 := by
    have : (0 : ℚ) < (d.WO_LEVELS : ℚ) := by exact_mod_cast (by omega : 0 < d.WO_LEVELS)
    exact ne_of_gt this
  have hD : Wo_max d - Wo_min d ≠ 0 := by
    have : 0 < Wo_max d - Wo_min d := by linarith
    exact ne_of_gt this
  unfold decode_Wo Wo_step
  field_simp
  ring

/-- C6: for `Wo` in `[Wo_min, Wo_max]`, `decode_Wo(encode_Wo(Wo))` is a
representable level `Wo_min + step*j` with `0 ≤ j ≤ WO_LEVELS-1`, no
representable level is nearer to `Wo`, and it lies within one step of `Wo`. -/
theorem decode_encode_Wo_nearest (d : Defines) (Wo : ℚ)
    (hW : Wo_min d < Wo_max d) (hL : 1 ≤ d.WO_LEVELS)
    (hlo : Wo_min d ≤ Wo) (hhi : Wo ≤ Wo_max d) :
    (∃ j : ℤ, 0 ≤ j ∧ j ≤ d.WO_LEVELS - 1 ∧
      decode_Wo d (encode_Wo d Wo) =
        Wo_min d + (Wo_max d - Wo_min d) / (d.WO_LEVELS : ℚ) * (j : ℚ)) ∧
    (∀ j : ℤ, 0 ≤ j → j ≤ d.WO_LEVELS - 1 →
      |decode_Wo d (encode_Wo d Wo) - Wo| ≤
        |Wo_min d + (Wo_max d - Wo_min d) / (d.WO_LEVELS : ℚ) * (j : ℚ) - Wo|) ∧
    |decode_Wo d (encode_Wo d Wo) - Wo| ≤ (Wo_max d - Wo_min d) / (d.WO_LEVELS : ℚ) := by
  have hstep := Wo_step_pos d hW hL
  have hLq : (0 : ℚ) < (d.WO_LEVELS : ℚ) := by exact_mod_cast (by omega : 0 < d.WO_LEVELS)
  have hD : 0 < Wo_max d - Wo_min d := by linarith
  have hn0 : 0 ≤ (Wo - Wo_min d) / (Wo_max d - Wo_min d) :=
    div_nonneg (by linarith) (le_of_lt hD)
  have hn1 : (Wo - Wo_min d) / (Wo_max d - Wo_min d) ≤ 1 := by
    rw [div_le_one hD]
    linarith
  have hx0 : 0 ≤ (d.WO_LEVELS : ℚ) * ((Wo - Wo_min d) / (Wo_max d - Wo_min d)) :=
    mul_nonneg (le_of_lt hLq) hn0
  have hx1 : (d.WO_LEVELS : ℚ) * ((Wo - Wo_min d) / (Wo_max d - Wo_min d)) ≤
      (d.WO_LEVELS : ℚ) := by
    calc (d.WO_LEVELS : ℚ) * ((Wo - Wo_min d) / (Wo_max d - Wo_min d))
        ≤ (d.WO_LEVELS : ℚ) * 1 := mul_le_mul_of_nonneg_left hn1 (le_of_lt hLq)
      _ = (d.WO_LEVELS : ℚ) := mul_one _
  obtain ⟨hnear, hone⟩ := clamp_round_nearest d.WO_LEVELS _ hL hx0 hx1
  have henc : encode_Wo d Wo = clamp_index d.WO_LEVELS
      ⌊(d.WO_LEVELS : ℚ) * ((Wo - Wo_min d) / (Wo_max d - Wo_min d)) + 1 / 2⌋ := rfl
  have hlevel : ∀ j : ℤ,
      Wo_min d + (Wo_max d - Wo_min d) / (d.WO_LEVELS : ℚ) * (j : ℚ) = decode_Wo d j :=
    fun _ => rfl
  refine ⟨⟨encode_Wo d Wo, (clamp_index_range _ _ hL).1, (clamp_index_range _ _ hL).2, rfl⟩,
    ?_, ?_⟩
  · intro j hj0 hj1
    rw [hlevel, decode_Wo_sub d Wo _ hW hL, decode_Wo_sub d Wo _ hW hL, abs_mul, abs_mul]
    exact mul_le_mul_of_nonneg_left (henc ▸ hnear j hj0 hj1) (abs_nonneg _)
  · rw [decode_Wo_sub d Wo _ hW hL, abs_mul, abs_of_pos hstep]
    calc Wo_step d * |((encode_Wo d Wo : ℤ) : ℚ) -
          (d.WO_LEVELS : ℚ) * ((Wo - Wo_min d) / (Wo_max d - Wo_min d))|
        ≤ Wo_step d * 1 := mul_le_mul_of_nonneg_left (henc ▸ hone) (le_of_lt hstep)
      _ = (Wo_max d - Wo_min d) / (d.WO_LEVELS : ℚ) := mul_one _

theorem decode_encode_Wo_nearest_witness :
    (∃ j : ℤ, 0 ≤ j ∧ j ≤ (128 : ℤ) - 1 ∧
      decode_Wo ⟨3, 6, 20, 160, 128, 3, 16, -10, 40, 10⟩
          (encode_Wo ⟨3, 6, 20, 160, 128, 3, 16, -10, 40, 10⟩ (1 / 10)) =
        Wo_min ⟨3, 6, 20, 160, 128, 3, 16, -10, 40, 10⟩ +
          (Wo_max ⟨3, 6, 20, 160, 128, 3, 16, -10, 40, 10⟩ -
            Wo_min ⟨3, 6, 20, 160, 128, 3, 16, -10, 40, 10⟩) / ((128 : ℤ) : ℚ) * (j : ℚ)) :=
  (decode_encode_Wo_nearest ⟨3, 6, 20, 160, 128, 3, 16, -10, 40, 10⟩ (1 / 10)
    (by norm_num [Wo_min, Wo_max]) (by decide)
    (by norm_num [Wo_min]) (by norm_num [Wo_max])).1

theorem clamp_floor_of_nonpos (L : ℤ) (x : ℚ) (hL : 1 ≤ L) (hx : x ≤ 0) :
    clamp_index L ⌊x + 1 / 2⌋ = 0 := by
  apply clamp_index_of_nonpos L _ hL
  have h : ⌊x + 1 / 2⌋ < 1 := Int.floor_lt.mpr (by push_cast; linarith)
  omega

theorem clamp_floor_of_ge (L : ℤ) (x : ℚ) (hL : 1 ≤ L) (hx : (L : ℚ) ≤ x) :
    clamp_index L ⌊x + 1 / 2⌋ = L - 1 := by
  apply clamp_index_of_ge L _ hL
  exact Int.le_floor.mpr (by linarith)

/-- A value that is not positive is stored as a value that is not positive. -/
theorem double_to_int_nonpos (z : ℤ) (h : z ≤ 0) : double_to_int z ≤ 0 := by
  unfold double_to_int
  split_ifs
  · exact h
  · decide

/-- C7 (as stated, refuted): with `WO_LEVELS = 128`, `Wo_min = 3/80` and
`Wo_max = 3/10`, the top of the range is encoded as the top level 127, but for
`Wo = 10^7`, far above the range, `floor(128*norm + 0.5)` exceeds `2^31 - 1`,
its store in the `int index` gives `INT_MIN`, and `encode_Wo` returns level 0
instead of the top level. -/
theorem encode_Wo_overflow_example :
    Wo_max ⟨3, 6, 20, 160, 128, 3, 16, -10, 40, 10⟩ < 10 ^ 7 ∧
    encode_Wo_int32 ⟨3, 6, 20, 160, 128, 3, 16, -10, 40, 10⟩
      (Wo_max ⟨3, 6, 20, 160, 128, 3, 16, -10, 40, 10⟩) = 128 - 1 ∧
    encode_Wo_int32 ⟨3, 6, 20, 160, 128, 3, 16, -10, 40, 10⟩ (10 ^ 7) = 0 ∧
    encode_Wo_int32 ⟨3, 6, 20, 160, 128, 3, 16, -10, 40, 10⟩ (10 ^ 7) ≠ 128 - 1 := by
  have h1 : encode_Wo_int32 ⟨3, 6, 20, 160, 128, 3, 16, -10, 40, 10⟩ (10 ^ 7) = 0 := by
    have hf : ⌊((128 : ℤ) : ℚ) * (((10 : ℚ) ^ 7 - Wo_min ⟨3, 6, 20, 160, 128, 3, 16, -10, 40, 10⟩) /
        (Wo_max ⟨3, 6, 20, 160, 128, 3, 16, -10, 40, 10⟩ -
          Wo_min ⟨3, 6, 20, 160, 128, 3, 16, -10, 40, 10⟩)) + 1 / 2⌋ = 4876190458 := by
      norm_num [Wo_max, Wo_min, Int.floor_eq_iff]
    show clamp_index 128 (double_to_int
      ⌊((128 : ℤ) : ℚ) * (((10 : ℚ) ^ 7 - Wo_min ⟨3, 6, 20, 160, 128, 3, 16, -10, 40, 10⟩) /
        (Wo_max ⟨3, 6, 20, 160, 128, 3, 16, -10, 40, 10⟩ -
          Wo_min ⟨3, 6, 20, 160, 128, 3, 16, -10, 40, 10⟩)) + 1 / 2⌋) = 0
    rw [hf]
    decide
  have h2 : encode_Wo_int32 ⟨3, 6, 20, 160, 128, 3, 16, -10, 40, 10⟩
      (Wo_max ⟨3, 6, 20, 160, 128, 3, 16, -10, 40, 10⟩) = 128 - 1 := by
    have hf : ⌊((128 : ℤ) : ℚ) * ((Wo_max ⟨3, 6, 20, 160, 128, 3, 16, -10, 40, 10⟩ -
          Wo_min ⟨3, 6, 20, 160, 128, 3, 16, -10, 40, 10⟩) /
        (Wo_max ⟨3, 6, 20, 160, 128, 3, 16, -10, 40, 10⟩ -
          Wo_min ⟨3, 6, 20, 160, 128, 3, 16, -10, 40, 10⟩)) + 1 / 2⌋ = 128 := by
      norm_num [Wo_max, Wo_min, Int.floor_eq_iff]
    show clamp_index 128 (double_to_int
      ⌊((128 : ℤ) : ℚ) * ((Wo_max ⟨3, 6, 20, 160, 128, 3, 16, -10, 40, 10⟩ -
          Wo_min ⟨3, 6, 20, 160, 128, 3, 16, -10, 40, 10⟩) /
        (Wo_max ⟨3, 6, 20, 160, 128, 3, 16, -10, 40, 10⟩ -
          Wo_min ⟨3, 6, 20, 160, 128, 3, 16, -10, 40, 10⟩)) + 1 / 2⌋) = 128 - 1
    rw [hf]
    decide
  refine ⟨by norm_num [Wo_max], h2, h1, ?_⟩
  rw [h1]
  decide

/-- C7 (amended): the scalar encoders always produce a transmittable index.
For every `Wo`, `0 ≤ encode_Wo(Wo) ≤ WO_LEVELS-1`, and for every `e > 0`,
`0 ≤ encode_energy(e) ≤ E_LEVELS-1`. Inputs at or below the bottom of the valid
range give level 0 (`Wo ≤ Wo_min`, an energy of at most `E_MIN_DB` dB); inputs at
or above the top (`Wo ≥ Wo_max`, an energy of at least `E_MAX_DB` dB) give the
top level whenever `floor(levels*norm + 0.5)` still fits the 32-bit
`int index`. -/
theorem scalar_encoders_in_range (d : Defines) (log10 : ℚ → ℚ)
    (hW : Wo_min d < Wo_max d) (hLW : 1 ≤ d.WO_LEVELS)
    (hE : d.E_MIN_DB < d.E_MAX_DB) (hLE : 1 ≤ d.E_LEVELS) :
    (∀ Wo : ℚ, 0 ≤ encode_Wo_int32 d Wo ∧ encode_Wo_int32 d Wo ≤ d.WO_LEVELS - 1) ∧
    (∀ e : ℚ, 0 < e →
      0 ≤ encode_energy_int32 d log10 e ∧ encode_energy_int32 d log10 e ≤ d.E_LEVELS - 1) ∧
    (∀ Wo : ℚ, Wo ≤ Wo_min d → encode_Wo_int32 d Wo = 0) ∧
    (∀ Wo : ℚ, Wo_max d ≤ Wo →
      ⌊(d.WO_LEVELS : ℚ) * ((Wo - Wo_min d) / (Wo_max d - Wo_min d)) + 1 / 2⌋ < 2 ^ 31 →
      encode_Wo_int32 d Wo = d.WO_LEVELS - 1) ∧
    (∀ e : ℚ, 0 < e → 10 * log10 e ≤ d.E_MIN_DB → encode_energy_int32 d log10 e = 0) ∧
    (∀ e : ℚ, 0 < e → d.E_MAX_DB ≤ 10 * log10 e →
      ⌊(d.E_LEVELS : ℚ) * ((10 * log10 e - d.E_MIN_DB) / (d.E_MAX_DB - d.E_MIN_DB)) +
        1 / 2⌋ < 2 ^ 31 →
      encode_energy_int32 d log10 e = d.E_LEVELS - 1) := by
  have hLWq : (0 : ℚ) < (d.WO_LEVELS : ℚ) := by exact_mod_cast (by omega : 0 < d.WO_LEVELS)
  have hLEq : (0 : ℚ) < (d.E_LEVELS : ℚ) := by exact_mod_cast (by omega : 0 < d.E_LEVELS)
  have hDW : 0 < Wo_max d - Wo_min d := by linarith
  have hDE : 0 < d.E_MAX_DB - d.E_MIN_DB := by linarith
  have hlow : ∀ (L : ℤ) (x : ℚ), 1 ≤ L → x ≤ 0 →
      clamp_index L (double_to_int ⌊x + 1 / 2⌋) = 0 := by
    intro L x hL hx
    apply clamp_index_of_nonpos L _ hL
    apply double_to_int_nonpos
    have h : ⌊x + 1 / 2⌋ < 1 := Int.floor_lt.mpr (by push_cast; linarith)
    omega
  have hhigh : ∀ (L : ℤ) (x : ℚ), 1 ≤ L → (L : ℚ) ≤ x → ⌊x + 1 / 2⌋ < 2 ^ 31 →
      clamp_index L (double_to_int ⌊x + 1 / 2⌋) = L - 1 := by
    intro L x hL hx hfit
    have hge : L ≤ ⌊x + 1 / 2⌋ := Int.le_floor.mpr (by linarith)
    rw [double_to_int_of_fits _ (by omega) hfit]
    exact clamp_index_of_ge L _ hL hge
  refine ⟨fun Wo => clamp_index_range _ _ hLW, fun e _ => clamp_index_range _ _ hLE,
    ?_, ?_, ?_, ?_⟩
  · intro Wo hWo
    apply hlow _ _ hLW
    exact mul_nonpos_of_nonneg_of_nonpos (le_of_lt hLWq)
      (div_nonpos_of_nonpos_of_nonneg (by linarith) (le_of_lt hDW))
  · intro Wo hWo hfit
    apply hhigh _ _ hLW _ hfit
    have h1 : 1 ≤ (Wo - Wo_min d) / (Wo_max d - Wo_min d) := by
      rw [le_div_iff₀ hDW]
      linarith
    calc (d.WO_LEVELS : ℚ) = (d.WO_LEVELS : ℚ) * 1 := (mul_one _).symm
      _ ≤ (d.WO_LEVELS : ℚ) * ((Wo - Wo_min d) / (Wo_max d - Wo_min d)) :=
        mul_le_mul_of_nonneg_left h1 (le_of_lt hLWq)
  · intro e _ he
    apply hlow _ _ hLE
    exact mul_nonpos_of_nonneg_of_nonpos (le_of_lt hLEq)
      (div_nonpos_of_nonpos_of_nonneg (by linarith) (le_of_lt hDE))
  · intro e _ he hfit
    apply hhigh _ _ hLE _ hfit
    have h1 : 1 ≤ (10 * log10 e - d.E_MIN_DB) / (d.E_MAX_DB - d.E_MIN_DB) := by
      rw [le_div_iff₀ hDE]
      linarith
    calc (d.E_LEVELS : ℚ) = (d.E_LEVELS : ℚ) * 1 := (mul_one _).symm
      _ ≤ (d.E_LEVELS : ℚ) *
          ((10 * log10 e - d.E_MIN_DB) / (d.E_MAX_DB - d.E_MIN_DB)) :=
        mul_le_mul_of_nonneg_left h1 (le_of_lt hLEq)

theorem scalar_encoders_in_range_witness :
    (0 ≤ encode_Wo_int32 ⟨3, 6, 20, 160, 128, 3, 16, -10, 40, 10⟩ 1000 ∧
      encode_Wo_int32 ⟨3, 6, 20, 160, 128, 3, 16, -10, 40, 10⟩ 1000 ≤ (128 : ℤ) - 1) ∧
    (0 ≤ encode_energy_int32 ⟨3, 6, 20, 160, 128, 3, 16, -10, 40, 10⟩ (fun _ => 7) 2 ∧
      encode_energy_int32 ⟨3, 6, 20, 160, 128, 3, 16, -10, 40, 10⟩ (fun _ => 7) 2 ≤
        (16 : ℤ) - 1) :=
  ⟨(scalar_encoders_in_range ⟨3, 6, 20, 160, 128, 3, 16, -10, 40, 10⟩ (fun _ => 7)
      (by norm_num [Wo_min, Wo_max]) (by decide) (by norm_num) (by decide)).1 1000,
    (scalar_encoders_in_range ⟨3, 6, 20, 160, 128, 3, 16, -10, 40, 10⟩ (fun _ => 7)
      (by norm_num [Wo_min, Wo_max]) (by decide) (by norm_num) (by decide)).2.1 2
      (by norm_num)⟩

/-- While the rounded value fits the 32-bit `int`, `encode_Wo` with the store
into `int index` explicit is `encode_Wo`. -/
theorem encode_Wo_int32_eq (d : Defines) (Wo : ℚ)
    (h1 : -2 ^ 31 ≤
      ⌊(d.WO_LEVELS : ℚ) * ((Wo - Wo_min d) / (Wo_max d - Wo_min d)) + 1 / 2⌋)
    (h2 : ⌊(d.WO_LEVELS : ℚ) * ((Wo - Wo_min d) / (Wo_max d - Wo_min d)) + 1 / 2⌋ < 2 ^ 31) :
    encode_Wo_int32 d Wo = encode_Wo d Wo := by
  unfold encode_Wo_int32 encode_Wo
  simp only []
  rw [double_to_int_of_fits _ h1 h2]

/-- While the rounded value fits the 32-bit `int`, `encode_energy` with the
store into `int index` explicit is `encode_energy`. -/
theorem encode_energy_int32_eq (d : Defines) (log10 : ℚ → ℚ) (e : ℚ)
    (h1 : -2 ^ 31 ≤
      ⌊(d.E_LEVELS : ℚ) * ((10 * log10 e - d.E_MIN_DB) / (d.E_MAX_DB - d.E_MIN_DB)) + 1 / 2⌋)
    (h2 : ⌊(d.E_LEVELS : ℚ) * ((10 * log10 e - d.E_MIN_DB) / (d.E_MAX_DB - d.E_MIN_DB)) +
      1 / 2⌋ < 2 ^ 31) :
    encode_energy_int32 d log10 e = encode_energy d log10 e := by
  unfold encode_energy_int32 encode_energy
  simp only []
  rw [double_to_int_of_fits _ h1 h2]

/-- C8: with `E_MIN_DB < E_MAX_DB` and `E_LEVELS ≥ 1`, `encode_energy` maps the
minimum representable energy `10^(E_MIN_DB/10)` (the `e` with
`log10(e) = E_MIN_DB/10`) to index 0 and the maximum `10^(E_MAX_DB/10)` (the `e`
with `log10(e) = E_MAX_DB/10`) to index `E_LEVELS-1`. -/
theorem encode_energy_bounds (d : Defines) (log10 : ℚ → ℚ) (e_lo e_hi : ℚ)
    (hE : d.E_MIN_DB < d.E_MAX_DB) (hL : 1 ≤ d.E_LEVELS)
    (hlo : log10 e_lo = d.E_MIN_DB / 10) (hhi : log10 e_hi = d.E_MAX_DB / 10) :
    encode_energy d log10 e_lo = 0 ∧ encode_energy d log10 e_hi = d.E_LEVELS - 1 := by
  have hDE : d.E_MAX_DB - d.E_MIN_DB ≠ 0 := by
    have : 0 < d.E_MAX_DB - d.E_MIN_DB := by linarith
    exact ne_of_gt this
  constructor
  · unfold encode_energy
    simp only []
    apply clamp_floor_of_nonpos _ _ hL
    rw [hlo]
    have : 10 * (d.E_MIN_DB / 10) - d.E_MIN_DB = 0 := by ring
    rw [this, zero_div, mul_zero]
  · unfold encode_energy
    simp only []
    apply clamp_floor_of_ge _ _ hL
    rw [hhi]
    have : 10 * (d.E_MAX_DB / 10) - d.E_MIN_DB = d.E_MAX_DB - d.E_MIN_DB := by ring
    rw [this, div_self hDE, mul_one]

theorem encode_energy_bounds_witness :
    encode_energy ⟨3, 6, 20, 160, 128, 3, 16, -10, 40, 10⟩
        (fun e => if e = 1 / 10 then -1 else if e = 10000 then 4 else 0) (1 / 10) = 0 ∧
    encode_energy ⟨3, 6, 20, 160, 128, 3, 16, -10, 40, 10⟩
        (fun e => if e = 1 / 10 then -1 else if e = 10000 then 4 else 0) 10000 =
      (16 : ℤ) - 1 :=
  encode_energy_bounds ⟨3, 6, 20, 160, 128, 3, 16, -10, 40, 10⟩
    (fun e => if e = 1 / 10 then -1 else if e = 10000 then 4 else 0) (1 / 10) 10000
    (by norm_num) (by decide) (by norm_num) (by norm_num)

/-! ### Bandwidth expansion `bw_expand_lsps` -/

theorem getD_set_ne (l : List ℚ) (i j : ℕ) (v : ℚ) (h : j ≠ i) :
    (l.set i v).getD j 0 = l.getD j 0 := by
  simp [List.getD_eq_getElem?_getD, List.getElem?_set_ne h.symm]

theorem getD_set_self (l : List ℚ) (i : ℕ) (v : ℚ) (h : i < l.length) :
    (l.set i v).getD i 0 = v := by
  simp [List.getD_eq_getElem?_getD, h]

theorem set_getD_self (l : List ℚ) (i : ℕ) : l.set i (l.getD i 0) = l := by
  apply List.ext_getElem?
  intro j
  by_cases h : i = j
  · subst h
    by_cases hi : i < l.length
    · simp [List.getD_eq_getElem?_getD, hi, List.getElem?_set]
    · simp [List.set_eq_of_length_le (not_lt.mp hi)]
  · simp [List.getElem?_set_ne h]

theorem bw_expand_step_length (thr bump : ℚ) (l : List ℚ) (i : ℕ) :
    (bw_expand_step thr bump l i).length = l.length := by
  unfold bw_expand_step
  split_ifs
  · exact List.length_set _ _ _
  · rfl

theorem bw_expand_step_getD_ne (thr bump : ℚ) (l : List ℚ) (i j : ℕ) (h : j ≠ i) :
    (bw_expand_step thr bump l i).getD j 0 = l.getD j 0 := by
  unfold bw_expand_step
  split_ifs
  · exact getD_set_ne l i j _ h
  · rfl

/-- After the loop body at index `i`, the pair `(i-1, i)` is either separated by
the threshold or was just set to the increment. -/
theorem bw_expand_step_ok (thr bump : ℚ) (l : List ℚ) (i : ℕ) (hi : 1 ≤ i)
    (hlen : i < l.length) :
    thr ≤ (bw_expand_step thr bump l i).getD i 0 -
        (bw_expand_step thr bump l i).getD (i - 1) 0 ∨
      (bw_expand_step thr bump l i).getD i 0 =
        (bw_expand_step thr bump l i).getD (i - 1) 0 + bump := by
  rw [bw_expand_step_getD_ne thr bump l i (i - 1) (by omega)]
  unfold bw_expand_step
  split_ifs with h
  · right
    exact getD_set_self l i _ hlen
  · left
    exact not_lt.mp h

/-- The loop body at index `i` changes nothing when the pair `(i-1, i)` is
separated by the threshold or already sits at the increment. -/
theorem bw_expand_step_fixed (thr bump : ℚ) (l : List ℚ) (i : ℕ)
    (h : i < l.length →
      (thr ≤ l.getD i 0 - l.getD (i - 1) 0 ∨ l.getD i 0 = l.getD (i - 1) 0 + bump)) :
    bw_expand_step thr bump l i = l := by
  unfold bw_expand_step
  split_ifs with hc
  · by_cases hi : i < l.length
    · rcases h hi with h1 | h1
      · exact absurd hc (not_lt.mpr h1)
      · rw [← h1]
        exact set_getD_self l i
    · exact List.set_eq_of_length_le (not_lt.mp hi)
  · rfl

theorem lsp_pass_zero (thr bump : ℕ → ℚ) (l : List ℚ) (lo : ℕ) :
    lsp_pass thr bump l lo 0 = l := rfl

theorem lsp_pass_succ (thr bump : ℕ → ℚ) (l : List ℚ) (lo n : ℕ) :
    lsp_pass thr bump l lo (n + 1) =
      lsp_pass thr bump (bw_expand_step (thr lo) (bump lo) l lo) (lo + 1) n := by
  unfold lsp_pass
  rw [List.range'_succ, List.foldl_cons]

theorem lsp_pass_length (thr bump : ℕ → ℚ) (n : ℕ) :
    ∀ (l : List ℚ) (lo : ℕ), (lsp_pass thr bump l lo n).length = l.length := by
  induction n with
  | zero => intro l lo; rfl
  | succ n ih =>
    intro l lo
    rw [lsp_pass_succ, ih, bw_expand_step_length]

/-- A pass over the indexes from `lo` on leaves the entries before `lo` alone. -/
theorem lsp_pass_getD_lt (thr bump : ℕ → ℚ) (n : ℕ) :
    ∀ (l : List ℚ) (lo j : ℕ), j < lo →
      (lsp_pass thr bump l lo n).getD j 0 = l.getD j 0 := by
  induction n with
  | zero => intro l lo j _; rfl
  | succ n ih =>
    intro l lo j hj
    rw [lsp_pass_succ, ih _ _ _ (by omega), bw_expand_step_getD_ne _ _ _ _ _ (by omega)]

/-- After a pass over `lo, ..., lo+n-1`, every pair `(i-1, i)` with `i` in that
range is separated by its threshold or sits exactly at its increment. -/
theorem lsp_pass_ok (thr bump : ℕ → ℚ) (n : ℕ) :
    ∀ (l : List ℚ) (lo : ℕ), 1 ≤ lo → ∀ i, lo ≤ i → i < lo + n → i < l.length →
      (thr i ≤ (lsp_pass thr bump l lo n).getD i 0 -
          (lsp_pass thr bump l lo n).getD (i - 1) 0 ∨
        (lsp_pass thr bump l lo n).getD i 0 =
          (lsp_pass thr bump l lo n).getD (i - 1) 0 + bump i) := by
  induction n with
  | zero => intro l lo _ i h1 h2 _; omega
  | succ n ih =>
    intro l lo hlo i h1 h2 hlen
    rw [lsp_pass_succ]
    rcases Nat.eq_or_lt_of_le h1 with heq | hlt
    · subst heq
      rw [lsp_pass_getD_lt _ _ _ _ _ lo (by omega),
        lsp_pass_getD_lt _ _ _ _ _ (lo - 1) (by omega)]
      exact bw_expand_step_ok _ _ l lo hlo hlen
    · exact ih _ (lo + 1) (by omega) i (by omega) (by omega)
        (by rw [bw_expand_step_length]; exact hlen)

/-- A pass changes nothing on a vector whose pairs in range are all separated
by their threshold or sit exactly at their increment. -/
theorem lsp_pass_fixed (thr bump : ℕ → ℚ) (n : ℕ) :
    ∀ (l : List ℚ) (lo : ℕ),
      (∀ i, lo ≤ i → i < lo + n → i < l.length →
        (thr i ≤ l.getD i 0 - l.getD (i - 1) 0 ∨
          l.getD i 0 = l.getD (i - 1) 0 + bump i)) →
      lsp_pass thr bump l lo n = l := by
  induction n with
  | zero => intro l lo _; rfl
  | succ n ih =>
    intro l lo h
    rw [lsp_pass_succ,
      bw_expand_step_fixed _ _ l lo (fun hl => h lo (le_refl _) (by omega) hl)]
    exact ih l (lo + 1) (fun i h1 h2 hl => h i (by omega) (by omega) hl)

/-- The two loops of `bw_expand_lsps` are one pass over `1, ..., order-1` with
the band threshold and increment of each index. -/
theorem bw_expand_lsps_eq_pass (PI : ℚ) (l : List ℚ) (order : ℕ) (h4 : 4 ≤ order) :
    bw_expand_lsps PI l order = lsp_pass (bw_thr PI) (bw_bump PI) l 1 (order - 1) := by
  have hsplit : List.range' 1 (order - 1) = List.range' 1 3 ++ List.range' 4 (order - 4) := by
    have := List.range'_append 1 3 (order - 4) 1
    rw [this]
    congr 1
    omega
  unfold lsp_pass bw_expand_lsps
  rw [hsplit, List.foldl_append]
  have h1 : List.foldl (bw_expand_step (25 * (PI / 4000)) (50 * (PI / 4000))) l
      (List.range' 1 3) =
      List.foldl (fun l i => bw_expand_step (bw_thr PI i) (bw_bump PI i) l i) l
        (List.range' 1 3) := by
    apply List.foldl_ext
    intro a b hb
    have hb4 : b < 4 := by
      rw [List.mem_range'_1] at hb
      omega
    simp [bw_thr, bw_bump, hb4]
  rw [h1]
  apply List.foldl_ext
  intro a b hb
  have hb4 : ¬ b < 4 := by
    rw [List.mem_range'_1] at hb
    omega
  simp [bw_thr, bw_bump, hb4]

/-- C9: `bw_expand_lsps` is idempotent on every LSP vector of length
`order ≥ 4`. -/
theorem bw_expand_lsps_idempotent (PI : ℚ) (x : List ℚ) (order : ℕ)
    (h4 : 4 ≤ order) (hlen : x.length = order) :
    bw_expand_lsps PI (bw_expand_lsps PI x order) order = bw_expand_lsps PI x order := by
  rw [bw_expand_lsps_eq_pass PI x order h4, bw_expand_lsps_eq_pass PI _ order h4]
  apply lsp_pass_fixed
  intro i h1 h2 hl
  rw [lsp_pass_length] at hl
  exact lsp_pass_ok _ _ _ x 1 (le_refl 1) i h1 h2 hl

theorem bw_expand_lsps_idempotent_witness :
    bw_expand_lsps 3 (bw_expand_lsps 3 [1, 0, 3, 2, 5, 4, 3, 2, 1, 0] 10) 10 =
      bw_expand_lsps 3 [1, 0, 3, 2, 5, 4, 3, 2, 1, 0] 10 :=
  bw_expand_lsps_idempotent 3 [1, 0, 3, 2, 5, 4, 3, 2, 1, 0] 10 (by decide) (by decide)

/-! ### The split scalar path `encode_lsps` / `decode_lsps` -/

/-- C18 (code at the failing input): with `PI = 3`, `x = [0]` and the
scalar codebook `[2^55, 2^54]`, both squared distances exceed the initial
`beste = 1E32` of `quantise`, `encode_lsps` selects index 0, and the decoded
component, converted to Hz, is `2^55` although `2^54` is nearer to `x[0]`. -/
theorem decode_encode_lsps_not_nearest_example :
    (4000 / 3 : ℚ) *
      (decode_lsps ⟨3, 6, 20, 160, 128, 3, 16, -10, 40, 10⟩
        (fun _ => ⟨1, 1, 2, [2 ^ 55, 2 ^ 54]⟩)
        (encode_lsps ⟨3, 6, 20, 160, 128, 3, 16, -10, 40, 10⟩
          (fun _ => ⟨1, 1, 2, [2 ^ 55, 2 ^ 54]⟩) [0] 1 0) 1).getD 0 0 = 2 ^ 55 ∧
    |(2 : ℚ) ^ 54 - (4000 / 3) * 0| < |(2 : ℚ) ^ 55 - (4000 / 3) * 0| := by
  constructor
  · norm_num [decode_lsps, encode_lsps, quantise, quantise_search, quantise_e, beste_init,
      List.range_succ]
  · norm_num [abs_of_pos]

/-! ### Loops that write one array entry per iteration -/

theorem foldl_length_of_step (f : List ℚ → ℕ → List ℚ)
    (hlen : ∀ l i, (f l i).length = l.length) :
    ∀ (is : List ℕ) (l : List ℚ), (is.foldl f l).length = l.length := by
  intro is
  induction is with
  | nil => intro l; rfl
  | cons a t ih => intro l; rw [List.foldl_cons, ih, hlen]

/-- A loop whose body at index `i` writes only entry `i` leaves alone every
entry whose index it does not visit. -/
theorem foldl_getD_of_not_mem (f : List ℚ → ℕ → List ℚ)
    (hne : ∀ l i j, j ≠ i → (f l i).getD j 0 = l.getD j 0) :
    ∀ (is : List ℕ) (l : List ℚ) (j : ℕ), j ∉ is → (is.foldl f l).getD j 0 = l.getD j 0 := by
  intro is
  induction is with
  | nil => intro l j _; rfl
  | cons a t ih =>
    intro l j hj
    rw [List.foldl_cons, ih _ j (fun h => hj (List.mem_cons_of_mem a h)),
      hne l a j (fun h => hj (h ▸ List.mem_cons_self _ _))]

/-- A loop over `lo, ..., lo+n-1` whose body at `i` writes only entry `i`, with
a value `F i` of the old entry `i` and of entry `i-1`: the final entry `i` is
`F i` of the initial entry `i` and of the final entry `i-1`. -/
theorem foldl_range_getD (f : List ℚ → ℕ → List ℚ) (F : ℕ → ℚ → ℚ → ℚ)
    (hlen : ∀ l i, (f l i).length = l.length)
    (hne : ∀ l i j, j ≠ i → (f l i).getD j 0 = l.getD j 0)
    (hval : ∀ l i, i < l.length → (f l i).getD i 0 = F i (l.getD i 0) (l.getD (i - 1) 0)) :
    ∀ (n : ℕ) (l : List ℚ) (lo i : ℕ), lo ≤ i → i < lo + n → i < l.length →
      ((List.range' lo n).foldl f l).getD i 0 =
        F i (l.getD i 0)
          (if i = 0 then l.getD 0 0 else ((List.range' lo n).foldl f l).getD (i - 1) 0) := by
  intro n
  induction n with
  | zero => intro l lo i h1 h2 _; omega
  | succ n ih =>
    intro l lo i h1 h2 hl
    rw [List.range'_succ, List.foldl_cons]
    rcases Nat.eq_or_lt_of_le h1 with heq | hlt
    · subst heq
      have hnm : ∀ j, j ≤ lo → j ∉ List.range' (lo + 1) n := by
        intro j hj hmem
        rw [List.mem_range'_1] at hmem
        omega
      rw [foldl_getD_of_not_mem f hne _ _ lo (hnm lo (le_refl _)), hval l lo hl]
      by_cases h0 : lo = 0
      · subst h0
        simp
      · rw [if_neg h0, foldl_getD_of_not_mem f hne _ _ (lo - 1) (hnm _ (Nat.sub_le _ _)),
          hne l lo (lo - 1) (by omega)]
    · have := ih (f l lo) (lo + 1) i (by omega) (by omega) (by rw [hlen]; exact hl)
      have hi0 : i ≠ 0 := by omega
      rw [this, if_neg hi0, if_neg hi0, hne l lo i (by omega)]

theorem set_length_step (g : List ℚ → ℕ → ℚ) :
    ∀ (l : List ℚ) (i : ℕ), (l.set i (g l i)).length = l.length :=
  fun l i => List.length_set l i _

theorem set_getD_ne_step (g : List ℚ → ℕ → ℚ) :
    ∀ (l : List ℚ) (i j : ℕ), j ≠ i → (l.set i (g l i)).getD j 0 = l.getD j 0 :=
  fun l i j h => getD_set_ne l i j _ h

/-! ### The delta-in-time quantiser `lspdt_quantise` -/

/-- After the copy loop `lsps_[i] = lsps__prev[i]`, entry `i < n` holds
`lsps__prev[i]`. -/
theorem copy_loop_getD (prev : List ℚ) (n : ℕ) (l : List ℚ) (i : ℕ)
    (hi : i < n) (hl : i < l.length) :
    ((List.range n).foldl (fun l i => l.set i (prev.getD i 0)) l).getD i 0 = prev.getD i 0 := by
  rw [List.range_eq_range']
  have := foldl_range_getD (fun l i => l.set i (prev.getD i 0)) (fun i _ _ => prev.getD i 0)
    (set_length_step _) (set_getD_ne_step _)
    (fun l i h => getD_set_self l i _ h) n l 0 i (Nat.zero_le _) (by omega) hl
  exact this

/-- C12: `lspdt_quantise` copies the unquantised group verbatim from the
previous frame. In mode `LSPDT_LOW` the outputs `lsps_[4..9]` equal
`lsps__prev[4..9]`, in mode `LSPDT_HIGH` the outputs `lsps_[0..3]` equal
`lsps__prev[0..3]`, for any codebooks, and so the copied group is the same
for any two current-frame vectors `lsps`, `lsps2`. -/
theorem lspdt_quantise_copies (d : Defines) (lsp_cbdt : ℕ → lsp_codebook)
    (LSPDT_LOW LSPDT_HIGH : ℤ) (lsps lsps2 lsps_ lsps__prev : List ℚ)
    (hORD : d.LPC_ORD = 10) (hlen : lsps_.length = 10) (hprev : lsps__prev.length = 10) :
    (∀ i, 4 ≤ i → i < 10 →
      (lspdt_quantise d lsp_cbdt LSPDT_LOW LSPDT_HIGH lsps lsps_ lsps__prev LSPDT_LOW).getD i 0 =
        lsps__prev.getD i 0 ∧
      (lspdt_quantise d lsp_cbdt LSPDT_LOW LSPDT_HIGH lsps2 lsps_ lsps__prev LSPDT_LOW).getD i 0 =
        (lspdt_quantise d lsp_cbdt LSPDT_LOW LSPDT_HIGH lsps lsps_ lsps__prev
          LSPDT_LOW).getD i 0) ∧
    (∀ i, i < 4 →
      (lspdt_quantise d lsp_cbdt LSPDT_LOW LSPDT_HIGH lsps lsps_ lsps__prev LSPDT_HIGH).getD i 0 =
        lsps__prev.getD i 0 ∧
      (lspdt_quantise d lsp_cbdt LSPDT_LOW LSPDT_HIGH lsps2 lsps_ lsps__prev LSPDT_HIGH).getD i 0 =
        (lspdt_quantise d lsp_cbdt LSPDT_LOW LSPDT_HIGH lsps lsps_ lsps__prev
          LSPDT_HIGH).getD i 0) := by
  have hlow : ∀ (x : List ℚ) (i : ℕ), 4 ≤ i → i < 10 →
      (lspdt_quantise d lsp_cbdt LSPDT_LOW LSPDT_HIGH x lsps_ lsps__prev LSPDT_LOW).getD i 0 =
        lsps__prev.getD i 0 := by
    intro x i h4 h10
    unfold lspdt_quantise
    simp only [ne_eq, not_true_eq_false, if_false]
    have hcopy := copy_loop_getD lsps__prev d.LPC_ORD lsps_ i (by omega) (by omega)
    split_ifs
    · exact hcopy
    · rw [foldl_getD_of_not_mem _ (set_getD_ne_step _) _ _ i
        (by rw [List.mem_range'_1]; omega)]
      exact hcopy
  have hhigh : ∀ (x : List ℚ) (i : ℕ), i < 4 →
      (lspdt_quantise d lsp_cbdt LSPDT_LOW LSPDT_HIGH x lsps_ lsps__prev LSPDT_HIGH).getD i 0 =
        lsps__prev.getD i 0 := by
    intro x i h4
    unfold lspdt_quantise
    simp only [ne_eq, not_true_eq_false, if_false]
    have hcopy := copy_loop_getD lsps__prev d.LPC_ORD lsps_ i (by omega) (by omega)
    split_ifs
    · exact hcopy
    · rw [foldl_getD_of_not_mem _ (set_getD_ne_step _) _ _ i
        (by rw [List.mem_range'_1]; omega)]
      exact hcopy
  exact ⟨fun i h4 h10 => ⟨hlow lsps i h4 h10, by rw [hlow lsps2 i h4 h10, hlow lsps i h4 h10]⟩,
    fun i h4 => ⟨hhigh lsps i h4, by rw [hhigh lsps2 i h4, hhigh lsps i h4]⟩⟩

theorem lspdt_quantise_copies_witness :
    (lspdt_quantise ⟨3, 6, 20, 160, 128, 3, 16, -10, 40, 10⟩
        (fun i => if i = 0 then ⟨4, 1, 2, [0, 0, 0, 0, 10, 10, 10, 10]⟩
          else ⟨6, 1, 2, [0, 0, 0, 0, 0, 0, 10, 10, 10, 10, 10, 10]⟩) 1 2
        [1, 2, 3, 4, 5, 6, 7, 8, 9, 10] [0, 0, 0, 0, 0, 0, 0, 0, 0, 0]
        [1, 1, 2, 2, 3, 3, 4, 4, 5, 5] 1).getD 4 0 =
      ([1, 1, 2, 2, 3, 3, 4, 4, 5, 5] : List ℚ).getD 4 0 :=
  ((lspdt_quantise_copies ⟨3, 6, 20, 160, 128, 3, 16, -10, 40, 10⟩
    (fun i => if i = 0 then ⟨4, 1, 2, [0, 0, 0, 0, 10, 10, 10, 10]⟩
      else ⟨6, 1, 2, [0, 0, 0, 0, 0, 0, 10, 10, 10, 10, 10, 10]⟩) 1 2
    [1, 2, 3, 4, 5, 6, 7, 8, 9, 10] [1, 2, 3, 4, 5, 6, 7, 8, 9, 10]
    [0, 0, 0, 0, 0, 0, 0, 0, 0, 0] [1, 1, 2, 2, 3, 3, 4, 4, 5, 5]
    rfl (by decide) (by decide)).1 4 (by decide) (by decide)).1

/-! ### Order repair and minimum distance -/

/-- C13 (code at the failing input): on `[3, 2, 1]` with `lpc_order = 3`,
`check_lsp_order` first swaps the pair (0, 1) to `1.95, 3.05`, then swaps the
pair (1, 2) to `0.95, 3.10`; the result `[1.95, 0.95, 3.10]` has
`lsp[1] < lsp[0]`. -/
theorem check_lsp_order_example :
    check_lsp_order [3, 2, 1] 3 = [39 / 20, 19 / 20, 31 / 10] ∧
    (check_lsp_order [3, 2, 1] 3).getD 1 0 < (check_lsp_order [3, 2, 1] 3).getD 0 0 := by
  have h : check_lsp_order [3, 2, 1] 3 = [39 / 20, 19 / 20, 31 / 10] := by
    norm_num [check_lsp_order, check_lsp_order_step, List.range', List.foldl]
  rw [h]
  exact ⟨rfl, by norm_num⟩

/-- C14 (code at the failing input): on the strictly increasing vector
`[0, 0.005, 0.006]` with `lpc_order = 3`, `force_min_lsp_dist` moves entry 1 to
`0.015` and then entry 2 to `0.016`; the last pair is `0.001` apart, less than
`0.01`. -/
theorem force_min_lsp_dist_example :
    lsp_increasing [0, 5 / 1000, 6 / 1000] 3 ∧
    force_min_lsp_dist [0, 5 / 1000, 6 / 1000] 3 = [0, 15 / 1000, 16 / 1000] ∧
    (force_min_lsp_dist [0, 5 / 1000, 6 / 1000] 3).getD 2 0 -
      (force_min_lsp_dist [0, 5 / 1000, 6 / 1000] 3).getD 1 0 < 1 / 100 := by
  have h : force_min_lsp_dist [0, 5 / 1000, 6 / 1000] 3 = [0, 15 / 1000, 16 / 1000] := by
    norm_num [force_min_lsp_dist, force_min_lsp_dist_step, List.range', List.foldl]
  rw [h]
  refine ⟨?_, rfl, by norm_num⟩
  intro i h1 h2
  interval_cases i <;> norm_num

/-! ### The fallback of `speech_to_uq_lsps` -/

/-- After the loop `lsp[i] = (PI/order)*(float)i`, entry `i < order` holds
`(PI/order)*i`. -/
theorem benign_loop_getD (PI : ℚ) (order : ℕ) (l : List ℚ) (i : ℕ)
    (hi : i < order) (hl : i < l.length) :
    ((List.range order).foldl (fun l i => l.set i ((PI / (order : ℚ)) * (i : ℚ))) l).getD i 0 =
      (PI / (order : ℚ)) * (i : ℚ) := by
  rw [List.range_eq_range']
  exact foldl_range_getD (fun l i => l.set i ((PI / (order : ℚ)) * (i : ℚ)))
    (fun i _ _ => (PI / (order : ℚ)) * (i : ℚ))
    (set_length_step _) (set_getD_ne_step _)
    (fun l i h => getD_set_self l i _ h) order l 0 i (Nat.zero_le _) (by omega) hl

/-- The array `lsp` left by `speech_to_uq_lsps`, in terms of what `lpc_to_lsp`
returned for the coefficients `ak`. -/
theorem speech_to_uq_lsps_lsp_eq (d : Defines) (M : ℕ)
    (autocorrelate : List ℚ → ℕ → List ℚ) (levinson_durbin : List ℚ → ℕ → List ℚ)
    (lpc_to_lsp : List ℚ → ℕ → List ℚ × ℤ) (Sn w : List ℚ) (order : ℕ) :
    (speech_to_uq_lsps d M autocorrelate levinson_durbin lpc_to_lsp Sn w order).2.1 =
      if (lpc_to_lsp
          (speech_to_uq_lsps d M autocorrelate levinson_durbin lpc_to_lsp Sn w order).2.2
          order).2 ≠ (order : ℤ) then
        (List.range order).foldl (fun l i => l.set i ((d.PI / (order : ℚ)) * (i : ℚ)))
          (lpc_to_lsp
            (speech_to_uq_lsps d M autocorrelate levinson_durbin lpc_to_lsp Sn w order).2.2
            order).1
      else
        (lpc_to_lsp
          (speech_to_uq_lsps d M autocorrelate levinson_durbin lpc_to_lsp Sn w order).2.2
          order).1 := rfl

/-- C17: when the root finder reports a root count different from `order`,
`speech_to_uq_lsps` returns `lsp[i] = i*PI/order` for `i = 0..order-1`, which for
`order ≥ 1` is strictly increasing and within `[0, PI]`; when the root count
equals `order` the root finder's vector is returned unchanged. The function
has no failure path. -/
theorem speech_to_uq_lsps_fallback (d : Defines) (M : ℕ)
    (autocorrelate : List ℚ → ℕ → List ℚ) (levinson_durbin : List ℚ → ℕ → List ℚ)
    (lpc_to_lsp : List ℚ → ℕ → List ℚ × ℤ) (Sn w : List ℚ) (order : ℕ)
    (hPI : 0 < d.PI) (hord : 1 ≤ order)
    (hlen : (lpc_to_lsp
      (speech_to_uq_lsps d M autocorrelate levinson_durbin lpc_to_lsp Sn w order).2.2
      order).1.length = order) :
    ((lpc_to_lsp
        (speech_to_uq_lsps d M autocorrelate levinson_durbin lpc_to_lsp Sn w order).2.2
        order).2 ≠ (order : ℤ) →
      (∀ i, i < order →
        (speech_to_uq_lsps d M autocorrelate levinson_durbin lpc_to_lsp Sn w order).2.1.getD i 0 =
          (i : ℚ) * d.PI / (order : ℚ)) ∧
      lsp_increasing
        (speech_to_uq_lsps d M autocorrelate levinson_durbin lpc_to_lsp Sn w order).2.1 order ∧
      (∀ i, i < order →
        0 ≤ (speech_to_uq_lsps d M autocorrelate levinson_durbin lpc_to_lsp Sn w
            order).2.1.getD i 0 ∧
          (speech_to_uq_lsps d M autocorrelate levinson_durbin lpc_to_lsp Sn w
            order).2.1.getD i 0 ≤ d.PI)) ∧
    ((lpc_to_lsp
        (speech_to_uq_lsps d M autocorrelate levinson_durbin lpc_to_lsp Sn w order).2.2
        order).2 = (order : ℤ) →
      (speech_to_uq_lsps d M autocorrelate levinson_durbin lpc_to_lsp Sn w order).2.1 =
        (lpc_to_lsp
          (speech_to_uq_lsps d M autocorrelate levinson_durbin lpc_to_lsp Sn w order).2.2
          order).1) := by
  have hoq : (0 : ℚ) < (order : ℚ) := by exact_mod_cast hord
  have hstep : 0 < d.PI / (order : ℚ) := div_pos hPI hoq
  constructor
  · intro hne
    have hval : ∀ i, i < order →
        (speech_to_uq_lsps d M autocorrelate levinson_durbin lpc_to_lsp Sn w order).2.1.getD i 0 =
          (d.PI / (order : ℚ)) * (i : ℚ) := by
      intro i hi
      have h := benign_loop_getD d.PI order _ i hi (by rw [hlen]; exact hi)
      rw [speech_to_uq_lsps_lsp_eq, if_pos hne]
      exact h
    refine ⟨?_, ?_, ?_⟩
    · intro i hi
      rw [hval i hi]
      ring
    · intro i h1 h2
      rw [hval i h2, hval (i - 1) (by omega)]
      apply mul_lt_mul_of_pos_left _ hstep
      exact_mod_cast (by omega : i - 1 < i)
    · intro i hi
      rw [hval i hi]
      have hiq : (i : ℚ) ≤ (order : ℚ) := by exact_mod_cast le_of_lt hi
      have hi0 : (0 : ℚ) ≤ (i : ℚ) := by exact_mod_cast Nat.zero_le i
      constructor
      · exact mul_nonneg (le_of_lt hstep) hi0
      · calc d.PI / (order : ℚ) * (i : ℚ) ≤ d.PI / (order : ℚ) * (order : ℚ) :=
            mul_le_mul_of_nonneg_left hiq (le_of_lt hstep)
          _ = d.PI := by field_simp
  · intro heq
    rw [speech_to_uq_lsps_lsp_eq, if_neg (not_not.mpr heq)]

theorem speech_to_uq_lsps_fallback_witness :
    (speech_to_uq_lsps ⟨3, 6, 20, 160, 128, 3, 16, -10, 40, 10⟩ 2
        (fun _ _ => [1, 0, 0]) (fun _ _ => [1, 0, 0]) (fun _ _ => ([5, 5], 1)) [1, 1] [1, 1]
        2).2.1.getD 1 0 = ((1 : ℕ) : ℚ) * 3 / ((2 : ℕ) : ℚ) :=
  ((speech_to_uq_lsps_fallback ⟨3, 6, 20, 160, 128, 3, 16, -10, 40, 10⟩ 2
    (fun _ _ => [1, 0, 0]) (fun _ _ => [1, 0, 0]) (fun _ _ => ([5, 5], 1)) [1, 1] [1, 1] 2
    (by norm_num) (by decide) rfl).1 (by decide)).1 1 (by decide)

/-! ### Perceptual step quantisation `locate_lsps_jnd_steps` -/

theorem jnd_step_length (PI step : ℚ) (l : List ℚ) (i : ℕ) :
    (jnd_step PI step l i).length = l.length := by
  unfold jnd_step
  simp only []
  split_ifs <;> simp

theorem jnd_step_getD_ne (PI step : ℚ) (l : List ℚ) (i j : ℕ) (h : j ≠ i) :
    (jnd_step PI step l i).getD j 0 = l.getD j 0 := by
  unfold jnd_step
  simp only []
  split_ifs <;> simp only [getD_set_ne _ _ _ _ h]

/-! ### The delta-scalar quantiser `lspd_quantise` -/

/-- C16 (code at the failing input): with `PI = 3`, every difference codebook
equal to the single codeword `[100]` and the input
`[0.1, 0.3, 0.5, 0.7, 1.0, 1.3, 1.6, 1.9, 2.2, 2.5]`, the running sums of the
chosen difference codewords are 100, 200, 300, 400 Hz, that is
`0.075, 0.15, 0.225, 0.3` rad, but `lspd_quantise` leaves the unquantised inputs
`0.1, 0.3, 0.5, 0.7` in `lsp_[0..3]`: the loop stores `(PI/4000.0)*lsp_hz[i]`,
not `(PI/4000.0)*lsp__hz[i]`. -/
theorem lspd_quantise_example :
    (lspd_quantise ⟨3, 6, 20, 160, 128, 3, 16, -10, 40, 10⟩ 20 (fun _ => ⟨1, 0, 1, [100]⟩)
      (fun _ => ⟨6, 0, 1, [1000, 1500, 2000, 2500, 3000, 3500]⟩)
      [1 / 10, 3 / 10, 1 / 2, 7 / 10, 1, 13 / 10, 16 / 10, 19 / 10, 22 / 10, 25 / 10]
      [0, 0, 0, 0, 0, 0, 0, 0, 0, 0] 10 0).take 4 = [1 / 10, 3 / 10, 1 / 2, 7 / 10] ∧
    ((List.range' 0 4).foldl
      (lspd_step ⟨3, 6, 20, 160, 128, 3, 16, -10, 40, 10⟩ (fun _ => ⟨1, 0, 1, [100]⟩)
        (List.replicate 20 1) [400 / 3, 400, 2000 / 3, 2800 / 3])
      ⟨[0, 0, 0, 0], [0, 0, 0, 0], [0, 0, 0, 0], 0⟩).lsp__hz = [100, 200, 300, 400] := by
  constructor
  · norm_num [lspd_quantise, lspd_step, quantise, quantise_search, quantise_e, beste_init,
      List.range_succ, List.range', List.foldl]
  · norm_num [lspd_step, quantise, quantise_search, quantise_e, beste_init,
      List.range_succ, List.range', List.foldl]

/-! ### The vector quantiser `lspvq_quantise` -/

/-- C19 (code at the failing input): with the strictly increasing vector
`lsp[i] = i/10^17`, the weights are `2*10^17` (`10^17` at index 9), so both
codewords of the codebook `[2,2,2,2,2,2, 1,1,1,1,1,1]` have an error above the
initial `beste = 1E32` of `quantise`; `lspvq_quantise` writes codeword 0 to
`lsp_[4..9]` although codeword 1 has the smaller error. -/
theorem lspvq_quantise_not_minimal_example :
    lsp_increasing [0, 1 / 10 ^ 17, 2 / 10 ^ 17, 3 / 10 ^ 17, 4 / 10 ^ 17, 5 / 10 ^ 17,
      6 / 10 ^ 17, 7 / 10 ^ 17, 8 / 10 ^ 17, 9 / 10 ^ 17] 10 ∧
    (lspvq_quantise ⟨3, 6, 20, 160, 128, 3, 16, -10, 40, 10⟩ (fun _ => ⟨1, 0, 1, [0]⟩)
      (fun _ => ⟨6, 1, 2, [2, 2, 2, 2, 2, 2, 1, 1, 1, 1, 1, 1]⟩)
      [0, 1 / 10 ^ 17, 2 / 10 ^ 17, 3 / 10 ^ 17, 4 / 10 ^ 17, 5 / 10 ^ 17,
        6 / 10 ^ 17, 7 / 10 ^ 17, 8 / 10 ^ 17, 9 / 10 ^ 17]
      [0, 0, 0, 0, 0, 0, 0, 0, 0, 0] 10 0).drop 4 = [2, 2, 2, 2, 2, 2] ∧
    lspvq_err [2, 2, 2, 2, 2, 2, 1, 1, 1, 1, 1, 1]
        [0, 1 / 10 ^ 17, 2 / 10 ^ 17, 3 / 10 ^ 17, 4 / 10 ^ 17, 5 / 10 ^ 17,
          6 / 10 ^ 17, 7 / 10 ^ 17, 8 / 10 ^ 17, 9 / 10 ^ 17] 1 <
      lspvq_err [2, 2, 2, 2, 2, 2, 1, 1, 1, 1, 1, 1]
        [0, 1 / 10 ^ 17, 2 / 10 ^ 17, 3 / 10 ^ 17, 4 / 10 ^ 17, 5 / 10 ^ 17,
          6 / 10 ^ 17, 7 / 10 ^ 17, 8 / 10 ^ 17, 9 / 10 ^ 17] 0 := by
  have hI : (Finset.Icc 4 9 : Finset ℕ) = {4, 5, 6, 7, 8, 9} := by decide
  refine ⟨?_, ?_, ?_⟩
  · intro i h1 h2
    interval_cases i <;> norm_num
  · norm_num [lspvq_quantise, lspvq_step, lspvq_wt, quantise, quantise_search, quantise_e,
      beste_init, List.range_succ, List.range', List.foldl]
  · unfold lspvq_err
    rw [hI]
    norm_num [lsp_spacing_weight]

/-! ### The amplitude reconstructor `aks_to_M2` -/

/-- C20 (code at the failing input): with `TWO_PI = 6`, `FFT_DEC = 8` (so
`r = 3/4`), `ak = [1, 0]` of order 1, whose transform is 1 in every bin,
`E = 8`, `Wo = 3/2`, `L = 2` and original amplitudes `A[1] = A[2] = 5`: the band
of harmonic 2 is the bins 3 and 4, and `P[3] = P[4] = 8`, so the claimed
amplitude is `sqrt(16) = 4`; but `Pw[4].real` still holds the transform value 1,
because only the bins below `FFT_DEC/2 = 4` were converted to the power
spectrum, and `aks_to_M2` stores `A[2] = sqrt(8 + 1) = 3`. -/
theorem aks_to_M2_example :
    aks_am (6 / 8) (3 / 2) 2 = 3 ∧ aks_bm (6 / 8) (3 / 2) 2 = 5 ∧
    (aks_to_M2 ⟨3, 6, 20, 160, 128, 3, 16, -10, 40, 10⟩ 8 (fun _ => List.replicate 8 (1, 0))
      (fun x => if x = 16 then 4 else if x = 9 then 3 else 0) (fun _ => 0)
      [1, 0] 1 ⟨3 / 2, 2, [0, 5, 5]⟩ 8).1.A = [0, 4, 3] ∧
    (fun x : ℚ => if x = 16 then (4 : ℚ) else if x = 9 then 3 else 0)
      (∑ _i in Finset.Ico 3 5, (8 : ℚ) / (1 * 1 + 0 * 0)) = 4 := by
  have ha1 : aks_am (6 / 8) (3 / 2) 1 = 1 := by
    unfold aks_am; norm_num [Int.floor_eq_iff]
  have hb1 : aks_bm (6 / 8) (3 / 2) 1 = 3 := by
    unfold aks_bm; norm_num [Int.floor_eq_iff]
  have ha2 : aks_am (6 / 8) (3 / 2) 2 = 3 := by
    unfold aks_am; norm_num [Int.floor_eq_iff]
  have hb2 : aks_bm (6 / 8) (3 / 2) 2 = 5 := by
    unfold aks_bm; norm_num [Int.floor_eq_iff]
  have hPw : aks_Pw 8 (fun _ => List.replicate 8 (1, 0)) [1, 0] 1 8 =
      [(8, 0), (8, 0), (8, 0), (8, 0), (1, 0), (1, 0), (1, 0), (1, 0)] := by
    norm_num [aks_Pw, List.range_succ, List.replicate]
  have hr : List.range' 1 2 = [1, 2] := by decide
  refine ⟨ha2, hb2, ?_, ?_⟩
  · unfold aks_to_M2
    simp only [hr, List.foldl_cons, List.foldl_nil, hPw]
    have h68 : (6 : ℚ) / ((8 : ℕ) : ℚ) = 6 / 8 := by norm_num
    have hE1 : aks_Em [(8, 0), (8, 0), (8, 0), (8, 0), (1, 0), (1, 0), (1, 0), (1, 0)] 1 3 =
        16 := by
      have h2 : ((3 : ℤ) - 1).toNat = 2 := rfl
      have t0 : ((1 : ℤ) + ((0 : ℕ) : ℤ)).toNat = 1 := rfl
      have t1 : ((1 : ℤ) + ((1 : ℕ) : ℤ)).toNat = 2 := rfl
      unfold aks_Em
      rw [h2]
      simp only [List.range_succ, List.range_zero, List.nil_append, List.foldl_append,
        List.foldl_cons, List.foldl_nil, t0, t1]
      norm_num [show Int.toNat 2 = 2 from rfl, show Int.toNat 3 = 3 from rfl,
        show Int.toNat 4 = 4 from rfl]
    have hE2 : aks_Em [(8, 0), (8, 0), (8, 0), (8, 0), (1, 0), (1, 0), (1, 0), (1, 0)] 3 5 =
        9 := by
      have h2 : ((5 : ℤ) - 3).toNat = 2 := rfl
      have t0 : ((3 : ℤ) + ((0 : ℕ) : ℤ)).toNat = 3 := rfl
      have t1 : ((3 : ℤ) + ((1 : ℕ) : ℤ)).toNat = 4 := rfl
      unfold aks_Em
      rw [h2]
      simp only [List.range_succ, List.range_zero, List.nil_append, List.foldl_append,
        List.foldl_cons, List.foldl_nil, t0, t1]
      norm_num [show Int.toNat 2 = 2 from rfl, show Int.toNat 3 = 3 from rfl,
        show Int.toNat 4 = 4 from rfl]
    simp only [aks_step, h68, ha1, hb1, ha2, hb2, hE1, hE2]
    norm_num
  · norm_num [Finset.sum_const]

/-! ### The delta-in-time quantiser in mode `LSPDT_ALL` -/

/-- C21 (code at the failing input): with `PI = 3`, `lsps = lsps__prev = 0`
and the first delta codebook holding the codewords `[2^55, 0, 0, 0]` and
`[2^54, 0, 0, 0]`, the Hz differences are all 0 and both errors exceed the
initial `beste = 1E32` of `quantise`; in mode `LSPDT_ALL` (0, with
`LSPDT_LOW = 1`, `LSPDT_HIGH = 2`) `lspdt_quantise` adds codeword 0 to entry 0
although codeword 1 is nearer to the differences. -/
theorem lspdt_quantise_not_nearest_example :
    (lspdt_quantise ⟨3, 6, 20, 160, 128, 3, 16, -10, 40, 10⟩
      (fun i => if i = 0 then ⟨4, 1, 2, [2 ^ 55, 0, 0, 0, 2 ^ 54, 0, 0, 0]⟩
        else ⟨6, 0, 1, [0, 0, 0, 0, 0, 0]⟩) 1 2
      [0, 0, 0, 0, 0, 0, 0, 0, 0, 0] [0, 0, 0, 0, 0, 0, 0, 0, 0, 0]
      [0, 0, 0, 0, 0, 0, 0, 0, 0, 0] 0).getD 0 0 = (3 / 4000) * 2 ^ 55 ∧
    lspdt_err 3 [2 ^ 55, 0, 0, 0, 2 ^ 54, 0, 0, 0] [0, 0, 0, 0, 0, 0, 0, 0, 0, 0]
        [0, 0, 0, 0, 0, 0, 0, 0, 0, 0] 4 0 1 <
      lspdt_err 3 [2 ^ 55, 0, 0, 0, 2 ^ 54, 0, 0, 0] [0, 0, 0, 0, 0, 0, 0, 0, 0, 0]
        [0, 0, 0, 0, 0, 0, 0, 0, 0, 0] 4 0 0 := by
  constructor
  · norm_num [lspdt_quantise, quantise, quantise_search, quantise_e, beste_init,
      List.range_succ, List.range', List.foldl]
  · norm_num [lspdt_err, Finset.sum_range_succ]

/-! ### Re-encoding on the split scalar path -/

theorem floor_int_add_half (i : ℤ) : ⌊(i : ℚ) + 1 / 2⌋ = i := by
  rw [Int.floor_eq_iff]
  constructor <;> linarith

theorem clamp_index_of_mem (L i : ℤ) (h0 : 0 ≤ i) (h1 : i ≤ L - 1) : clamp_index L i = i := by
  unfold clamp_index
  simp only []
  split_ifs <;> omega

/-- C23: every pitch index survives a decode/encode round trip. For
`Wo_min < Wo_max`, `WO_LEVELS ≥ 1` and `0 ≤ i ≤ WO_LEVELS-1`,
`encode_Wo(decode_Wo(i)) = i`. -/
theorem encode_decode_Wo (d : Defines) (i : ℤ)
    (hW : Wo_min d < Wo_max d) (hL : 1 ≤ d.WO_LEVELS)
    (h0 : 0 ≤ i) (h1 : i ≤ d.WO_LEVELS - 1) :
    encode_Wo d (decode_Wo d i) = i := by
  have hLq : (d.WO_LEVELS : ℚ) ≠ 0 := by
    have : (0 : ℚ) < (d.WO_LEVELS : ℚ) := by exact_mod_cast (by omega : 0 < d.WO_LEVELS)
    exact ne_of_gt this
  have hD : Wo_max d - Wo_min d ≠ 0 := by
    have : 0 < Wo_max d - Wo_min d := by linarith
    exact ne_of_gt this
  have hx : (d.WO_LEVELS : ℚ) * ((decode_Wo d i - Wo_min d) / (Wo_max d - Wo_min d)) =
      (i : ℚ) := by
    unfold decode_Wo Wo_step
    field_simp
    ring
  unfold encode_Wo
  simp only []
  rw [hx, floor_int_add_half, clamp_index_of_mem _ _ h0 h1]

theorem encode_decode_Wo_witness :
    encode_Wo ⟨3, 6, 20, 160, 128, 3, 16, -10, 40, 10⟩
      (decode_Wo ⟨3, 6, 20, 160, 128, 3, 16, -10, 40, 10⟩ 127) = 127 :=
  encode_decode_Wo ⟨3, 6, 20, 160, 128, 3, 16, -10, 40, 10⟩ 127
    (by norm_num [Wo_min, Wo_max]) (by decide) (by decide) (by decide)

/-! ### Bandwidth expansion only moves LSPs upward -/

/-- The entry written by the loop body of `bw_expand_lsps` at index `i`. -/
theorem bw_expand_step_getD_self (thr bump : ℚ) (l : List ℚ) (i : ℕ) (hi : i < l.length) :
    (bw_expand_step thr bump l i).getD i 0 =
      if l.getD i 0 - l.getD (i - 1) 0 < thr then l.getD (i - 1) 0 + bump else l.getD i 0 := by
  unfold bw_expand_step
  split_ifs with h
  · exact getD_set_self l i _ hi
  · rfl

/-- Each output of `bw_expand_lsps` from its input and the previous output. -/
theorem bw_expand_lsps_getD (PI : ℚ) (x : List ℚ) (order : ℕ) (h4 : 4 ≤ order)
    (hlen : x.length = order) (i : ℕ) (h1 : 1 ≤ i) (hi : i < order) :
    (bw_expand_lsps PI x order).getD i 0 =
      if x.getD i 0 - (bw_expand_lsps PI x order).getD (i - 1) 0 < bw_thr PI i then
        (bw_expand_lsps PI x order).getD (i - 1) 0 + bw_bump PI i
      else x.getD i 0 := by
  rw [bw_expand_lsps_eq_pass PI x order h4]
  have h := foldl_range_getD (fun l i => bw_expand_step (bw_thr PI i) (bw_bump PI i) l i)
    (fun i xv p => if xv - p < bw_thr PI i then p + bw_bump PI i else xv)
    (fun l i => bw_expand_step_length _ _ l i)
    (fun l i j hj => bw_expand_step_getD_ne _ _ l i j hj)
    (fun l i hl => bw_expand_step_getD_self _ _ l i hl)
    (order - 1) x 1 i h1 (by omega) (by omega)
  simp only [] at h
  rw [if_neg (by omega : ¬ i = 0)] at h
  exact h

/-- C24: `bw_expand_lsps` only ever moves LSPs upward. For an input `x` of
length `order ≥ 4` and `PI > 0`, the output `y` has `y[0] = x[0]`, `y[i] ≥ x[i]`
for `i = 1..order-1`, and `y[i] = x[i]` whenever `x[i] - y[i-1]` is at least the
band threshold (`25*PI/4000` for `i < 4`, `50*PI/4000` for `i ≥ 4`). -/
theorem bw_expand_lsps_upward (PI : ℚ) (x : List ℚ) (order : ℕ) (hPI : 0 < PI)
    (h4 : 4 ≤ order) (hlen : x.length = order) :
    (bw_expand_lsps PI x order).getD 0 0 = x.getD 0 0 ∧
    (∀ i, 1 ≤ i → i < order → x.getD i 0 ≤ (bw_expand_lsps PI x order).getD i 0) ∧
    (∀ i, 1 ≤ i → i < 4 →
      25 * PI / 4000 ≤ x.getD i 0 - (bw_expand_lsps PI x order).getD (i - 1) 0 →
      (bw_expand_lsps PI x order).getD i 0 = x.getD i 0) ∧
    (∀ i, 4 ≤ i → i < order →
      50 * PI / 4000 ≤ x.getD i 0 - (bw_expand_lsps PI x order).getD (i - 1) 0 →
      (bw_expand_lsps PI x order).getD i 0 = x.getD i 0) := by
  refine ⟨?_, ?_, ?_, ?_⟩
  · rw [bw_expand_lsps_eq_pass PI x order h4]
    exact lsp_pass_getD_lt _ _ _ x 1 0 (by decide)
  · intro i h1 hi
    rw [bw_expand_lsps_getD PI x order h4 hlen i h1 hi]
    split_ifs with h
    · have hb : bw_thr PI i ≤ bw_bump PI i := by
        unfold bw_thr bw_bump
        split_ifs <;> linarith
      linarith
    · exact le_refl _
  · intro i h1 hi hge
    rw [bw_expand_lsps_getD PI x order h4 hlen i h1 (by omega)]
    have hthr : bw_thr PI i = 25 * PI / 4000 := by
      unfold bw_thr
      rw [if_pos hi]
      ring
    rw [if_neg (by rw [hthr]; exact not_lt.mpr hge)]
  · intro i h1 hi hge
    rw [bw_expand_lsps_getD PI x order h4 hlen i (by omega) hi]
    have hthr : bw_thr PI i = 50 * PI / 4000 := by
      unfold bw_thr
      rw [if_neg (by omega)]
      ring
    rw [if_neg (by rw [hthr]; exact not_lt.mpr hge)]

theorem bw_expand_lsps_upward_witness :
    (bw_expand_lsps 3 [1, 0, 3, 2, 5, 4, 3, 2, 1, 0] 10).getD 0 0 =
      ([1, 0, 3, 2, 5, 4, 3, 2, 1, 0] : List ℚ).getD 0 0 ∧
    (∀ i, 1 ≤ i → i < 10 →
      ([1, 0, 3, 2, 5, 4, 3, 2, 1, 0] : List ℚ).getD i 0 ≤
        (bw_expand_lsps 3 [1, 0, 3, 2, 5, 4, 3, 2, 1, 0] 10).getD i 0) :=
  ⟨(bw_expand_lsps_upward 3 [1, 0, 3, 2, 5, 4, 3, 2, 1, 0] 10 (by norm_num) (by decide)
      (by decide)).1,
    (bw_expand_lsps_upward 3 [1, 0, 3, 2, 5, 4, 3, 2, 1, 0] 10 (by norm_num) (by decide)
      (by decide)).2.1⟩

/-! ### The harmonic bands of `aks_to_M2` -/

/-- The upper bin limit of harmonic `m` is the lower bin limit of harmonic
`m + 1`. -/
theorem aks_bm_eq_am_succ (r Wo : ℚ) (m : ℕ) : aks_bm r Wo m = aks_am r Wo (m + 1) := by
  unfold aks_bm aks_am
  congr 1
  push_cast
  ring

/-- C25 (the bands tile; code at the failing input): for every `r`, `Wo` and
`m` the upper bin limit of harmonic `m` equals the lower bin limit of harmonic
`m + 1`. With `TWO_PI = 6`, `FFT_DEC = 16` (so `r = 3/8`), `ak = [1, 0]` of order
1, whose transform is 1 in every bin, `E = 49`, `Wo = 3/2` and `L = 2`, the
bands are the bins 2..5 and 6..9 and every `P[i] = 49`, so the claimed sum of
the bins 2..9 is 392; but `Pw[8].real` and `Pw[9].real` still hold the transform
value 1, `aks_to_M2` stores `A[1] = sqrt(196) = 14` and `A[2] = sqrt(100) = 10`,
and the sum of the squared amplitudes is 296. -/
theorem aks_to_M2_bands_example :
    (∀ (r Wo : ℚ) (m : ℕ), aks_bm r Wo m = aks_am r Wo (m + 1)) ∧
    aks_am (6 / 16) (3 / 2) 1 = 2 ∧ aks_bm (6 / 16) (3 / 2) 2 = 10 ∧
    (aks_to_M2 ⟨3, 6, 20, 160, 128, 3, 16, -10, 40, 10⟩ 16
      (fun _ => List.replicate 16 (1, 0))
      (fun x => if x = 196 then 14 else if x = 100 then 10 else 0) (fun _ => 0)
      [1, 0] 1 ⟨3 / 2, 2, [0, 1, 1]⟩ 49).1.A = [0, 14, 10] ∧
    ((14 : ℚ) ^ 2 + 10 ^ 2 = 296 ∧
      ∑ _i in Finset.Ico 2 10, (49 : ℚ) / (1 * 1 + 0 * 0) = 392) := by
  have ha1 : aks_am (6 / 16) (3 / 2) 1 = 2 := by
    unfold aks_am; norm_num [Int.floor_eq_iff]
  have hb1 : aks_bm (6 / 16) (3 / 2) 1 = 6 := by
    unfold aks_bm; norm_num [Int.floor_eq_iff]
  have ha2 : aks_am (6 / 16) (3 / 2) 2 = 6 := by
    unfold aks_am; norm_num [Int.floor_eq_iff]
  have hb2 : aks_bm (6 / 16) (3 / 2) 2 = 10 := by
    unfold aks_bm; norm_num [Int.floor_eq_iff]
  have hPw : aks_Pw 16 (fun _ => List.replicate 16 (1, 0)) [1, 0] 1 49 =
      [(49, 0), (49, 0), (49, 0), (49, 0), (49, 0), (49, 0), (49, 0), (49, 0),
        (1, 0), (1, 0), (1, 0), (1, 0), (1, 0), (1, 0), (1, 0), (1, 0)] := by
    norm_num [aks_Pw, List.range_succ, List.replicate]
  have hr : List.range' 1 2 = [1, 2] := by decide
  refine ⟨aks_bm_eq_am_succ, ha1, hb2, ?_, ?_⟩
  · unfold aks_to_M2
    simp only [hr, List.foldl_cons, List.foldl_nil, hPw]
    have h616 : (6 : ℚ) / ((16 : ℕ) : ℚ) = 6 / 16 := by norm_num
    have hE1 : aks_Em [(49, 0), (49, 0), (49, 0), (49, 0), (49, 0), (49, 0), (49, 0), (49, 0),
        (1, 0), (1, 0), (1, 0), (1, 0), (1, 0), (1, 0), (1, 0), (1, 0)] 2 6 = 196 := by
      have h4 : ((6 : ℤ) - 2).toNat = 4 := rfl
      have t0 : ((2 : ℤ) + ((0 : ℕ) : ℤ)).toNat = 2 := rfl
      have t1 : ((2 : ℤ) + ((1 : ℕ) : ℤ)).toNat = 3 := rfl
      have t2 : ((2 : ℤ) + ((2 : ℕ) : ℤ)).toNat = 4 := rfl
      have t3 : ((2 : ℤ) + ((3 : ℕ) : ℤ)).toNat = 5 := rfl
      unfold aks_Em
      rw [h4]
      simp only [List.range_succ, List.range_zero, List.nil_append, List.foldl_append,
        List.foldl_cons, List.foldl_nil, t0, t1, t2, t3]
      norm_num [show Int.toNat 2 = 2 from rfl, show Int.toNat 3 = 3 from rfl,
        show Int.toNat 4 = 4 from rfl, show Int.toNat 5 = 5 from rfl]
    have hE2 : aks_Em [(49, 0), (49, 0), (49, 0), (49, 0), (49, 0), (49, 0), (49, 0), (49, 0),
        (1, 0), (1, 0), (1, 0), (1, 0), (1, 0), (1, 0), (1, 0), (1, 0)] 6 10 = 100 := by
      have h4 : ((10 : ℤ) - 6).toNat = 4 := rfl
      have t0 : ((6 : ℤ) + ((0 : ℕ) : ℤ)).toNat = 6 := rfl
      have t1 : ((6 : ℤ) + ((1 : ℕ) : ℤ)).toNat = 7 := rfl
      have t2 : ((6 : ℤ) + ((2 : ℕ) : ℤ)).toNat = 8 := rfl
      have t3 : ((6 : ℤ) + ((3 : ℕ) : ℤ)).toNat = 9 := rfl
      unfold aks_Em
      rw [h4]
      simp only [List.range_succ, List.range_zero, List.nil_append, List.foldl_append,
        List.foldl_cons, List.foldl_nil, t0, t1, t2, t3]
      norm_num [show Int.toNat 6 = 6 from rfl, show Int.toNat 7 = 7 from rfl,
        show Int.toNat 8 = 8 from rfl, show Int.toNat 9 = 9 from rfl]
    simp only [aks_step, h616, ha1, hb1, ha2, hb2, hE1, hE2]
    norm_num
  · constructor
    · norm_num
    · norm_num [Finset.sum_const]

theorem flatMap_singleton_cast (l : List ℕ) :
    (l.flatMap fun a => [(a : ℤ)]) = l.map (fun t : ℕ => (t : ℤ)) := by
  induction l with
  | nil => rfl
  | cons a t ih => simp [List.flatMap_cons, ih]

/-- The band energy as a sum over the bin offsets. -/
theorem aks_Em_eq_sum (Pw : List (ℚ × ℚ)) (a b : ℤ) :
    aks_Em Pw a b =
      ∑ t in Finset.range (b - a).toNat, (Pw.getD (a + (t : ℤ)).toNat (0, 0)).1 := by
  have h : aks_Em Pw a b =
      ((List.range (b - a).toNat).map (fun t : ℕ => (t : ℤ))).foldl
        (fun Em t => Em + (Pw.getD (a + t).toNat (0, 0)).1) 0 := by
    unfold aks_Em
    congr 1
    exact flatMap_singleton_cast _
  rw [h, List.foldl_map]
  exact foldl_add_eq_sum (fun t => (Pw.getD (a + (t : ℤ)).toNat (0, 0)).1) _

/-- Two adjacent bands add up to the band that spans both: no bin is left out
and none is counted twice. -/
theorem aks_Em_add (Pw : List (ℚ × ℚ)) (a b c : ℤ) (hab : a ≤ b) (hbc : b ≤ c) :
    aks_Em Pw a b + aks_Em Pw b c = aks_Em Pw a c := by
  have hn : (c - a).toNat = (b - a).toNat + (c - b).toNat := by omega
  have hb : ∀ t : ℕ, b + (t : ℤ) = a + (((b - a).toNat + t : ℕ) : ℤ) := by
    intro t
    push_cast
    rw [Int.toNat_of_nonneg (by omega)]
    ring
  rw [aks_Em_eq_sum, aks_Em_eq_sum, aks_Em_eq_sum, hn, Finset.sum_range_add]
  congr 1
  apply Finset.sum_congr rfl
  intro t _
  rw [hb t]

theorem aks_bm_mono (r Wo : ℚ) (h : 0 ≤ Wo / r) (m n : ℕ) (hmn : m ≤ n) :
    aks_bm r Wo m ≤ aks_bm r Wo n := by
  unfold aks_bm
  apply Int.floor_le_floor
  have hq : (m : ℚ) ≤ (n : ℚ) := by exact_mod_cast hmn
  have e1 : ((m : ℚ) + 1 / 2) * Wo / r = ((m : ℚ) + 1 / 2) * (Wo / r) := by ring
  have e2 : ((n : ℚ) + 1 / 2) * Wo / r = ((n : ℚ) + 1 / 2) * (Wo / r) := by ring
  rw [e1, e2]
  have := mul_le_mul_of_nonneg_right (by linarith : (m : ℚ) + 1 / 2 ≤ (n : ℚ) + 1 / 2) h
  linarith

/-- The band energies of harmonics `1..L` add up to the energy of the single
band from the lower limit of harmonic 1 to the upper limit of harmonic `L`. -/
theorem aks_Em_bands_sum (Pw : List (ℚ × ℚ)) (r Wo : ℚ) (h : 0 ≤ Wo / r) (L : ℕ) :
    ∑ m in Finset.range L, aks_Em Pw (aks_am r Wo (m + 1)) (aks_bm r Wo (m + 1)) =
      aks_Em Pw (aks_am r Wo 1) (aks_bm r Wo L) := by
  induction L with
  | zero =>
    rw [Finset.sum_range_zero, aks_bm_eq_am_succ, aks_Em_eq_sum]
    simp
  | succ n ih =>
    rw [Finset.sum_range_succ, ih, ← aks_bm_eq_am_succ r Wo n]
    apply aks_Em_add
    · rw [← aks_bm_eq_am_succ r Wo 0]
      exact aks_bm_mono r Wo h 0 n (Nat.zero_le _)
    · exact aks_bm_mono r Wo h n (n + 1) (Nat.le_succ _)

/-- The amplitude array after the harmonic loop, without the accumulators. -/
theorem aks_loop_A (sqrt : ℚ → ℚ) (Pw : List (ℚ × ℚ)) (r Wo : ℚ) :
    ∀ (ms : List ℕ) (st : aks_state),
      (ms.foldl (aks_step sqrt Pw r Wo) st).A =
        ms.foldl
          (fun A m => A.set m (sqrt (aks_Em Pw (aks_am r Wo m) (aks_bm r Wo m)))) st.A := by
  intro ms
  induction ms with
  | nil => intro st; rfl
  | cons a t ih =>
    intro st
    rw [List.foldl_cons, List.foldl_cons, ih]
    rfl

/-- The amplitude that `aks_to_M2` stores for harmonic `m` is the square root of
the band energy read from `Pw`. -/
theorem aks_to_M2_A_getD (d : Defines) (FFT_DEC : ℕ) (fft : List (ℚ × ℚ) → List (ℚ × ℚ))
    (sqrt log10 : ℚ → ℚ) (ak : List ℚ) (order : ℕ) (model : MODEL) (E : ℚ) (m : ℕ)
    (h1 : 1 ≤ m) (h2 : m ≤ model.L) (hA : model.L < model.A.length) :
    (aks_to_M2 d FFT_DEC fft sqrt log10 ak order model E).1.A.getD m 0 =
      sqrt (aks_Em (aks_Pw FFT_DEC fft ak order E)
        (aks_am (d.TWO_PI / (FFT_DEC : ℚ)) model.Wo m)
        (aks_bm (d.TWO_PI / (FFT_DEC : ℚ)) model.Wo m)) := by
  unfold aks_to_M2
  simp only []
  rw [aks_loop_A]
  exact foldl_range_getD
    (fun A m => A.set m (sqrt (aks_Em (aks_Pw FFT_DEC fft ak order E)
      (aks_am (d.TWO_PI / (FFT_DEC : ℚ)) model.Wo m)
      (aks_bm (d.TWO_PI / (FFT_DEC : ℚ)) model.Wo m))))
    (fun m _ _ => sqrt (aks_Em (aks_Pw FFT_DEC fft ak order E)
      (aks_am (d.TWO_PI / (FFT_DEC : ℚ)) model.Wo m)
      (aks_bm (d.TWO_PI / (FFT_DEC : ℚ)) model.Wo m)))
    (set_length_step _) (set_getD_ne_step _) (fun l i h => getD_set_self l i _ h)
    model.L model.A 1 m h1 (by omega) (by omega)

/-- What the harmonic loop of `aks_to_M2` does achieve (support for C25): for
`Wo/r ≥ 0` and a `sqrt` that is exact on the band energies, the squared stored
amplitudes of harmonics `1..L` add up to the sum of `Pw[i].real` over the bins
from the lower limit of harmonic 1 to the upper limit of harmonic `L`, each bin
once. The entries `Pw[i].real` are the power spectrum only for
`i < FFT_DEC/2`. -/
theorem aks_to_M2_bands_sum (d : Defines) (FFT_DEC : ℕ) (fft : List (ℚ × ℚ) → List (ℚ × ℚ))
    (sqrt log10 : ℚ → ℚ) (ak : List ℚ) (order : ℕ) (model : MODEL) (E : ℚ)
    (hWo : 0 ≤ model.Wo / (d.TWO_PI / (FFT_DEC : ℚ))) (hA : model.L < model.A.length)
    (hsq : ∀ m, 1 ≤ m → m ≤ model.L →
      sqrt (aks_Em (aks_Pw FFT_DEC fft ak order E)
        (aks_am (d.TWO_PI / (FFT_DEC : ℚ)) model.Wo m)
        (aks_bm (d.TWO_PI / (FFT_DEC : ℚ)) model.Wo m)) ^ 2 =
      aks_Em (aks_Pw FFT_DEC fft ak order E)
        (aks_am (d.TWO_PI / (FFT_DEC : ℚ)) model.Wo m)
        (aks_bm (d.TWO_PI / (FFT_DEC : ℚ)) model.Wo m)) :
    ∑ m in Finset.range model.L,
        (aks_to_M2 d FFT_DEC fft sqrt log10 ak order model E).1.A.getD (m + 1) 0 ^ 2 =
      aks_Em (aks_Pw FFT_DEC fft ak order E)
        (aks_am (d.TWO_PI / (FFT_DEC : ℚ)) model.Wo 1)
        (aks_bm (d.TWO_PI / (FFT_DEC : ℚ)) model.Wo model.L) := by
  rw [← aks_Em_bands_sum _ _ _ hWo]
  apply Finset.sum_congr rfl
  intro m hm
  rw [Finset.mem_range] at hm
  rw [aks_to_M2_A_getD d FFT_DEC fft sqrt log10 ak order model E (m + 1) (by omega) (by omega)
    hA, hsq (m + 1) (by omega) (by omega)]

/-! ### Rounding to a binary floating-point format -/

theorem round_half_even_err (q : ℚ) : |((round_half_even q : ℤ) : ℚ) - q| ≤ 1 / 2 := by
  have h1 : ((⌊q⌋ : ℤ) : ℚ) ≤ q := Int.floor_le q
  have h2 : q < ((⌊q⌋ : ℤ) : ℚ) + 1 := Int.lt_floor_add_one q
  unfold round_half_even
  split_ifs with ha hb hc
  · rw [abs_le]; constructor <;> linarith
  · push_cast; rw [abs_le]; constructor <;> linarith
  · rw [abs_le]; constructor <;> linarith
  · push_cast; rw [abs_le]; constructor <;> linarith

/-- An integer strictly within one half of `q` is the rounded value of `q`. -/
theorem round_half_even_eq (q : ℚ) (n : ℤ) (h : |q - (n : ℚ)| < 1 / 2) :
    round_half_even q = n := by
  rw [abs_lt] at h
  have hm := round_half_even_err q
  rw [abs_le] at hm
  have ha : ((round_half_even q : ℤ) : ℚ) - n < 1 := by linarith [hm.1, hm.2, h.1, h.2]
  have hb : ((n : ℤ) : ℚ) - round_half_even q < 1 := by linarith [hm.1, hm.2, h.1, h.2]
  have ha1 : round_half_even q - n < 1 := by exact_mod_cast ha
  have hb1 : n - round_half_even q < 1 := by exact_mod_cast hb
  omega

theorem log_two_eq (x : ℚ) (e : ℤ) (h1 : (2 : ℚ) ^ e ≤ |x|) (h2 : |x| < 2 ^ (e + 1)) :
    Int.log 2 |x| = e := by
  have hpos : 0 < |x| := lt_of_lt_of_le (by positivity) h1
  have a : e ≤ Int.log 2 |x| := by
    rw [← Int.zpow_le_iff_le_log (by norm_num) hpos]
    exact_mod_cast h1
  have b : Int.log 2 |x| < e + 1 := by
    rw [← Int.lt_zpow_iff_log_lt (by norm_num) hpos]
    exact_mod_cast h2
  omega

/-- The rounded value of `x` from its binade `[2^e, 2^(e+1))` and an integer
`n` strictly within one half of the scaled `x`. -/
theorem fl_eq_of (p : ℕ) (x : ℚ) (e n : ℤ) (h1 : (2 : ℚ) ^ e ≤ |x|)
    (h2 : |x| < 2 ^ (e + 1))
    (h3 : |x / 2 ^ (e - ((p : ℤ) - 1)) - (n : ℚ)| < 1 / 2) :
    fl p x = (n : ℚ) * 2 ^ (e - ((p : ℤ) - 1)) := by
  have hpos : 0 < |x| := lt_of_lt_of_le (by positivity) h1
  have hx : x ≠ 0 := abs_pos.mp hpos
  unfold fl
  rw [if_neg hx, log_two_eq x e h1 h2, round_half_even_eq _ n h3]

/-- Rounding to `p` significant bits has relative error at most `2^-p`. -/
theorem fl_err (p : ℕ) (x : ℚ) : |fl p x - x| ≤ |x| / 2 ^ p := by
  by_cases hx : x = 0
  · simp [fl, hx]
  · have hpos : 0 < |x| := abs_pos.mpr hx
    unfold fl
    rw [if_neg hx]
    set e := Int.log 2 |x| with he
    have hu : (0 : ℚ) < 2 ^ (e - ((p : ℤ) - 1)) := by positivity
    have hle : (2 : ℚ) ^ e ≤ |x| := by
      have := Int.zpow_log_le_self (b := 2) (by norm_num) hpos
      exact_mod_cast this
    have hr := round_half_even_err (x / 2 ^ (e - ((p : ℤ) - 1)))
    have heq : ((round_half_even (x / 2 ^ (e - ((p : ℤ) - 1))) : ℤ) : ℚ) *
        2 ^ (e - ((p : ℤ) - 1)) - x =
        (((round_half_even (x / 2 ^ (e - ((p : ℤ) - 1))) : ℤ) : ℚ) -
          x / 2 ^ (e - ((p : ℤ) - 1))) * 2 ^ (e - ((p : ℤ) - 1)) := by
      field_simp
    rw [heq, abs_mul, abs_of_pos hu]
    have hsplit : (2 : ℚ) ^ (e - ((p : ℤ) - 1)) = 2 ^ e * 2 / 2 ^ p := by
      rw [zpow_sub₀ (by norm_num), zpow_sub₀ (by norm_num)]
      simp
      field_simp
    calc |((round_half_even (x / 2 ^ (e - ((p : ℤ) - 1))) : ℤ) : ℚ) -
          x / 2 ^ (e - ((p : ℤ) - 1))| * 2 ^ (e - ((p : ℤ) - 1))
        ≤ 1 / 2 * 2 ^ (e - ((p : ℤ) - 1)) := mul_le_mul_of_nonneg_right hr (le_of_lt hu)
      _ = 2 ^ e / 2 ^ p := by rw [hsplit]; field_simp
      _ ≤ |x| / 2 ^ p := div_le_div_of_nonneg_right hle (by positivity)

theorem f32_err (x : ℚ) : |f32 x - x| ≤ |x| / 2 ^ 24 := fl_err 24 x

theorem f64_err (x : ℚ) : |f64 x - x| ≤ |x| / 2 ^ 53 := fl_err 53 x

/-- A `double` product with a rounded positive factor stays within the relative
bounds `1 - 2^-52` and `1 + 2^-51` of the exact product. -/
theorem f64_mul_f64_bounds (a b : ℚ) (ha : 0 < a) (hb : 0 < b) :
    a * b * (1 - 1 / 2 ^ 52) ≤ f64 (a * f64 b) ∧ f64 (a * f64 b) ≤ a * b * (1 + 1 / 2 ^ 51) := by
  have h1 := f64_err b
  rw [abs_of_pos hb, abs_le] at h1
  have hb1 : b * (1 - 1 / 2 ^ 53) ≤ f64 b := by linarith [h1.1]
  have hb2 : f64 b ≤ b * (1 + 1 / 2 ^ 53) := by linarith [h1.2]
  have hbpos : 0 < f64 b := lt_of_lt_of_le (by positivity) hb1
  have h2 := f64_err (a * f64 b)
  rw [abs_of_pos (mul_pos ha hbpos), abs_le] at h2
  have hc1 : a * f64 b * (1 - 1 / 2 ^ 53) ≤ f64 (a * f64 b) := by linarith [h2.1]
  have hc2 : f64 (a * f64 b) ≤ a * f64 b * (1 + 1 / 2 ^ 53) := by linarith [h2.2]
  have hab : 0 < a * b := mul_pos ha hb
  constructor
  · calc a * b * (1 - 1 / 2 ^ 52) ≤ a * (b * (1 - 1 / 2 ^ 53)) * (1 - 1 / 2 ^ 53) := by
          have : a * (b * (1 - 1 / 2 ^ 53)) * (1 - 1 / 2 ^ 53) - a * b * (1 - 1 / 2 ^ 52) =
              a * b * (1 / 2 ^ 106) := by ring
          have h3 : 0 ≤ a * b * (1 / 2 ^ 106) := by positivity
          linarith
      _ ≤ a * f64 b * (1 - 1 / 2 ^ 53) := by
          apply mul_le_mul_of_nonneg_right _ (by norm_num)
          exact mul_le_mul_of_nonneg_left hb1 (le_of_lt ha)
      _ ≤ f64 (a * f64 b) := hc1
  · calc f64 (a * f64 b) ≤ a * f64 b * (1 + 1 / 2 ^ 53) := hc2
      _ ≤ a * (b * (1 + 1 / 2 ^ 53)) * (1 + 1 / 2 ^ 53) := by
          apply mul_le_mul_of_nonneg_right _ (by norm_num)
          exact mul_le_mul_of_nonneg_left hb2 (le_of_lt ha)
      _ ≤ a * b * (1 + 1 / 2 ^ 51) := by
          have : a * b * (1 + 1 / 2 ^ 51) - a * (b * (1 + 1 / 2 ^ 53)) * (1 + 1 / 2 ^ 53) =
              a * b * (1 / 2 ^ 51 - 2 / 2 ^ 53 - 1 / 2 ^ 106) := by ring
          have h3 : 0 ≤ a * b * (1 / 2 ^ 51 - 2 / 2 ^ 53 - 1 / 2 ^ 106) := by
            apply mul_nonneg (le_of_lt hab)
            norm_num
          linarith

/-- Storing a `double` sum in a `float` changes it by at most `2^-23` of its
magnitude. -/
theorem f32_f64_err (w : ℚ) : |f32 (f64 w) - w| ≤ |w| / 2 ^ 23 := by
  have h1 := f64_err w
  have h2 := f32_err (f64 w)
  have h3 : |f64 w| ≤ |w| + |w| / 2 ^ 53 := by
    calc |f64 w| = |(f64 w - w) + w| := by ring_nf
      _ ≤ |f64 w - w| + |w| := abs_add _ _
      _ ≤ |w| / 2 ^ 53 + |w| := by linarith
      _ = |w| + |w| / 2 ^ 53 := by ring
  have hw : 0 ≤ |w| := abs_nonneg w
  calc |f32 (f64 w) - w| = |(f32 (f64 w) - f64 w) + (f64 w - w)| := by ring_nf
    _ ≤ |f32 (f64 w) - f64 w| + |f64 w - w| := abs_add _ _
    _ ≤ |f64 w| / 2 ^ 24 + |w| / 2 ^ 53 := by linarith
    _ ≤ (|w| + |w| / 2 ^ 53) / 2 ^ 24 + |w| / 2 ^ 53 := by
        have := div_le_div_of_nonneg_right h3 (by positivity : (0 : ℚ) ≤ 2 ^ 24)
        linarith
    _ ≤ |w| / 2 ^ 23 := by
        have : |w| / 2 ^ 23 - ((|w| + |w| / 2 ^ 53) / 2 ^ 24 + |w| / 2 ^ 53) =
            |w| * (1 / 2 ^ 23 - 1 / 2 ^ 24 - 1 / 2 ^ 77 - 1 / 2 ^ 53) := by ring
        have h4 : 0 ≤ |w| * (1 / 2 ^ 23 - 1 / 2 ^ 24 - 1 / 2 ^ 77 - 1 / 2 ^ 53) := by
          apply mul_nonneg hw
          norm_num
        linarith

/-- Bounds of the `double` thresholds and increments of `bw_expand_lsps`
against the exact band minimum `T`, for a positive `PI`. -/
theorem bw_consts_f32 (PI : ℚ) (hPI : 0 < PI) (i : ℕ) :
    (if i < 4 then 25 * PI / 4000 else 50 * PI / 4000) * (1 - 1 / 2 ^ 52) ≤ bw_thr_f32 PI i ∧
    2 * (if i < 4 then 25 * PI / 4000 else 50 * PI / 4000) * (1 - 1 / 2 ^ 52) ≤
      bw_bump_f32 PI i ∧
    bw_bump_f32 PI i ≤ 2 * (if i < 4 then 25 * PI / 4000 else 50 * PI / 4000) * (1 + 1 / 2 ^ 51) := by
  unfold bw_thr_f32 bw_bump_f32
  by_cases h : i < 4
  · simp only [if_pos h]
    have a := f64_mul_f64_bounds 25 (PI / 4000) (by norm_num) (by positivity)
    have b := f64_mul_f64_bounds 50 (PI / 4000) (by norm_num) (by positivity)
    refine ⟨?_, ?_, ?_⟩
    · have : 25 * PI / 4000 * (1 - 1 / 2 ^ 52) = 25 * (PI / 4000) * (1 - 1 / 2 ^ 52) := by ring
      rw [this]; exact a.1
    · have : 2 * (25 * PI / 4000) * (1 - 1 / 2 ^ 52) = 50 * (PI / 4000) * (1 - 1 / 2 ^ 52) := by
        ring
      rw [this]; exact b.1
    · have : 2 * (25 * PI / 4000) * (1 + 1 / 2 ^ 51) = 50 * (PI / 4000) * (1 + 1 / 2 ^ 51) := by
        ring
      rw [this]; exact b.2
  · simp only [if_neg h]
    have a := f64_mul_f64_bounds PI (50 / 4000) hPI (by norm_num)
    have b := f64_mul_f64_bounds PI (100 / 4000) hPI (by norm_num)
    refine ⟨?_, ?_, ?_⟩
    · have : 50 * PI / 4000 * (1 - 1 / 2 ^ 52) = PI * (50 / 4000) * (1 - 1 / 2 ^ 52) := by ring
      rw [this]; exact a.1
    · have : 2 * (50 * PI / 4000) * (1 - 1 / 2 ^ 52) = PI * (100 / 4000) * (1 - 1 / 2 ^ 52) := by
        ring
      rw [this]; exact b.1
    · have : 2 * (50 * PI / 4000) * (1 + 1 / 2 ^ 51) = PI * (100 / 4000) * (1 + 1 / 2 ^ 51) := by
        ring
      rw [this]; exact b.2

/-! ### Bandwidth expansion in the arithmetic of the target -/

theorem bw_expand_step_f32_length (thr bump : ℚ) (l : List ℚ) (i : ℕ) :
    (bw_expand_step_f32 thr bump l i).length = l.length := by
  unfold bw_expand_step_f32
  split_ifs
  · exact List.length_set _ _ _
  · rfl

theorem bw_expand_step_f32_getD_ne (thr bump : ℚ) (l : List ℚ) (i j : ℕ) (h : j ≠ i) :
    (bw_expand_step_f32 thr bump l i).getD j 0 = l.getD j 0 := by
  unfold bw_expand_step_f32
  split_ifs
  · exact getD_set_ne l i j _ h
  · rfl

theorem bw_expand_step_f32_getD_self (thr bump : ℚ) (l : List ℚ) (i : ℕ) (hi : i < l.length) :
    (bw_expand_step_f32 thr bump l i).getD i 0 =
      if f32 (l.getD i 0 - l.getD (i - 1) 0) < thr then f32 (f64 (l.getD (i - 1) 0 + bump))
      else l.getD i 0 := by
  unfold bw_expand_step_f32
  split_ifs with h
  · exact getD_set_self l i _ hi
  · rfl

/-- The two loops of `bw_expand_lsps` are one pass over `1, ..., order-1` with
the band threshold and increment of each index. -/
theorem bw_expand_lsps_f32_eq_pass (PI : ℚ) (l : List ℚ) (order : ℕ) (h4 : 4 ≤ order) :
    bw_expand_lsps_f32 PI l order =
      (List.range' 1 (order - 1)).foldl
        (fun l i => bw_expand_step_f32 (bw_thr_f32 PI i) (bw_bump_f32 PI i) l i) l := by
  have hsplit : List.range' 1 (order - 1) = List.range' 1 3 ++ List.range' 4 (order - 4) := by
    have := List.range'_append 1 3 (order - 4) 1
    rw [this]
    congr 1
    omega
  unfold bw_expand_lsps_f32
  rw [hsplit, List.foldl_append]
  have h1 : List.foldl
      (bw_expand_step_f32 (f64 (25 * f64 (PI / 4000))) (f64 (50 * f64 (PI / 4000)))) l
      (List.range' 1 3) =
      List.foldl (fun l i => bw_expand_step_f32 (bw_thr_f32 PI i) (bw_bump_f32 PI i) l i) l
        (List.range' 1 3) := by
    apply List.foldl_ext
    intro a b hb
    have hb4 : b < 4 := by
      rw [List.mem_range'_1] at hb
      omega
    simp [bw_thr_f32, bw_bump_f32, hb4]
  rw [h1]
  apply List.foldl_ext
  intro a b hb
  have hb4 : ¬ b < 4 := by
    rw [List.mem_range'_1] at hb
    omega
  simp [bw_thr_f32, bw_bump_f32, hb4]

/-- Each output of `bw_expand_lsps` from its input and the previous output. -/
theorem bw_expand_lsps_f32_getD (PI : ℚ) (x : List ℚ) (order : ℕ) (h4 : 4 ≤ order)
    (hlen : x.length = order) (i : ℕ) (h1 : 1 ≤ i) (hi : i < order) :
    (bw_expand_lsps_f32 PI x order).getD i 0 =
      if f32 (x.getD i 0 - (bw_expand_lsps_f32 PI x order).getD (i - 1) 0) < bw_thr_f32 PI i then
        f32 (f64 ((bw_expand_lsps_f32 PI x order).getD (i - 1) 0 + bw_bump_f32 PI i))
      else x.getD i 0 := by
  rw [bw_expand_lsps_f32_eq_pass PI x order h4]
  have h := foldl_range_getD
    (fun l i => bw_expand_step_f32 (bw_thr_f32 PI i) (bw_bump_f32 PI i) l i)
    (fun i xv p => if f32 (xv - p) < bw_thr_f32 PI i then f32 (f64 (p + bw_bump_f32 PI i))
      else xv)
    (fun l i => bw_expand_step_f32_length _ _ l i)
    (fun l i j hj => bw_expand_step_f32_getD_ne _ _ l i j hj)
    (fun l i hl => bw_expand_step_f32_getD_self _ _ l i hl)
    (order - 1) x 1 i h1 (by omega) (by omega)
  simp only [] at h
  rw [if_neg (by omega : ¬ i = 0)] at h
  exact h

theorem bw_expand_lsps_f32_getD_zero (PI : ℚ) (x : List ℚ) (order : ℕ) (h4 : 4 ≤ order) :
    (bw_expand_lsps_f32 PI x order).getD 0 0 = x.getD 0 0 := by
  rw [bw_expand_lsps_f32_eq_pass PI x order h4]
  apply foldl_getD_of_not_mem _
    (fun l i j hj => bw_expand_step_f32_getD_ne _ _ l i j hj)
  rw [List.mem_range'_1]
  omega

/-- Magnitude of the outputs: entry `i` is at most `2^16 + i` in magnitude when
the inputs are at most `2^16`. -/
theorem bw_expand_lsps_f32_bound (PI : ℚ) (x : List ℚ) (order : ℕ)
    (hPI3 : 3 ≤ PI) (hPI4 : PI ≤ 4) (h4 : 4 ≤ order) (hord : order ≤ 2 ^ 16)
    (hlen : x.length = order) (hx : ∀ i, i < order → |x.getD i 0| ≤ 2 ^ 16) :
    ∀ i, i < order → |(bw_expand_lsps_f32 PI x order).getD i 0| ≤ 2 ^ 16 + (i : ℚ) := by
  intro i
  induction i with
  | zero =>
    intro h
    rw [bw_expand_lsps_f32_getD_zero PI x order h4]
    simpa using hx 0 h
  | succ n ih =>
    intro h
    have ihn := ih (by omega)
    have hn : (n : ℚ) + 1 ≤ 2 ^ 16 := by
      have : n + 1 ≤ 2 ^ 16 := by omega
      exact_mod_cast this
    have hn0 : (0 : ℚ) ≤ (n : ℚ) := Nat.cast_nonneg n
    rw [bw_expand_lsps_f32_getD PI x order h4 hlen (n + 1) (by omega) h]
    simp only [Nat.add_sub_cancel]
    split_ifs with hc
    · obtain ⟨_, hb1, hb2⟩ := bw_consts_f32 PI (by linarith) (n + 1)
      have hT : (if n + 1 < 4 then 25 * PI / 4000 else 50 * PI / 4000) ≤ 1 / 20 := by
        split_ifs <;> linarith
      have hT0 : 0 < (if n + 1 < 4 then 25 * PI / 4000 else 50 * PI / 4000) := by
        split_ifs <;> linarith
      generalize (if n + 1 < 4 then 25 * PI / 4000 else 50 * PI / 4000) = T at hb1 hb2 hT hT0
      generalize bw_bump_f32 PI (n + 1) = b at hb1 hb2
      generalize (bw_expand_lsps_f32 PI x order).getD n 0 = p at ihn
      have hb0 : 0 ≤ b := by nlinarith
      have hb8 : b ≤ 1 / 8 := by nlinarith
      have hw : |p + b| ≤ 2 ^ 16 + (n : ℚ) + 1 / 8 := by
        calc |p + b| ≤ |p| + |b| := abs_add _ _
          _ ≤ 2 ^ 16 + (n : ℚ) + 1 / 8 := by rw [abs_of_nonneg hb0]; linarith
      have he := f32_f64_err (p + b)
      have h1 : |f32 (f64 (p + b))| ≤ |p + b| + |p + b| / 2 ^ 23 := by
        calc |f32 (f64 (p + b))| = |(f32 (f64 (p + b)) - (p + b)) + (p + b)| := by ring_nf
          _ ≤ |f32 (f64 (p + b)) - (p + b)| + |p + b| := abs_add _ _
          _ ≤ |p + b| + |p + b| / 2 ^ 23 := by linarith
      push_cast
      have h2 : |p + b| / 2 ^ 23 ≤ 1 / 2 := by
        rw [div_le_iff₀ (by positivity)]
        linarith
      linarith
    · have := hx (n + 1) h
      push_cast
      linarith

/-- In the arithmetic of the target, for inputs of magnitude at most `2^16`,
adjacent outputs of `bw_expand_lsps` are separated by the band minimum up to
the relative rounding allowance `2^-20`, and are strictly increasing. -/
theorem bw_expand_lsps_f32_separated_aux (PI : ℚ) (x : List ℚ) (order : ℕ)
    (hPI3 : 3 ≤ PI) (hPI4 : PI ≤ 4) (h4 : 4 ≤ order) (hord : order ≤ 2 ^ 16)
    (hlen : x.length = order) (hx : ∀ i, i < order → |x.getD i 0| ≤ 2 ^ 16) :
    lsp_separated_within (1 - 1 / 2 ^ 20) PI (bw_expand_lsps_f32 PI x order) order ∧
      lsp_increasing (bw_expand_lsps_f32 PI x order) order := by
  have hgap : ∀ i, 1 ≤ i → i < order →
      (1 - 1 / 2 ^ 20) * (if i < 4 then 25 * PI / 4000 else 50 * PI / 4000) ≤
        (bw_expand_lsps_f32 PI x order).getD i 0 -
          (bw_expand_lsps_f32 PI x order).getD (i - 1) 0 := by
    intro i h1 hi
    have hp := bw_expand_lsps_f32_bound PI x order hPI3 hPI4 h4 hord hlen hx (i - 1) (by omega)
    have hi16 : ((i - 1 : ℕ) : ℚ) ≤ 2 ^ 16 := by
      have : i - 1 ≤ 2 ^ 16 := by omega
      exact_mod_cast this
    rw [bw_expand_lsps_f32_getD PI x order h4 hlen i h1 hi]
    obtain ⟨ht, hb1, hb2⟩ := bw_consts_f32 PI (by linarith) i
    have hT : (if i < 4 then 25 * PI / 4000 else 50 * PI / 4000) ≤ 1 / 20 := by
      split_ifs <;> linarith
    have hT0 : 3 / 160 ≤ (if i < 4 then 25 * PI / 4000 else 50 * PI / 4000) := by
      split_ifs <;> linarith
    generalize (if i < 4 then 25 * PI / 4000 else 50 * PI / 4000) = T at ht hb1 hb2 hT hT0 ⊢
    generalize bw_bump_f32 PI i = b at hb1 hb2 ⊢
    generalize bw_thr_f32 PI i = c at ht ⊢
    generalize (bw_expand_lsps_f32 PI x order).getD (i - 1) 0 = p at hp ⊢
    generalize x.getD i 0 = xi
    split_ifs with hc
    · have hb0 : 0 ≤ b := by nlinarith
      have hb8 : b ≤ 1 / 8 := by nlinarith
      have hw : |p + b| ≤ 2 ^ 17 + 1 / 8 := by
        calc |p + b| ≤ |p| + |b| := abs_add _ _
          _ ≤ 2 ^ 17 + 1 / 8 := by rw [abs_of_nonneg hb0]; linarith
      have he := f32_f64_err (p + b)
      rw [abs_le] at he
      have h2 : |p + b| / 2 ^ 23 ≤ 1 / 64 + 1 / 2 ^ 26 := by
        rw [div_le_iff₀ (by positivity)]
        linarith
      nlinarith [he.1]
    · have hz := f32_err (xi - p)
      rw [abs_le] at hz
      have hge : c ≤ f32 (xi - p) := not_lt.mp hc
      have hcpos : 0 < c := by nlinarith
      rcases le_or_lt (xi - p) 0 with hneg | hpos
      · rw [abs_of_nonpos hneg] at hz
        nlinarith [hz.2]
      · rw [abs_of_pos hpos] at hz
        nlinarith [hz.2]
  refine ⟨⟨?_, ?_⟩, ?_⟩
  · intro i h1 h2
    have := hgap i h1 (by omega)
    rw [if_pos h2] at this
    exact this
  · intro i h1 h2
    have := hgap i (by omega) h2
    rw [if_neg (by omega)] at this
    exact this
  · intro i h1 h2
    have := hgap i h1 h2
    have hpos : 0 < (1 - 1 / 2 ^ 20 : ℚ) * (if i < 4 then 25 * PI / 4000 else 50 * PI / 4000) := by
      apply mul_pos (by norm_num)
      split_ifs <;> linarith
    linarith

theorem decode_lsps_f32_length (d : Defines) (lsp_cb : ℕ → lsp_codebook) (indexes : List ℕ)
    (order : ℕ) : (decode_lsps_f32 d lsp_cb indexes order).length = order := by
  simp [decode_lsps_f32]

/-- The `float` value `-2^21` is not changed by rounding. -/
theorem f32_neg_two_pow_21 : f32 (0 - 2 ^ 21) = -2 ^ 21 := by
  unfold f32
  rw [fl_eq_of 24 (0 - 2 ^ 21) 21 (-2 ^ 23) (by norm_num) (by norm_num) (by norm_num)]
  norm_num

/-- An increment between `1/32` and `1/9` added to `2^21` is lost when the sum
is stored in a `float`: the neighbours of `2^21` are `1/4` away. -/
theorem f32_absorbs (b : ℚ) (h1 : 1 / 32 ≤ b) (h2 : b ≤ 1 / 9) :
    f32 (f64 (2 ^ 21 + b)) = 2 ^ 21 := by
  have he := f64_err (2 ^ 21 + b)
  rw [abs_of_pos (show (0 : ℚ) < 2 ^ 21 + b by linarith), abs_le] at he
  have hsmall : (2 ^ 21 + b) / 2 ^ 53 ≤ 1 / 2 ^ 31 := by
    rw [div_le_iff₀ (by positivity)]
    linarith
  generalize (2 ^ 21 + b) / 2 ^ 53 = err at he hsmall
  generalize f64 (2 ^ 21 + b) = v at he ⊢
  have hlo : (2 : ℚ) ^ 21 < v := by
    have : (1 : ℚ) / 2 ^ 31 < 1 / 32 := by norm_num
    linarith [he.1]
  have hhi : v < 2 ^ 21 + 1 / 8 := by
    have : (1 : ℚ) / 9 + 1 / 2 ^ 31 < 1 / 8 := by norm_num
    linarith [he.2]
  have hpos : 0 < v := by linarith
  unfold f32
  rw [fl_eq_of 24 v 21 (2 ^ 23)
    (by rw [abs_of_pos hpos]; exact_mod_cast le_of_lt hlo)
    (by rw [abs_of_pos hpos]; norm_num; linarith)
    (by
      rw [abs_lt]
      norm_num
      constructor <;> linarith)]
  norm_num

/-- From a predecessor at `2^21` and an input entry 0, the loop body leaves
`2^21` again. -/
theorem bw_expand_lsps_f32_absorbed (PI : ℚ) (x : List ℚ) (order : ℕ)
    (hPI3 : 3 ≤ PI) (hPI4 : PI ≤ 4) (h4 : 4 ≤ order) (hlen : x.length = order)
    (hx0 : x.getD 0 0 = 2 ^ 21) (hx : ∀ i, 1 ≤ i → i < order → x.getD i 0 = 0) :
    ∀ i, i < order → (bw_expand_lsps_f32 PI x order).getD i 0 = 2 ^ 21 := by
  intro i
  induction i with
  | zero =>
    intro _
    rw [bw_expand_lsps_f32_getD_zero PI x order h4, hx0]
  | succ n ih =>
    intro h
    obtain ⟨ht, hb1, hb2⟩ := bw_consts_f32 PI (by linarith) (n + 1)
    have hT : (if n + 1 < 4 then 25 * PI / 4000 else 50 * PI / 4000) ≤ 1 / 20 := by
      split_ifs <;> linarith
    have hT0 : 3 / 160 ≤ (if n + 1 < 4 then 25 * PI / 4000 else 50 * PI / 4000) := by
      split_ifs <;> linarith
    rw [bw_expand_lsps_f32_getD PI x order h4 hlen (n + 1) (by omega) h]
    simp only [Nat.add_sub_cancel]
    rw [ih (by omega), hx (n + 1) (by omega) h, f32_neg_two_pow_21]
    generalize (if n + 1 < 4 then 25 * PI / 4000 else 50 * PI / 4000) = T at ht hb1 hb2 hT hT0
    have hc : (-2 ^ 21 : ℚ) < bw_thr_f32 PI (n + 1) := by nlinarith
    rw [if_pos hc]
    exact f32_absorbs _ (by nlinarith) (by nlinarith)

/-- The `double` nearest to `3.141592654` lies between 3 and 4. -/
theorem f64_PI_bounds : 3 ≤ f64 (3141592654 / 10 ^ 9) ∧ f64 (3141592654 / 10 ^ 9) ≤ 4 := by
  have he := f64_err (3141592654 / 10 ^ 9)
  rw [abs_of_pos (show (0 : ℚ) < 3141592654 / 10 ^ 9 by norm_num), abs_le] at he
  constructor
  · have : (3 : ℚ) ≤ 3141592654 / 10 ^ 9 - 3141592654 / 10 ^ 9 / 2 ^ 53 := by norm_num
    linarith [he.1]
  · have : (3141592654 : ℚ) / 10 ^ 9 + 3141592654 / 10 ^ 9 / 2 ^ 53 ≤ 4 := by norm_num
    linarith [he.2]

/-- C10 (as stated, refuted): with `PI` the `double` nearest to
`3.141592654` and the input `[2^21, 0, 0, 0, 0, 0, 0, 0, 0, 0]`, every entry
after the first is below its predecessor, so the loop body sets it to the
predecessor plus the increment; the increment, below `1/9`, is lost when the
sum is stored in the `float` entry, whose neighbours near `2^21` are `1/4`
apart. All ten outputs are `2^21`: no adjacent pair is separated and the
output is not strictly increasing. -/
theorem bw_expand_lsps_absorbed_example :
    (∀ i, i < 10 →
      (bw_expand_lsps_f32 (f64 (3141592654 / 10 ^ 9))
        [2 ^ 21, 0, 0, 0, 0, 0, 0, 0, 0, 0] 10).getD i 0 = 2 ^ 21) ∧
    ¬ (25 * f64 (3141592654 / 10 ^ 9) / 4000 ≤
      (bw_expand_lsps_f32 (f64 (3141592654 / 10 ^ 9))
          [2 ^ 21, 0, 0, 0, 0, 0, 0, 0, 0, 0] 10).getD 1 0 -
        (bw_expand_lsps_f32 (f64 (3141592654 / 10 ^ 9))
          [2 ^ 21, 0, 0, 0, 0, 0, 0, 0, 0, 0] 10).getD 0 0) ∧
    ¬ lsp_increasing
      (bw_expand_lsps_f32 (f64 (3141592654 / 10 ^ 9))
        [2 ^ 21, 0, 0, 0, 0, 0, 0, 0, 0, 0] 10) 10 := by
  have hall := bw_expand_lsps_f32_absorbed (f64 (3141592654 / 10 ^ 9))
    [2 ^ 21, 0, 0, 0, 0, 0, 0, 0, 0, 0] 10 f64_PI_bounds.1 f64_PI_bounds.2 (by decide)
    (by decide) rfl
    (by
      intro i h1 h2
      interval_cases i <;> rfl)
  refine ⟨hall, ?_, ?_⟩
  · rw [hall 1 (by decide), hall 0 (by decide)]
    have := f64_PI_bounds.1
    intro hc
    linarith
  · intro hinc
    have := hinc 1 (by decide) (by decide)
    rw [hall 1 (by decide)] at this
    have h0 := hall 0 (by decide)
    simp only [Nat.sub_self] at this
    rw [h0] at this
    exact lt_irrefl _ this

/-- C10 (amended): in the arithmetic of the target, for `3 ≤ PI ≤ 4` and every
input vector of length `order`, `4 ≤ order ≤ 2^16`, whose entries have magnitude
at most `2^16`, the output of `bw_expand_lsps` has every adjacent pair separated
by the band minimum up to the relative rounding allowance `2^-20`:
`lsp[i] - lsp[i-1] ≥ (1 - 2^-20)*25*PI/4000` for `i = 1..3` and
`lsp[i] - lsp[i-1] ≥ (1 - 2^-20)*50*PI/4000` for `i = 4..order-1`; hence it is
strictly increasing. In particular this holds for the output of `decode_lsps`
for any codebooks and indexes, and for the LSPs left by `decode_amplitudes`,
whenever the decoded values have magnitude at most `2^16`. -/
theorem bw_expand_lsps_separated (d : Defines) (order : ℕ)
    (hPI3 : 3 ≤ d.PI) (hPI4 : d.PI ≤ 4) (h4 : 4 ≤ order) (hord : order ≤ 2 ^ 16)
    (hORD4 : 4 ≤ d.LPC_ORD) (hORD : d.LPC_ORD ≤ 2 ^ 16) :
    (∀ x : List ℚ, x.length = order → (∀ i, i < order → |x.getD i 0| ≤ 2 ^ 16) →
      lsp_separated_within (1 - 1 / 2 ^ 20) d.PI (bw_expand_lsps_f32 d.PI x order) order ∧
        lsp_increasing (bw_expand_lsps_f32 d.PI x order) order) ∧
    (∀ (lsp_cb : ℕ → lsp_codebook) (indexes : List ℕ),
      (∀ i, i < order → |(decode_lsps_f32 d lsp_cb indexes order).getD i 0| ≤ 2 ^ 16) →
      lsp_separated_within (1 - 1 / 2 ^ 20) d.PI
          (bw_expand_lsps_f32 d.PI (decode_lsps_f32 d lsp_cb indexes order) order) order ∧
        lsp_increasing
          (bw_expand_lsps_f32 d.PI (decode_lsps_f32 d lsp_cb indexes order) order) order) ∧
    (∀ (lsp_cb : ℕ → lsp_codebook) (lsp_indexes : List ℕ),
      (∀ i, i < d.LPC_ORD →
        |(decode_lsps_f32 d lsp_cb lsp_indexes d.LPC_ORD).getD i 0| ≤ 2 ^ 16) →
      lsp_separated_within (1 - 1 / 2 ^ 20) d.PI
          (decode_amplitudes_lsps d lsp_cb lsp_indexes) d.LPC_ORD ∧
        lsp_increasing (decode_amplitudes_lsps d lsp_cb lsp_indexes) d.LPC_ORD) := by
  refine ⟨?_, ?_, ?_⟩
  · intro x hx hb
    exact bw_expand_lsps_f32_separated_aux d.PI x order hPI3 hPI4 h4 hord hx hb
  · intro lsp_cb indexes hb
    exact bw_expand_lsps_f32_separated_aux d.PI _ order hPI3 hPI4 h4 hord
      (decode_lsps_f32_length d lsp_cb _ order) hb
  · intro lsp_cb lsp_indexes hb
    unfold decode_amplitudes_lsps
    exact bw_expand_lsps_f32_separated_aux d.PI _ d.LPC_ORD hPI3 hPI4 hORD4 hORD
      (decode_lsps_f32_length d lsp_cb _ d.LPC_ORD) hb

theorem bw_expand_lsps_separated_witness :
    lsp_separated_within (1 - 1 / 2 ^ 20) (3141592654 / 10 ^ 9)
        (bw_expand_lsps_f32 (3141592654 / 10 ^ 9)
          [1 / 10, 3 / 10, 1 / 2, 7 / 10, 1, 13 / 10, 16 / 10, 19 / 10, 22 / 10, 25 / 10]
          10) 10 ∧
      lsp_increasing
        (bw_expand_lsps_f32 (3141592654 / 10 ^ 9)
          [1 / 10, 3 / 10, 1 / 2, 7 / 10, 1, 13 / 10, 16 / 10, 19 / 10, 22 / 10, 25 / 10]
          10) 10 :=
  (bw_expand_lsps_separated ⟨3141592654 / 10 ^ 9, 6, 20, 160, 128, 3, 16, -10, 40, 10⟩ 10
    (by norm_num) (by norm_num) (by decide) (by norm_num) (by decide) (by norm_num)).1
    [1 / 10, 3 / 10, 1 / 2, 7 / 10, 1, 13 / 10, 16 / 10, 19 / 10, 22 / 10, 25 / 10]
    (by decide)
    (by
      intro i hi
      interval_cases i <;> norm_num [abs_of_pos])

/-! ### Perceptual step quantisation at a collision of rounded values -/

/-- The rounded value of `x` from its binade and an integer strictly within one
half of the scaled `x`, for a `float`. -/
theorem f32_eval (x v : ℚ) (e n : ℤ) (h1 : (2 : ℚ) ^ e ≤ |x|) (h2 : |x| < 2 ^ (e + 1))
    (h3 : |x / 2 ^ (e - ((24 : ℕ) - 1 : ℤ)) - (n : ℚ)| < 1 / 2)
    (hv : (n : ℚ) * 2 ^ (e - ((24 : ℕ) - 1 : ℤ)) = v) : f32 x = v := by
  unfold f32
  rw [fl_eq_of 24 x e n h1 h2 h3, hv]

/-- The rounded value of `x` from its binade and an integer strictly within one
half of the scaled `x`, for a `double`. -/
theorem f64_eval (x v : ℚ) (e n : ℤ) (h1 : (2 : ℚ) ^ e ≤ |x|) (h2 : |x| < 2 ^ (e + 1))
    (h3 : |x / 2 ^ (e - ((53 : ℕ) - 1 : ℤ)) - (n : ℚ)| < 1 / 2)
    (hv : (n : ℚ) * 2 ^ (e - ((53 : ℕ) - 1 : ℤ)) = v) : f64 x = v := by
  unfold f64
  rw [fl_eq_of 53 x e n h1 h2 h3, hv]

/-- A scaled value exactly half way between `n` and `n + 1` rounds to `n` when
`n` is even. -/
theorem round_half_even_tie (q : ℚ) (n : ℤ) (h : q = (n : ℚ) + 1 / 2) (he : n % 2 = 0) :
    round_half_even q = n := by
  have hf : ⌊q⌋ = n := by
    rw [Int.floor_eq_iff, h]
    constructor <;> linarith
  unfold round_half_even
  rw [hf, h]
  have h1 : ¬ ((n : ℚ) + 1 / 2 - n < 1 / 2) := by
    have : (n : ℚ) + 1 / 2 - n = 1 / 2 := by ring
    rw [this]
    exact lt_irrefl _
  have h2 : ¬ ((1 : ℚ) / 2 < (n : ℚ) + 1 / 2 - n) := by
    have : (n : ℚ) + 1 / 2 - n = 1 / 2 := by ring
    rw [this]
    exact lt_irrefl _
  rw [if_neg h1, if_neg h2, if_pos he]

/-- The rounded value of a `double` argument that lies exactly half way between
two neighbours, the lower one having an even significand. -/
theorem f64_eval_tie (x v : ℚ) (e n : ℤ) (h1 : (2 : ℚ) ^ e ≤ |x|) (h2 : |x| < 2 ^ (e + 1))
    (h3 : x / 2 ^ (e - ((53 : ℕ) - 1 : ℤ)) = (n : ℚ) + 1 / 2) (he : n % 2 = 0)
    (hv : (n : ℚ) * 2 ^ (e - ((53 : ℕ) - 1 : ℤ)) = v) : f64 x = v := by
  have hpos : 0 < |x| := lt_of_lt_of_le (by positivity) h1
  have hx : x ≠ 0 := abs_pos.mp hpos
  unfold f64 fl
  rw [if_neg hx, log_two_eq x e h1 h2, round_half_even_tie _ n h3 he, hv]

/-- The `double` nearest to `3.141592654`. -/
theorem f64_PI_value : f64 (3141592654 / 10 ^ 9) = 442139859559509 / 140737488355328 := by
  rw [f64_eval (3141592654 / 10 ^ 9) (442139859559509 / 140737488355328) (1)
    (7074237752952144)
    (by norm_num [abs_of_pos]) (by norm_num [abs_of_pos]) (by norm_num [abs_lt])
    (by norm_num)]

/-- The entry near 216 Hz is rounded to the `float` of 225 Hz. -/
theorem jnd_round_216 :
    jnd_round (442139859559509 / 140737488355328) 25 (11384751 / 67108864) =
      (11859115 / 67108864) := by
  unfold jnd_round
  simp only []
  rw [f64_eval ((11384751 / 67108864) * 4000) (1423093875 / 2097152) (9) (5968888332288000)
    (by norm_num [abs_of_pos]) (by norm_num [abs_of_pos]) (by norm_num [abs_lt])
    (by norm_num)]
  rw [f64_eval ((1423093875 / 2097152) / (442139859559509 / 140737488355328)) (3799912330892533 / 17592186044416) (7) (7599824661785066)
    (by norm_num [abs_of_pos]) (by norm_num [abs_of_pos]) (by norm_num [abs_lt])
    (by norm_num)]
  rw [f32_eval ((3799912330892533 / 17592186044416)) (14155777 / 65536) (7) (14155777)
    (by norm_num [abs_of_pos]) (by norm_num [abs_of_pos]) (by norm_num [abs_lt])
    (by norm_num)]
  rw [f32_eval ((14155777 / 65536) / 25) (9059697 / 1048576) (3) (9059697)
    (by norm_num [abs_of_pos]) (by norm_num [abs_of_pos]) (by norm_num [abs_lt])
    (by norm_num)]
  rw [f64_eval ((9059697 / 1048576) + 1 / 2) (9583985 / 1048576) (3) (5145362767544320)
    (by norm_num [abs_of_pos]) (by norm_num [abs_of_pos]) (by norm_num [abs_lt])
    (by norm_num)]
  rw [show ⌊((9583985 / 1048576) : ℚ)⌋ = 9 by norm_num [Int.floor_eq_iff]]
  rw [f64_eval ((((9 : ℤ) : ℚ)) * 25) 225 (7) (7916483719987200)
    (by norm_num [abs_of_pos]) (by norm_num [abs_of_pos]) (by norm_num [abs_lt])
    (by norm_num)]
  rw [f32_eval (225) 225 (7) (14745600)
    (by norm_num [abs_of_pos]) (by norm_num [abs_of_pos]) (by norm_num [abs_lt])
    (by norm_num)]
  rw [f64_eval (225 * (442139859559509 / 140737488355328)) (6217591775055595 / 8796093022208) (9) (6217591775055595)
    (by norm_num [abs_of_pos]) (by norm_num [abs_of_pos]) (by norm_num [abs_lt])
    (by norm_num)]
  rw [f64_eval ((6217591775055595 / 8796093022208) / 4000) (6366813977656929 / 36028797018963968) (-3) (6366813977656929)
    (by norm_num [abs_of_pos]) (by norm_num [abs_of_pos]) (by norm_num [abs_lt])
    (by norm_num)]
  rw [f32_eval ((6366813977656929 / 36028797018963968)) (11859115 / 67108864) (-3) (11859115)
    (by norm_num [abs_of_pos]) (by norm_num [abs_of_pos]) (by norm_num [abs_lt])
    (by norm_num)]

/-- The entry near 224 Hz is rounded to the `float` of 225 Hz. -/
theorem jnd_round_224 :
    jnd_round (442139859559509 / 140737488355328) 25 (1475801 / 8388608) =
      (11859115 / 67108864) := by
  unfold jnd_round
  simp only []
  rw [f64_eval ((1475801 / 8388608) * 4000) (184475125 / 262144) (9) (6189958037504000)
    (by norm_num [abs_of_pos]) (by norm_num [abs_of_pos]) (by norm_num [abs_lt])
    (by norm_num)]
  rw [f64_eval ((184475125 / 262144) / (442139859559509 / 140737488355328)) (3940649676286135 / 17592186044416) (7) (7881299352572270)
    (by norm_num [abs_of_pos]) (by norm_num [abs_of_pos]) (by norm_num [abs_lt])
    (by norm_num)]
  rw [f32_eval ((3940649676286135 / 17592186044416)) 224 (7) (14680064)
    (by norm_num [abs_of_pos]) (by norm_num [abs_of_pos]) (by norm_num [abs_lt])
    (by norm_num)]
  rw [f32_eval (224 / 25) (9395241 / 1048576) (3) (9395241)
    (by norm_num [abs_of_pos]) (by norm_num [abs_of_pos]) (by norm_num [abs_lt])
    (by norm_num)]
  rw [f64_eval ((9395241 / 1048576) + 1 / 2) (9919529 / 1048576) (3) (5325506580840448)
    (by norm_num [abs_of_pos]) (by norm_num [abs_of_pos]) (by norm_num [abs_lt])
    (by norm_num)]
  rw [show ⌊((9919529 / 1048576) : ℚ)⌋ = 9 by norm_num [Int.floor_eq_iff]]
  rw [f64_eval ((((9 : ℤ) : ℚ)) * 25) 225 (7) (7916483719987200)
    (by norm_num [abs_of_pos]) (by norm_num [abs_of_pos]) (by norm_num [abs_lt])
    (by norm_num)]
  rw [f32_eval (225) 225 (7) (14745600)
    (by norm_num [abs_of_pos]) (by norm_num [abs_of_pos]) (by norm_num [abs_lt])
    (by norm_num)]
  rw [f64_eval (225 * (442139859559509 / 140737488355328)) (6217591775055595 / 8796093022208) (9) (6217591775055595)
    (by norm_num [abs_of_pos]) (by norm_num [abs_of_pos]) (by norm_num [abs_lt])
    (by norm_num)]
  rw [f64_eval ((6217591775055595 / 8796093022208) / 4000) (6366813977656929 / 36028797018963968) (-3) (6366813977656929)
    (by norm_num [abs_of_pos]) (by norm_num [abs_of_pos]) (by norm_num [abs_lt])
    (by norm_num)]
  rw [f32_eval ((6366813977656929 / 36028797018963968)) (11859115 / 67108864) (-3) (11859115)
    (by norm_num [abs_of_pos]) (by norm_num [abs_of_pos]) (by norm_num [abs_lt])
    (by norm_num)]

/-- The entry near 259 Hz is rounded to the `float` of 250 Hz. -/
theorem jnd_round_259 :
    jnd_round (442139859559509 / 140737488355328) 50 (13651159 / 67108864) =
      (13176795 / 67108864) := by
  unfold jnd_round
  simp only []
  rw [f64_eval ((13651159 / 67108864) * 4000) (1706394875 / 2097152) (9) (7157138849792000)
    (by norm_num [abs_of_pos]) (by norm_num [abs_of_pos]) (by norm_num [abs_lt])
    (by norm_num)]
  rw [f64_eval ((1706394875 / 2097152) / (442139859559509 / 140737488355328)) (4556376104762817 / 17592186044416) (8) (4556376104762817)
    (by norm_num [abs_of_pos]) (by norm_num [abs_of_pos]) (by norm_num [abs_lt])
    (by norm_num)]
  rw [f32_eval ((4556376104762817 / 17592186044416)) 259 (8) (8486912)
    (by norm_num [abs_of_pos]) (by norm_num [abs_of_pos]) (by norm_num [abs_lt])
    (by norm_num)]
  rw [f32_eval (259 / 50) (10863247 / 2097152) (2) (10863247)
    (by norm_num [abs_of_pos]) (by norm_num [abs_of_pos]) (by norm_num [abs_lt])
    (by norm_num)]
  rw [f64_eval ((10863247 / 2097152) + 1 / 2) (11911823 / 2097152) (2) (6395111277592576)
    (by norm_num [abs_of_pos]) (by norm_num [abs_of_pos]) (by norm_num [abs_lt])
    (by norm_num)]
  rw [show ⌊((11911823 / 2097152) : ℚ)⌋ = 5 by norm_num [Int.floor_eq_iff]]
  rw [f64_eval ((((5 : ℤ) : ℚ)) * 50) 250 (7) (8796093022208000)
    (by norm_num [abs_of_pos]) (by norm_num [abs_of_pos]) (by norm_num [abs_lt])
    (by norm_num)]
  rw [f32_eval (250) 250 (7) (16384000)
    (by norm_num [abs_of_pos]) (by norm_num [abs_of_pos]) (by norm_num [abs_lt])
    (by norm_num)]
  rw [f64_eval (250 * (442139859559509 / 140737488355328)) (431777206601083 / 549755813888) (9) (6908435305617328)
    (by norm_num [abs_of_pos]) (by norm_num [abs_of_pos]) (by norm_num [abs_lt])
    (by norm_num)]
  rw [f64_eval ((431777206601083 / 549755813888) / 4000) (442139859559509 / 2251799813685248) (-3) (7074237752952144)
    (by norm_num [abs_of_pos]) (by norm_num [abs_of_pos]) (by norm_num [abs_lt])
    (by norm_num)]
  rw [f32_eval ((442139859559509 / 2251799813685248)) (13176795 / 67108864) (-3) (13176795)
    (by norm_num [abs_of_pos]) (by norm_num [abs_of_pos]) (by norm_num [abs_lt])
    (by norm_num)]

/-- One step of 25 Hz added to the `float` of 225 Hz. -/
theorem jnd_bump_225 :
    f32 (f64 ((11859115 / 67108864) + f64 (f64 (25 * (442139859559509 / 140737488355328)) / 4000))) =
      (6588397 / 33554432) := by
  rw [f64_eval_tie (25 * (442139859559509 / 140737488355328)) (2763374122246931 / 35184372088832) (6) (5526748244493862)
    (by norm_num [abs_of_pos]) (by norm_num [abs_of_pos]) (by norm_num)
    (by decide) (by norm_num)]
  rw [f64_eval ((2763374122246931 / 35184372088832) / 4000) (5659390202361715 / 288230376151711744) (-6) (5659390202361715)
    (by norm_num [abs_of_pos]) (by norm_num [abs_of_pos]) (by norm_num [abs_lt])
    (by norm_num)]
  rw [f64_eval ((11859115 / 67108864) + (5659390202361715 / 288230376151711744)) (3537118830429047 / 18014398509481984) (-3) (7074237660858094)
    (by norm_num [abs_of_pos]) (by norm_num [abs_of_pos]) (by norm_num [abs_lt])
    (by norm_num)]
  rw [f32_eval ((3537118830429047 / 18014398509481984)) (6588397 / 33554432) (-3) (13176794)
    (by norm_num [abs_of_pos]) (by norm_num [abs_of_pos]) (by norm_num [abs_lt])
    (by norm_num)]

/-- The entry written by the loop body at index `i`. -/
theorem jnd_step_getD_self (PI step : ℚ) (l : List ℚ) (i : ℕ) (hi : i < l.length) :
    (jnd_step PI step l i).getD i 0 =
      if i ≠ 0 ∧ jnd_round PI step (l.getD i 0) = l.getD (i - 1) 0 then
        f32 (f64 (jnd_round PI step (l.getD i 0) + f64 (f64 (step * PI) / 4000)))
      else jnd_round PI step (l.getD i 0) := by
  unfold jnd_step
  simp only []
  have hlen2 : i < (l.set i (jnd_round PI step (l.getD i 0))).length := by
    rw [List.length_set]; exact hi
  by_cases h0 : i = 0
  · subst h0
    rw [if_neg (fun h => h rfl), if_neg (fun h => h.1 rfl), getD_set_self _ _ _ hi]
  · rw [if_pos h0, getD_set_self _ _ _ hi, getD_set_ne _ _ _ _ (by omega : i - 1 ≠ i)]
    by_cases hc : jnd_round PI step (l.getD i 0) = l.getD (i - 1) 0
    · rw [if_pos hc, if_pos ⟨h0, hc⟩, getD_set_self _ _ _ hlen2]
    · rw [if_neg hc, if_neg (fun h => hc h.2), getD_set_self _ _ _ hi]

/-- C15 (code at the failing input): with `PI` the `double` nearest to
`3.141592654` and the `float` LSPs nearest to 216, 224, 259, 500, 800, 1100,
1500, 2000, 2500 and 3000 Hz, entries 0 and 1 are both rounded to the `float`
of 225 Hz, so entry 1 receives one further step: the sum, stored as a `float`,
is `6588397/2^25`. Entry 2 is rounded to the `float` of 250 Hz, `13176795/2^26`,
which is one unit in the last place above entry 1; the comparison `==` fails
and no step is added. Outputs 1 and 2 are both within `1/1000` Hz of 250 Hz,
where the rounded value 250 Hz of entry 2 equals the value 225 + 25 Hz of its
predecessor and one further step would give 300 Hz. -/
theorem locate_lsps_jnd_steps_example :
    (locate_lsps_jnd_steps (442139859559509 / 140737488355328)
        [11384751 / 67108864, 1475801 / 8388608, 13651159 / 67108864,
          13176795 / 33554432, 2635359 / 4194304, 7247237 / 8388608, 2470649 / 2097152,
          13176795 / 8388608, 16470993 / 8388608, 2470649 / 1048576] 10).map
        (fun l => (l.getD 0 0, l.getD 1 0, l.getD 2 0)) =
      some (11859115 / 67108864, 6588397 / 33554432, 13176795 / 67108864) ∧
    (13176795 / 67108864 : ℚ) - 6588397 / 33554432 = 1 / 2 ^ 26 ∧
    |(6588397 / 33554432 : ℚ) * 4000 / (442139859559509 / 140737488355328) - 250| <
      1 / 1000 ∧
    |(13176795 / 67108864 : ℚ) * 4000 / (442139859559509 / 140737488355328) - 250| <
      1 / 1000 := by
  refine ⟨?_, by norm_num, by norm_num [abs_lt], by norm_num [abs_lt]⟩
  have hne : ∀ (step : ℚ) (l : List ℚ) (i j : ℕ), j ≠ i →
      (jnd_step (442139859559509 / 140737488355328) step l i).getD j 0 = l.getD j 0 :=
    fun step l i j h => jnd_step_getD_ne _ step l i j h
  have hlen : ∀ (step : ℚ) (l : List ℚ) (i : ℕ),
      (jnd_step (442139859559509 / 140737488355328) step l i).length = l.length :=
    fun step l i => jnd_step_length _ step l i
  have h0 : (jnd_step (442139859559509 / 140737488355328) 25
      [11384751 / 67108864, 1475801 / 8388608, 13651159 / 67108864,
        13176795 / 33554432, 2635359 / 4194304, 7247237 / 8388608, 2470649 / 2097152,
        13176795 / 8388608, 16470993 / 8388608, 2470649 / 1048576] 0).getD 0 0 =
      11859115 / 67108864 := by
    rw [jnd_step_getD_self _ _ _ 0 (by decide), if_neg (fun h => h.1 rfl)]
    exact jnd_round_216
  have h1 : (jnd_step (442139859559509 / 140737488355328) 25
      (jnd_step (442139859559509 / 140737488355328) 25
        [11384751 / 67108864, 1475801 / 8388608, 13651159 / 67108864,
          13176795 / 33554432, 2635359 / 4194304, 7247237 / 8388608, 2470649 / 2097152,
          13176795 / 8388608, 16470993 / 8388608, 2470649 / 1048576] 0) 1).getD 1 0 =
      6588397 / 33554432 := by
    rw [jnd_step_getD_self _ _ _ 1 (by rw [hlen]; decide), hne 25 _ 0 1 (by decide)]
    have hx1 : ([11384751 / 67108864, 1475801 / 8388608, 13651159 / 67108864,
        13176795 / 33554432, 2635359 / 4194304, 7247237 / 8388608, 2470649 / 2097152,
        13176795 / 8388608, 16470993 / 8388608, 2470649 / 1048576] : List ℚ).getD 1 0 =
        1475801 / 8388608 := rfl
    rw [hx1, jnd_round_224]
    simp only [Nat.sub_self] 
    rw [h0, if_pos ⟨by decide, rfl⟩]
    exact jnd_bump_225
  have h2 : (jnd_step (442139859559509 / 140737488355328) 50
      (jnd_step (442139859559509 / 140737488355328) 25
        (jnd_step (442139859559509 / 140737488355328) 25
          [11384751 / 67108864, 1475801 / 8388608, 13651159 / 67108864,
          13176795 / 33554432, 2635359 / 4194304, 7247237 / 8388608, 2470649 / 2097152,
          13176795 / 8388608, 16470993 / 8388608, 2470649 / 1048576] 0) 1) 2).getD 2 0 =
      13176795 / 67108864 := by
    rw [jnd_step_getD_self _ _ _ 2 (by rw [hlen, hlen]; decide), hne 25 _ 1 2 (by decide),
      hne 25 _ 0 2 (by decide)]
    have hx2 : ([11384751 / 67108864, 1475801 / 8388608, 13651159 / 67108864,
          13176795 / 33554432, 2635359 / 4194304, 7247237 / 8388608, 2470649 / 2097152,
          13176795 / 8388608, 16470993 / 8388608, 2470649 / 1048576] : List ℚ).getD 2 0 =
        13651159 / 67108864 := rfl
    rw [hx2, jnd_round_259]
    have h21 : 2 - 1 = 1 := rfl
    rw [h21, h1, if_neg (fun h => absurd h.2 (by norm_num))]
  have hr1 : List.range' 0 2 = [0, 1] := by decide
  have hr2 : List.range' 2 2 = [2, 3] := by decide
  have hn0 : (0 : ℕ) ∉ List.range' 4 6 := by decide
  have hn1 : (1 : ℕ) ∉ List.range' 4 6 := by decide
  have hn2 : (2 : ℕ) ∉ List.range' 4 6 := by decide
  have hm0 : (0 : ℕ) ∉ List.range' 2 2 := by decide
  have hm1 : (1 : ℕ) ∉ List.range' 2 2 := by decide
  unfold locate_lsps_jnd_steps
  rw [if_neg (fun h => h rfl), Option.map_some']
  rw [foldl_getD_of_not_mem _ (hne 100) _ _ 0 hn0,
    foldl_getD_of_not_mem _ (hne 100) _ _ 1 hn1,
    foldl_getD_of_not_mem _ (hne 100) _ _ 2 hn2,
    foldl_getD_of_not_mem _ (hne 50) _ _ 0 hm0,
    foldl_getD_of_not_mem _ (hne 50) _ _ 1 hm1]
  rw [hr1, hr2]
  rw [List.foldl_cons, List.foldl_cons, List.foldl_nil, List.foldl_cons, List.foldl_cons,
    List.foldl_nil]
  rw [hne 50 _ 3 2 (by decide), h2, h1, hne 25 _ 1 0 (by decide), h0]
